import Mathlib

/-!
Shallow embedding of the firesnap ODM core (schema rules, validator,
change-tracked model instances, collection containers, the save/delete
orchestrator, session/callback bookkeeping, and the query builder), with
theorems settling the specification claims.

Modelling conventions:
* JavaScript runtime values are the inductive `JVal`; model instances carry
  their class description (`MClass`), identity tag, fields, change-set and
  store bookkeeping inline.
* JavaScript objects are association lists in key-insertion order; property
  assignment (`setKey`) overwrites in place or appends, matching object
  semantics for the non-integer string keys used throughout.
* All asynchronous store work is deterministic: concurrent `Promise.all`
  waves are sequentialised in list order, and the remote store is an oracle
  inside `Ctx` (`listCols`, `colDocs`, `uniqueExists`, `commitOk`).
* Recursive procedures take a fuel parameter and return `Res`; `Res.fuelOut`
  is fuel exhaustion (never produced for sufficient fuel), `Res.exn` models a
  thrown JavaScript exception.
* Machine numbers are `Int`; claims under study never exercise float
  behaviour.  Error-message strings are abbreviated (no quoted fragments);
  no claim depends on message text.
-/

/-- Generic result of an embedded effectful computation: fuel exhaustion,
a thrown exception (by name), or a value. -/
inductive Res (α : Type) where
  | fuelOut
  | exn (e : String)
  | ok (a : α)

def Res.bind {α β : Type} : Res α → (α → Res β) → Res β
  | .fuelOut, _ => .fuelOut
  | .exn e, _ => .exn e
  | .ok a, f => f a

/-- Scalar constants as they appear inside schema rules (enum members,
default values), plus a collapsed `other` case standing for every
non-scalar runtime value when one is passed to a modelled custom
validator. -/
inductive SVal where
  | s (v : String)
  | n (v : Int)
  | b (v : Bool)
  | other
deriving DecidableEq

/-- A constraint value: JavaScript `number | boolean`. -/
inductive CVal where
  | num (v : Int)
  | bool (v : Bool)
deriving DecidableEq

/-- A rule constraint: either a bare value or a `[value, message]` pair. -/
inductive Cst where
  | bare (v : CVal)
  | pair (v : CVal) (msg : String)
deriving DecidableEq

def Cst.value : Cst → CVal
  | .bare v => v
  | .pair v _ => v

/-- JavaScript truthiness of a bare constraint (`if (rules.x)`); a
`[value, message]` array is always truthy. -/
def Cst.truthy : Cst → Bool
  | .bare (.num n) => n != 0
  | .bare (.bool b) => b
  | .pair _ _ => true

/-- `Validator.constraint`: reformat a rule constraint into value plus
message, the pair form overriding the default message. -/
def Validator.constraint (c : Cst) (msg : String) : CVal × String :=
  match c with
  | .bare v => (v, msg)
  | .pair v m => (v, m)

mutual
/-- A compiled schema field rule (the output of `Schema.format`).  The
JavaScript `of` member is split by payload: `ofType` holds the element-type
name of an `Array` rule, `ofRules` the nested rule set of an `Object` rule.
`model` is the resolved target class of Reference/Collection/SubModel rules.
The `raw` constructor models the non-object entries (single-character
strings) that `Schema.flatten` produces when it walks an element-type string.
Custom validators are modelled as predicates on the scalar view of a value
(the modelled domain of `validate.validator` functions); message-function
forms are collapsed to their resulting string. -/
inductive SRule where
  | mk (type : Option String) (ofType : Option String)
       (ofRules : Option (List (String × SRule)))
       (model : Option MClass)
       (required : Option Cst) (nullOk : Option Bool)
       (enumV : Option (List SVal))
       (minC maxC minlengthC maxlengthC emailC urlC : Option Cst)
       (validateFn : Option (SVal → Bool)) (validateMsg : Option String)
       (writeRule : Option String) (uniqueC : Option Cst)
  | raw (s : String)

/-- A model class as the registry sees it: display name, identity key
(`getModelKey` makes these unique even for same-named classes), collection
path, primary flag (`extends Model` directly), compiled schema, merged
default values (modelled as scalars), detected lifecycle callback names, and
the pure outcome of the instance `beforeSave`/`beforeDelete` hooks. -/
inductive MClass where
  | mk (name classKey path : String) (primary : Bool)
       (schema : List (String × SRule))
       (defaults : List (String × SVal))
       (callbacks : List String)
       (bSaveRet bDelRet : Bool)
end

def MClass.name : MClass → String
  | .mk n _ _ _ _ _ _ _ _ => n

def MClass.classKey : MClass → String
  | .mk _ k _ _ _ _ _ _ _ => k

def MClass.path : MClass → String
  | .mk _ _ p _ _ _ _ _ _ => p

def MClass.primary : MClass → Bool
  | .mk _ _ _ p _ _ _ _ _ => p

def MClass.schema : MClass → List (String × SRule)
  | .mk _ _ _ _ s _ _ _ _ => s

def MClass.defaults : MClass → List (String × SVal)
  | .mk _ _ _ _ _ d _ _ _ => d

def MClass.callbacks : MClass → List String
  | .mk _ _ _ _ _ _ c _ _ => c

def MClass.bSaveRet : MClass → Bool
  | .mk _ _ _ _ _ _ _ b _ => b

def MClass.bDelRet : MClass → Bool
  | .mk _ _ _ _ _ _ _ _ b => b

def SRule.type : SRule → Option String
  | .mk t _ _ _ _ _ _ _ _ _ _ _ _ _ _ _ _ => t
  | .raw _ => none

def SRule.ofType : SRule → Option String
  | .mk _ o _ _ _ _ _ _ _ _ _ _ _ _ _ _ _ => o
  | .raw _ => none

def SRule.ofRules : SRule → Option (List (String × SRule))
  | .mk _ _ o _ _ _ _ _ _ _ _ _ _ _ _ _ _ => o
  | .raw _ => none

def SRule.model : SRule → Option MClass
  | .mk _ _ _ m _ _ _ _ _ _ _ _ _ _ _ _ _ => m
  | .raw _ => none

def SRule.required : SRule → Option Cst
  | .mk _ _ _ _ r _ _ _ _ _ _ _ _ _ _ _ _ => r
  | .raw _ => none

def SRule.nullOk : SRule → Option Bool
  | .mk _ _ _ _ _ n _ _ _ _ _ _ _ _ _ _ _ => n
  | .raw _ => none

def SRule.enumV : SRule → Option (List SVal)
  | .mk _ _ _ _ _ _ e _ _ _ _ _ _ _ _ _ _ => e
  | .raw _ => none

def SRule.minC : SRule → Option Cst
  | .mk _ _ _ _ _ _ _ c _ _ _ _ _ _ _ _ _ => c
  | .raw _ => none

def SRule.maxC : SRule → Option Cst
  | .mk _ _ _ _ _ _ _ _ c _ _ _ _ _ _ _ _ => c
  | .raw _ => none

def SRule.minlengthC : SRule → Option Cst
  | .mk _ _ _ _ _ _ _ _ _ c _ _ _ _ _ _ _ => c
  | .raw _ => none

def SRule.maxlengthC : SRule → Option Cst
  | .mk _ _ _ _ _ _ _ _ _ _ c _ _ _ _ _ _ => c
  | .raw _ => none

def SRule.emailC : SRule → Option Cst
  | .mk _ _ _ _ _ _ _ _ _ _ _ c _ _ _ _ _ => c
  | .raw _ => none

def SRule.urlC : SRule → Option Cst
  | .mk _ _ _ _ _ _ _ _ _ _ _ _ c _ _ _ _ => c
  | .raw _ => none

def SRule.validateFn : SRule → Option (SVal → Bool)
  | .mk _ _ _ _ _ _ _ _ _ _ _ _ _ f _ _ _ => f
  | .raw _ => none

def SRule.validateMsg : SRule → Option String
  | .mk _ _ _ _ _ _ _ _ _ _ _ _ _ _ m _ _ => m
  | .raw _ => none

def SRule.writeRule : SRule → Option String
  | .mk _ _ _ _ _ _ _ _ _ _ _ _ _ _ _ w _ => w
  | .raw _ => none

def SRule.uniqueC : SRule → Option Cst
  | .mk _ _ _ _ _ _ _ _ _ _ _ _ _ _ _ _ u => u
  | .raw _ => none

/-- Runtime JavaScript values of the embedded domain.  A `vModel` is a
change-tracked entity or sub-model instance: class, object identity tag
(JavaScript object identity, used by the callback queue), enumerable fields,
pending change-set, `Symbol(fireRef)` / `Symbol(docSnap)` document paths,
`Symbol(docId)` pre-assigned id, and `Symbol(authValue)`.  A `vColl` is an
ordered entity container with its pending-deletion list.  `vDoc` is the
lightweight `Document` reference created when a saved entity replaces a
nested instance, and `vRef` is the raw Firestore `DocumentReference`
handle (`firestore.doc(path)`) that `Converter.toFirestore` substitutes
for it on the way out.  `vTransform` models the Firestore `FieldValue`
sentinels by constructor name. -/
inductive JVal where
  | vNull
  | vUndef
  | vStr (s : String)
  | vNum (n : Int)
  | vBool (b : Bool)
  | vDate (t : Int)
  | vTransform (cname : String)
  | vDoc (modelName : String) (path : String)
  | vRef (path : String)
  | vArr (xs : List JVal)
  | vObj (fs : List (String × JVal))
  | vModel (cls : MClass) (oid : String)
           (fields changes : List (String × JVal))
           (fireRef docSnap docId : Option String)
           (auth : JVal)
  | vColl (cls : MClass) (path : String) (items deleted : List JVal)

abbrev Fields := List (String × JVal)

/-- Association-list lookup: JavaScript property read (first binding). -/
def getKey {α : Type} (l : List (String × α)) (k : String) : Option α :=
  match l with
  | [] => none
  | (k', v) :: rest => if k' = k then some v else getKey rest k

/-- JavaScript property assignment: overwrite in place, else append. -/
def setKey {α : Type} (l : List (String × α)) (k : String) (v : α) :
    List (String × α) :=
  match l with
  | [] => [(k, v)]
  | (k', v') :: rest => if k' = k then (k, v) :: rest else (k', v') :: setKey rest k v

/-- JavaScript `delete obj[k]`. -/
def delKey {α : Type} (l : List (String × α)) (k : String) : List (String × α) :=
  match l with
  | [] => []
  | (k', v') :: rest => if k' = k then rest else (k', v') :: delKey rest k

/-- `Object.assign(target, src)` over association lists. -/
def assignAll {α : Type} (target src : List (String × α)) : List (String × α) :=
  src.foldl (fun memo kv => setKey memo kv.1 kv.2) target

/-- `utils.constructorName`: `'Undefined'` for null/undefined, otherwise the
value's constructor name. -/
def constructorName : JVal → String
  | .vNull => "Undefined"
  | .vUndef => "Undefined"
  | .vStr _ => "String"
  | .vNum _ => "Number"
  | .vBool _ => "Boolean"
  | .vDate _ => "Date"
  | .vTransform c => c
  | .vDoc _ _ => "Document"
  | .vRef _ => "DocumentReference"
  | .vArr _ => "Array"
  | .vObj _ => "Object"
  | .vModel cls _ _ _ _ _ _ _ => cls.name
  | .vColl _ _ _ _ => "Collection"

/-- `utils.isModelInstance`: the constructor extends `Model` directly. -/
def isModelInstance : JVal → Bool
  | .vModel cls _ _ _ _ _ _ _ => cls.primary
  | _ => false

/-- `utils.isSubModelInstance`. -/
def isSubModelInstance : JVal → Bool
  | .vModel cls _ _ _ _ _ _ _ => !cls.primary
  | _ => false

/-- JavaScript truthiness. -/
def jsTruthy : JVal → Bool
  | .vNull => false
  | .vUndef => false
  | .vStr s => s != ""
  | .vNum n => n != 0
  | .vBool b => b
  | _ => true

/-- `Model.getRef()` on the embedded instance: snapshot ref first. -/
def JVal.getRef : JVal → Option String
  | .vModel _ _ _ _ fireRef docSnap _ _ => docSnap.orElse (fun _ => fireRef)
  | _ => none

/-- Last path segment (a Firestore `DocumentReference.id`). -/
def pathId (p : String) : String :=
  (p.splitOn "/").getLastD p

/-- `Model.getId()`: the ref id when persisted, else the pre-assigned id. -/
def JVal.getId : JVal → Option String
  | .vModel _ _ _ _ fireRef docSnap docId _ =>
    match (docSnap.orElse (fun _ => fireRef)) with
    | some p => some (pathId p)
    | none => docId
  | _ => none

/-- Change-set of a model instance (empty for non-models). -/
def JVal.changes : JVal → Fields
  | .vModel _ _ _ cs _ _ _ _ => cs
  | _ => []

def JVal.fields : JVal → Fields
  | .vModel _ _ fs _ _ _ _ _ => fs
  | _ => []

def JVal.oid : JVal → String
  | .vModel _ o _ _ _ _ _ _ => o
  | _ => ""

def JVal.cls : JVal → Option MClass
  | .vModel c _ _ _ _ _ _ _ => some c
  | .vColl c _ _ _ => some c
  | _ => none

/-- Hexadecimal digit test. -/
def isHexDig (c : Char) : Bool :=
  c.isDigit || ('a' ≤ c && c ≤ 'f') || ('A' ≤ c && c ≤ 'F')

/-- Strip leading and trailing whitespace (JavaScript string trimming). -/
def jsTrimList (cs : List Char) : List Char :=
  ((cs.dropWhile Char.isWhitespace).reverse.dropWhile Char.isWhitespace).reverse

/-- Decimal-literal tail of the JavaScript `StringNumericLiteral` grammar:
`digits [. digits] [exponent]` or `. digits [exponent]`. -/
def jsDecimalLit (cs : List Char) : Bool :=
  let intPart := cs.takeWhile Char.isDigit
  let rest := cs.dropWhile Char.isDigit
  let expOk : List Char → Bool := fun r =>
    match r with
    | [] => true
    | e :: r' =>
      if e = 'e' || e = 'E' then
        let r'' := match r' with
          | c :: r₂ => if c = '+' || c = '-' then r₂ else r'
          | [] => r'
        r''.length > 0 && r''.all Char.isDigit
      else false
  match rest with
  | [] => !intPart.isEmpty
  | '.' :: rest₂ =>
    let frac := rest₂.takeWhile Char.isDigit
    let rest₃ := rest₂.dropWhile Char.isDigit
    (!intPart.isEmpty || !frac.isEmpty) && expOk rest₃
  | _ => !intPart.isEmpty && expOk rest

/-- `!isNaN(Number(s))`: the string converts to a JavaScript number.
Covers the whitespace/empty, signed decimal, `Infinity` and radix-prefix
cases of the `StringToNumber` grammar. -/
def jsIsNumericStr (s : String) : Bool :=
  match jsTrimList s.toList with
  | [] => true
  | '0' :: x :: rest =>
    if x = 'x' || x = 'X' then rest.length > 0 && rest.all isHexDig
    else if x = 'b' || x = 'B' then rest.length > 0 && rest.all (fun c => c = '0' || c = '1')
    else if x = 'o' || x = 'O' then rest.length > 0 && rest.all (fun c => '0' ≤ c && c ≤ '7')
    else jsDecimalLit ('0' :: x :: rest)
  | c :: rest =>
    let cs₁ := if c = '+' || c = '-' then rest else c :: rest
    cs₁ = "Infinity".toList || jsDecimalLit cs₁

/-- `isNaN(parseInt(s))`: true when no leading integer can be parsed. -/
def jsParseIntIsNaN (s : String) : Bool :=
  match jsTrimList s.toList with
  | [] => true
  | '0' :: x :: rest =>
    if x = 'x' || x = 'X' then !(rest.length > 0 && rest.all isHexDig)
    else false
  | c :: rest =>
    let cs₁ := if c = '+' || c = '-' then rest else c :: rest
    match cs₁ with
    | [] => true
    | c' :: _ => !c'.isDigit

/-- Split a character list on a non-empty separator; the fuel is bounded
below by the list length plus one so the zero case is unreachable. -/
def splitFuel (fuel : Nat) (sep : List Char) (cs acc : List Char) :
    List (List Char) :=
  match fuel with
  | 0 => [acc]
  | fuel + 1 =>
    match cs with
    | [] => [acc]
    | c :: rest =>
      if sep.isPrefixOf (c :: rest) then
        acc :: splitFuel fuel sep (List.drop sep.length (c :: rest)) []
      else
        splitFuel fuel sep rest (acc ++ [c])

/-- `String.prototype.split` with a plain non-empty-string separator. -/
def jsSplit (s sep : String) : List String :=
  if sep = "" then [s]
  else (splitFuel (s.length + 1) sep.toList s.toList []).map (fun cs => ⟨cs⟩)

/-- Join path segments (`Array.prototype.join`). -/
def jsJoin (sep : String) (segs : List String) : String :=
  match segs with
  | [] => ""
  | s :: rest => rest.foldl (fun acc t => acc ++ sep ++ t) s

/-- Canonical array-index string: `String(n) = s` for some natural `n`. -/
def isCanonicalIndex (s : String) : Option Nat :=
  match s.toList with
  | [] => none
  | ['0'] => some 0
  | '0' :: _ => none
  | cs =>
    if cs.all Char.isDigit then
      some (cs.foldl (fun n c => 10 * n + (c.toNat - 48)) 0)
    else none

/-- Index-keyed entries of an array, as `Object.keys` enumerates them. -/
def idxEntries (xs : List JVal) (start : Nat) : Fields :=
  match xs with
  | [] => []
  | x :: rest => (toString start, x) :: idxEntries rest (start + 1)

mutual
/-- `utils.flattenObject`, the fold over `Object.keys` with
`Object.assign({}, memo, branch)` accumulation.  Reading `.constructor` of a
null/undefined property value throws, modelled as `Res.exn`. -/
def flattenGo (fuel : Nat) (excludeArray : Bool) (sep : String) :
    Fields → List String → Fields → Res Fields
  | [], _, memo => .ok memo
  | (k, v) :: rest, path, memo =>
    match fuel with
    | 0 => .fuelOut
    | fuel + 1 =>
      match flattenBranch fuel excludeArray sep v (path ++ [k]) with
      | .fuelOut => .fuelOut
      | .exn e => .exn e
      | .ok entries => flattenGo fuel excludeArray sep rest path (assignAll memo entries)

/-- One property of `flattenObject`: recurse into plain objects (and arrays
unless excluded), emit a joined-path leaf otherwise. -/
def flattenBranch (fuel : Nat) (excludeArray : Bool) (sep : String)
    (v : JVal) (path : List String) : Res Fields :=
  match fuel with
  | 0 => .fuelOut
  | fuel + 1 =>
    match v with
    | .vNull => .exn "TypeError"
    | .vUndef => .exn "TypeError"
    | .vObj gs => flattenGo fuel excludeArray sep gs path []
    | .vArr xs =>
      if excludeArray then .ok [(jsJoin sep path, .vArr xs)]
      else flattenGo fuel excludeArray sep (idxEntries xs 0) path []
    | leaf => .ok [(jsJoin sep path, leaf)]
end

/-- `utils.flattenObject` entry point. -/
def flattenObject (fuel : Nat) (src : Fields) (excludeArray : Bool)
    (sep : String) : Res Fields :=
  flattenGo fuel excludeArray sep src [] []

/-- Property read during `expandObject`'s reduce (`memo[prop]`).  Reading a
named property of a scalar yields undefined; a non-index string property of
an array is modelled as absent (such keys never arise from flattening). -/
def expandRead (cur : JVal) (seg : String) : Option JVal :=
  match cur with
  | .vObj fs => getKey fs seg
  | .vArr xs =>
    match isCanonicalIndex seg with
    | some n => xs.get? n
    | none => none
  | _ => none

/-- Set an array slot, extending with undefined holes as JavaScript does. -/
def listSetPad (xs : List JVal) (n : Nat) (v : JVal) : List JVal :=
  match xs, n with
  | _ :: rest, 0 => v :: rest
  | x :: rest, n + 1 => x :: listSetPad rest n v
  | [], 0 => [v]
  | [], n + 1 => .vUndef :: listSetPad [] n v

/-- Property write during `expandObject`'s reduce (`memo[prop] = x`).
Assigning a property of a primitive throws in strict mode; a non-index
string property of an array is outside the modelled domain and also
reported as a failure. -/
def expandWrite (cur : JVal) (seg : String) (v : JVal) : Res JVal :=
  match cur with
  | .vObj fs => .ok (.vObj (setKey fs seg v))
  | .vArr xs =>
    match isCanonicalIndex seg with
    | some n => .ok (.vArr (listSetPad xs n v))
    | none => .exn "UnmodelledArrayProp"
  | _ => .exn "TypeError"

/-- The `keys.reduce` body of `utils.expandObject`: walk/extend the nested
containers along the split key, keeping an existing truthy node, creating an
array when the next segment is numeric, and writing the leaf at the end
(only when the existing slot is falsy). -/
def expandStep : JVal → List String → JVal → Res JVal
  | cur, [], _ => .ok cur
  | cur, [seg], v =>
    match expandRead cur seg with
    | some c => if jsTruthy c then .ok cur else expandWrite cur seg v
    | none => expandWrite cur seg v
  | cur, seg :: next :: rest, v =>
    let target :=
      match expandRead cur seg with
      | some c =>
        if jsTruthy c then c
        else if jsIsNumericStr next then JVal.vArr [] else JVal.vObj []
      | none => if jsIsNumericStr next then JVal.vArr [] else JVal.vObj []
    match expandStep target (next :: rest) v with
    | .fuelOut => .fuelOut
    | .exn e => .exn e
    | .ok child => expandWrite cur seg child

/-- `utils.expandObject`: fold every flat entry into a fresh result object. -/
def expandObject (obj : Fields) (sep : String) : Res Fields :=
  let top := obj.foldl
    (fun (acc : Res JVal) (kv : String × JVal) =>
      match acc with
      | .fuelOut => .fuelOut
      | .exn e => .exn e
      | .ok cur => expandStep cur (jsSplit kv.1 sep) kv.2)
    (Res.ok (JVal.vObj []))
  match top with
  | .fuelOut => .fuelOut
  | .exn e => .exn e
  | .ok (.vObj fs) => .ok fs
  | .ok _ => .exn "Unreachable"

example : flattenObject 9 [("a", .vObj [("b", .vNum 1)]), ("c", .vStr "x")] true "."
    = .ok [("a.b", .vNum 1), ("c", .vStr "x")] := by rfl

example : expandObject [("a.b", .vNum 1), ("c", .vStr "x")] "."
    = .ok [("a", .vObj [("b", .vNum 1)]), ("c", .vStr "x")] := by rfl

example : flattenObject 9 [("a", .vObj [])] true "." = .ok [] := by rfl

example : expandObject [("t.0", .vNum 7)] "."
    = .ok [("t", .vArr [.vNum 7])] := by rfl

/-- `Schema.types`: the supported field data types. -/
def Schema.types : List String :=
  ["String", "Number", "Date", "Boolean", "Array", "Object",
   "Reference", "Collection", "GeoPoint", "Timestamp", "SubModel"]

/-- The entries `Schema.flatten` produces when it recurses into an
element-type STRING (an `Array` rule's `of`): `Object.keys` of a string are
its indices and each character is a one-character string, emitted as a
non-object leaf. -/
def charRuleEntries (cs : List Char) (path : List String) (start : Nat) :
    List (String × SRule) :=
  match cs with
  | [] => []
  | c :: rest =>
    (jsJoin "." (path ++ [toString start]), SRule.raw (String.mk [c]))
      :: charRuleEntries rest path (start + 1)

/-- Truthiness of the JavaScript `of` member of a rule (split here into
`ofType`/`ofRules`). -/
def SRule.ofPresent (r : SRule) : Bool :=
  (match r.ofType with | some s => s != "" | none => false) || r.ofRules.isSome

/-- `Schema.flatten`: convert a nested rule tree into a dot-path-keyed flat
rule map.  A rule whose type is supported and that has no `of` is a leaf;
otherwise the function recurses into `of` — a nested rule set, an
element-type string (walked character-wise), or `undefined`, in which case
`Object.keys(undefined)` throws. -/
def Schema.flattenGo (fuel : Nat) :
    List (String × SRule) → List String → List (String × SRule) →
    Res (List (String × SRule))
  | [], _, memo => .ok memo
  | (k, r) :: rest, path, memo =>
    match fuel with
    | 0 => .fuelOut
    | fuel + 1 =>
      let branch : Res (List (String × SRule)) :=
        match r with
        | .raw s => .ok [(jsJoin "." (path ++ [k]), .raw s)]
        | _ =>
          let typeSupported := match r.type with
            | some t => Schema.types.contains t
            | none => false
          if typeSupported && !r.ofPresent then
            .ok [(jsJoin "." (path ++ [k]), r)]
          else
            match r.ofRules with
            | some l => Schema.flattenGo fuel l (path ++ [k]) []
            | none =>
              match r.ofType with
              | some s =>
                if s = "" then .exn "TypeError"
                else .ok (charRuleEntries s.toList (path ++ [k]) 0)
              | none => .exn "TypeError"
      match branch with
      | .fuelOut => .fuelOut
      | .exn e => .exn e
      | .ok entries => Schema.flattenGo fuel rest path (assignAll memo entries)

/-- `Schema.flatten` entry point. -/
def Schema.flatten (fuel : Nat) (src : List (String × SRule)) :
    Res (List (String × SRule)) :=
  Schema.flattenGo fuel src [] []

/-- Validation options handed to `Validator.check`. -/
structure VOpts where
  ownerField : Option String
  newDocument : Bool
  authValue : JVal

/-- Result triple of `Validator.check` / `Model.validate`. -/
structure VRes where
  valid : Bool
  errors : List (String × String)
  data : Fields

/-- Pure oracles for the pieces of the environment the validator consults:
the e-mail/URL regular expressions and the uniqueness store lookup
(`classKey`, field, value, excluded document id). -/
structure VCtx where
  emailTest : String → Bool
  urlTest : String → Bool
  uniqueExists : String → String → JVal → Option String → Bool

abbrev EMap := List (String × String)

def cvalToInt : CVal → Int
  | .num n => n
  | .bool b => if b then 1 else 0

def cvalStr : CVal → String
  | .num n => toString n
  | .bool b => toString b

/-- `ValidationRules.min.validator`; non-numeric values compare false (the
JavaScript comparison against `NaN`); numeric strings are outside the
modelled domain of mis-typed constraints. -/
def vrMin (v : JVal) (c : CVal) : Bool :=
  match v with
  | .vNum n => n ≥ cvalToInt c
  | _ => false

def vrMax (v : JVal) (c : CVal) : Bool :=
  match v with
  | .vNum n => n ≤ cvalToInt c
  | _ => false

def vrMinlength (v : JVal) (c : CVal) : Bool :=
  match v with
  | .vStr s => (s.length : Int) ≥ cvalToInt c
  | _ => false

def vrMaxlength (v : JVal) (c : CVal) : Bool :=
  match v with
  | .vStr s => (s.length : Int) ≤ cvalToInt c
  | _ => false

def vrEmail (ctx : VCtx) (v : JVal) (c : CVal) : Bool :=
  match c with
  | .bool false => true
  | _ =>
    match v with
    | .vStr s => ctx.emailTest s
    | _ => false

def vrUrl (ctx : VCtx) (v : JVal) (c : CVal) : Bool :=
  match c with
  | .bool false => true
  | _ =>
    match v with
    | .vStr s => ctx.urlTest s
    | _ => false

/-- The built-in `ValidationRules` table in its definition (iteration)
order: name, constraint accessor, default message, validator. -/
def validationRules (ctx : VCtx) :
    List ((SRule → Option Cst) × (String → JVal → CVal → String) × (JVal → CVal → Bool)) :=
  [(SRule.minC,
    fun f _ c => "The field " ++ f ++ " must be greater than " ++ cvalStr c, vrMin),
   (SRule.maxC,
    fun f _ c => "The field " ++ f ++ " must be less than " ++ cvalStr c, vrMax),
   (SRule.minlengthC,
    fun f _ c => "The field " ++ f ++ " must be at least " ++ cvalStr c ++ " characters long",
    vrMinlength),
   (SRule.maxlengthC,
    fun f _ c => "The field " ++ f ++ " must be less than " ++ cvalStr c ++ " characters long",
    vrMaxlength),
   (SRule.emailC, fun _ _ _ => "The email is invalid", vrEmail ctx),
   (SRule.urlC, fun _ _ _ => "The URL is invalid", vrUrl ctx)]

/-- The built-in rule loop of `Validator.check`: first failing rule wins. -/
def builtinError (ctx : VCtx) (f : String) (rules : SRule) (val : JVal) :
    Option String :=
  (validationRules ctx).foldl
    (fun acc entry =>
      match acc with
      | some e => some e
      | none =>
        match entry.1 rules with
        | some c =>
          if c.truthy then
            let msg := match c with
              | .bare v => entry.2.1 f val v
              | .pair _ m => m
            if !entry.2.2 val c.value then some msg else none
          else none
        | none => none)
    none

/-- Firestore `FieldValue` transform constructor names that bypass all
further checks. -/
def transformNames : List String :=
  ["NumericIncrementTransform", "DeleteTransform", "ArrayUnionTransform",
   "ArrayRemoveTransform", "ServerTimestampTransform"]

/-- Scalar view of a runtime value, the modelled domain of custom
validators. -/
def scalarView : JVal → SVal
  | .vStr s => .s s
  | .vNum n => .n n
  | .vBool b => .b b
  | _ => .other

/-- `enum.includes(value)` membership by strict equality. -/
def svalEq (v : JVal) (e : SVal) : Bool :=
  match v, e with
  | .vStr a, .s b => a = b
  | .vNum a, .n b => a = b
  | .vBool a, .b b => a = b
  | _, _ => false

/-- The write-permission test: `write: 'admin'` records an error only when
the auth value is present (neither null nor undefined) and not exactly
`true`. -/
def adminRejects (a : JVal) : Bool :=
  match a with
  | .vNull => false
  | .vUndef => false
  | .vBool true => false
  | _ => true

def JVal.collItems : JVal → List JVal
  | .vColl _ _ items _ => items
  | _ => []

def JVal.arrElems : JVal → List JVal
  | .vArr xs => xs
  | _ => []

def JVal.objFields : JVal → Fields
  | .vObj fs => fs
  | _ => []

/-- Outcome of the compound-type switch of `Validator.check` for one field:
an error set ending the field, or fall-through with the current local
`value` and the current `data[field]`. -/
inductive CompOut where
  | errOut (adds : EMap)
  | go (val dataF : JVal)

/-- Outcome of one field of `Validator.check`: errors recorded (field
excluded) or validated with the value to place in the sanitized output. -/
inductive FOut where
  | err (adds : EMap)
  | pass (cleanVal : JVal)

/-- The required-field pass of `Validator.check` (new-document mode only):
a truthy `required` constraint whose value is exactly `true` records an
error for an absent or empty-string field. -/
def requiredErrors (schema : List (String × SRule)) (data : Fields)
    (opts : VOpts) : EMap :=
  if opts.newDocument then
    schema.foldl
      (fun errs kv =>
        match kv.2.required with
        | some c =>
          let absent : Bool := match getKey data kv.1 with
            | none => true
            | some (.vStr s) => s = ""
            | some _ => false
          if c.truthy && absent then
            let vm := Validator.constraint c "This field is required"
            if vm.1 = .bool true then setKey errs kv.1 vm.2 else errs
          else errs
        | none => errs)
      []
  else []

/-- Prefix the error keys of a nested validation with `field.`. -/
def prefixDot (f : String) (errs : EMap) : EMap :=
  errs.map (fun km => (f ++ "." ++ km.1, km.2))

/-- Prefix the error keys of a collection/array member validation with
`field[i]`. -/
def prefixIdx (f : String) (i : Nat) (errs : EMap) : EMap :=
  errs.map (fun km => (f ++ "[" ++ toString i ++ "]" ++ km.1, km.2))

/-- The write-permission rule and final inclusion. -/
def checkAdminRule (opts : VOpts) (f : String) (dataF : JVal)
    (rules : SRule) : Res FOut :=
  if rules.writeRule = some "admin" && adminRejects opts.authValue then
    .ok (.err [(f, "Admin permission required")])
  else .ok (.pass dataF)

/-- The trailing scalar rule checks of one field: built-in rules, the
custom validator, the write-permission rule, then inclusion in the output. -/
def checkScalarRules (ctx : VCtx) (opts : VOpts) (f : String)
    (val dataF : JVal) (rules : SRule) : Res FOut :=
  match builtinError ctx f rules val with
  | some msg => .ok (.err [(f, msg)])
  | none =>
    match rules.validateFn with
    | some fn =>
      if !fn (scalarView val) then
        let msg := match rules.validateMsg with
          | some m => m
          | none => "Invalid value"
        .ok (.err [(f, msg)])
      else checkAdminRule opts f dataF rules
    | none => checkAdminRule opts f dataF rules

mutual
/-- `Validator.check(schema, data, options)`: required pass, then the
field loop; `valid` is final-error-map emptiness. -/
def checkData (fuel : Nat) (ctx : VCtx) (schema : List (String × SRule))
    (data : Fields) (opts : VOpts) : Res VRes :=
  match fuel with
  | 0 => .fuelOut
  | fuel + 1 =>
    match checkFields fuel ctx schema opts data (requiredErrors schema data opts) [] with
    | .fuelOut => .fuelOut
    | .exn e => .exn e
    | .ok (errors, cleaned) => .ok ⟨errors.isEmpty, errors, cleaned⟩

/-- The `fields:` loop of `Validator.check`.  Unknown fields and fields
already carrying an error are skipped; otherwise one field is processed and
either its errors are merged or its value is placed in the output. -/
def checkFields (fuel : Nat) (ctx : VCtx) (schema : List (String × SRule))
    (opts : VOpts) :
    Fields → EMap → Fields → Res (EMap × Fields)
  | [], errors, cleaned => .ok (errors, cleaned)
  | (f, v) :: rest, errors, cleaned =>
    match fuel with
    | 0 => .fuelOut
    | fuel + 1 =>
      match getKey schema f with
      | none => checkFields fuel ctx schema opts rest errors cleaned
      | some rules =>
        if (getKey errors f).isSome then
          checkFields fuel ctx schema opts rest errors cleaned
        else
          match checkOne fuel ctx opts f v rules with
          | .fuelOut => .fuelOut
          | .exn e => .exn e
          | .ok (.err adds) =>
            checkFields fuel ctx schema opts rest (assignAll errors adds) cleaned
          | .ok (.pass cleanVal) =>
            checkFields fuel ctx schema opts rest errors (setKey cleaned f cleanVal)

/-- One field of `Validator.check`, in source order: null/undefined
handling, the missing-type assignment (which throws on the non-object
pseudo-rules produced by `Schema.flatten`), the transform bypass, the type
check, the compound-type switch, then enum, built-in, custom and
write-permission rules. -/
def checkOne (fuel : Nat) (ctx : VCtx) (opts : VOpts) (f : String) (v : JVal)
    (rules : SRule) : Res FOut :=
  match fuel with
  | 0 => .fuelOut
  | fuel + 1 =>
    match v with
    | .vNull =>
      if rules.nullOk = some true then .ok (.pass .vNull)
      else .ok (.err [(f, "Null value not allowed for this field")])
    | .vUndef => .ok (.err [(f, "Value is undefined")])
    | _ =>
      match rules with
      | .raw _ => .exn "TypeError"
      | _ =>
        let τ := match rules.type with
          | some t => t
          | none => constructorName v
        if transformNames.contains (constructorName v) then .ok (.pass v)
        else if τ != "Reference" && τ != "SubModel" && constructorName v != τ then
          .ok (.err [(f, "Invalid type " ++ constructorName v ++ " expecting " ++ τ)])
        else
          match checkCompound fuel ctx opts f v rules τ with
          | .fuelOut => .fuelOut
          | .exn e => .exn e
          | .ok (.errOut adds) => .ok (.err adds)
          | .ok (.go val dataF) =>
            match rules.enumV with
            | some es =>
              if !es.any (svalEq val) then
                .ok (.err [(f, "Invalid enum value")])
              else checkScalarRules ctx opts f val dataF rules
            | none => checkScalarRules ctx opts f val dataF rules

/-- The compound-type switch of `Validator.check`. -/
def checkCompound (fuel : Nat) (ctx : VCtx) (opts : VOpts) (f : String)
    (v : JVal) (rules : SRule) (τ : String) : Res CompOut :=
  match fuel with
  | 0 => .fuelOut
  | fuel + 1 =>
    if τ = "Reference" then
      match rules.model with
      | none => .exn "TypeError"
      | some mc =>
        if constructorName v != mc.name then
          .ok (.errOut [(f, "Invalid type " ++ constructorName v ++ " expecting " ++ mc.name)])
        else
          match validateM fuel ctx v with
          | .fuelOut => .fuelOut
          | .exn e => .exn e
          | .ok r =>
            if !r.valid then .ok (.errOut (prefixDot f r.errors))
            else .ok (.go v v)
    else if τ = "Collection" then
      match rules.model with
      | none => .exn "TypeError"
      | some mc =>
        match collItems fuel ctx f mc v.collItems 0 with
        | .fuelOut => .fuelOut
        | .exn e => .exn e
        | .ok (some adds) => .ok (.errOut adds)
        | .ok none => .ok (.go v v)
    else if τ = "SubModel" then
      match rules.model with
      | none => .exn "TypeError"
      | some mc =>
        if mc.schema.isEmpty then .ok (.go v v)
        else
          match checkData fuel ctx mc.schema v.fields opts with
          | .fuelOut => .fuelOut
          | .exn e => .exn e
          | .ok r =>
            if !r.valid then .ok (.errOut (prefixDot f r.errors))
            else .ok (.go v (.vObj r.data))
    else if τ = "Object" then
      let ofArg : Option (Res (List (String × SRule))) :=
        match rules.ofRules with
        | some l => if l.isEmpty then none else some (Schema.flattenGo fuel l [] [])
        | none =>
          match rules.ofType with
          | some s => if s = "" then none else some (.ok (charRuleEntries s.toList [] 0))
          | none => none
      match ofArg with
      | none => .ok (.go v v)
      | some flatSchemaR =>
        match flatSchemaR with
        | .fuelOut => .fuelOut
        | .exn e => .exn e
        | .ok flatSchema =>
          match flattenGo fuel true "." v.objFields [] [] with
          | .fuelOut => .fuelOut
          | .exn e => .exn e
          | .ok flatObject =>
            match checkData fuel ctx flatSchema flatObject opts with
            | .fuelOut => .fuelOut
            | .exn e => .exn e
            | .ok r =>
              if !r.valid then .ok (.errOut (prefixDot f r.errors))
              else
                match expandObject flatObject "." with
                | .fuelOut => .fuelOut
                | .exn e => .exn e
                | .ok expanded => .ok (.go (.vObj expanded) v)
    else if τ = "Array" then
      match arrItems fuel ctx f rules v.arrElems 0 with
      | .fuelOut => .fuelOut
      | .exn e => .exn e
      | .ok (some adds) => .ok (.errOut adds)
      | .ok none => .ok (.go v v)
    else .ok (.go v v)

/-- The member loop of the `Collection` case: every member must be an
instance of the rule's model and validate; the field short-circuits on the
first failing member. -/
def collItems (fuel : Nat) (ctx : VCtx) (f : String) (mc : MClass) :
    List JVal → Nat → Res (Option EMap)
  | [], _ => .ok none
  | item :: rest, i =>
    match fuel with
    | 0 => .fuelOut
    | fuel + 1 =>
      if constructorName item != mc.name then
        .ok (some [(f ++ "[" ++ toString i ++ "]",
          "Invalid type " ++ constructorName item ++ " expecting " ++ mc.name)])
      else
        match validateM fuel ctx item with
        | .fuelOut => .fuelOut
        | .exn e => .exn e
        | .ok r =>
          if !r.valid then .ok (some (prefixIdx f i r.errors))
          else collItems fuel ctx f mc rest (i + 1)

/-- The element loop of the `Array` case: an element type of `Reference`
routes through member validation, any other element type is a constructor
name check. -/
def arrItems (fuel : Nat) (ctx : VCtx) (f : String) (rules : SRule) :
    List JVal → Nat → Res (Option EMap)
  | [], _ => .ok none
  | item :: rest, i =>
    match fuel with
    | 0 => .fuelOut
    | fuel + 1 =>
      if rules.ofType = some "Reference" then
        match rules.model with
        | none => .exn "TypeError"
        | some mc =>
          if constructorName item != mc.name then
            .ok (some [(f ++ "[" ++ toString i ++ "]",
              "Invalid type " ++ constructorName item ++ " expecting " ++ mc.name)])
          else
            match validateM fuel ctx item with
            | .fuelOut => .fuelOut
            | .exn e => .exn e
            | .ok r =>
              if !r.valid then .ok (some (prefixIdx f i r.errors))
              else arrItems fuel ctx f rules rest (i + 1)
      else
        let want := match rules.ofType with
          | some t => t
          | none => "Undefined"
        if constructorName item != want then
          .ok (some [(f ++ "[" ++ toString i ++ "]",
            "Invalid type " ++ constructorName item ++ " expecting element type")])
        else arrItems fuel ctx f rules rest (i + 1)

/-- `Model.validate`: run `Validator.check` over the pending change-set
with the instance's auth value and persistence state, then the separate
unique-rule pass, which consults the store oracle once per unique field
present (and truthy) in the diff. -/
def validateM (fuel : Nat) (ctx : VCtx) (m : JVal) : Res VRes :=
  match fuel with
  | 0 => .fuelOut
  | fuel + 1 =>
    match m with
    | .vModel cls _ _ changes fireRef docSnap _ auth =>
      let newDoc := (docSnap.orElse (fun _ => fireRef)) = none
      match checkData fuel ctx cls.schema changes
          ⟨none, newDoc, auth⟩ with
      | .fuelOut => .fuelOut
      | .exn e => .exn e
      | .ok result =>
        let final := cls.schema.foldl
          (fun (acc : VRes) kv =>
            match kv.2.uniqueC with
            | none => acc
            | some c =>
              if jsTruthy ((getKey changes kv.1).getD .vUndef) &&
                  (getKey acc.errors kv.1) = none then
                let vm := Validator.constraint c ("This " ++ kv.1 ++ " is already taken")
                if vm.1 ≠ .bool true then acc
                else
                  let excl := if !newDoc then m.getId else none
                  if ctx.uniqueExists cls.classKey kv.1
                      ((getKey changes kv.1).getD .vUndef) excl then
                    ⟨false, setKey acc.errors kv.1 vm.2, acc.data⟩
                  else acc
              else acc)
          result
        .ok final
    | _ => .exn "TypeError"
end

/-- A session handle: transaction flag, generated session identifier, and
the internally-owned flag (`Firesnap.INTERNAL_KEY`). -/
structure Session where
  isTxn : Bool
  sessId : String
  internal : Bool
deriving DecidableEq

/-- A store write staged in a batch/transaction. -/
inductive Write where
  | setDoc (path : String) (data : Fields)
  | updateDoc (path : String) (data : Fields)
  | deleteDoc (path : String)

/-- A queued lifecycle callback: instance identity tag, method name,
arguments. -/
structure CB where
  tag : String
  method : String
  args : List JVal

/-- Observable world state threaded through the persistence orchestrator:
staged writes (in emission order), the session-keyed callback queue, the
log of executed callbacks, the stream of store-generated document ids, and
a counter of entity-level validation runs. -/
structure World where
  writes : List Write
  queue : List (String × CB)
  executed : List CB
  nextIds : List String
  valCount : Nat

/-- Environment oracles: validator context, store layout for deletes
(`listCollections` under a document path, documents of a collection path),
primary-key configuration, per-session commit outcome, and date parsing. -/
structure Ctx where
  v : VCtx
  listCols : String → List String
  colDocs : String → List String
  populatePrimaryKey : Bool
  primaryKeyName : String
  commitOk : String → Bool
  parseDate : String → Option Int

/-- World-carrying result of the orchestrator functions. -/
inductive WRes (α : Type) where
  | fuelOut
  | exn (e : String) (w : World)
  | ok (a : α) (w : World)

/-- Draw a store-generated id. -/
def takeId (w : World) : String × World :=
  match w.nextIds with
  | i :: rest => (i, { w with nextIds := rest })
  | [] => ("gen", w)

/-- `Firesnap.batch`: a fresh batch tagged with a generated session id. -/
def mkBatch (internal : Bool) (w : World) : Session × World :=
  let iw := takeId w
  (⟨false, iw.1, internal⟩, iw.2)

/-- `Storage.storeCallback`. -/
def storeCallback (w : World) (sessId : String) (cb : CB) : World :=
  { w with queue := w.queue ++ [(sessId, cb)] }

/-- `Storage.getCallbacks`. -/
def getCallbacks (sessId : String) (w : World) : List CB :=
  (w.queue.filter (fun e => e.1 = sessId)).map (fun e => e.2)

/-- `Storage.clearCallbacks`. -/
def clearQueue (sessId : String) (w : World) : World :=
  { w with queue := w.queue.filter (fun e => e.1 ≠ sessId) }

/-- The interposed `commit` of `Firesnap.batch`: run the real commit, then
every callback queued under the session id (their execution is logged),
then clear the queue regardless; a failed commit discards the callbacks
without running them and rethrows. -/
def batchCommit (ctx : Ctx) (s : Session) (w : World) : WRes Unit :=
  if ctx.commitOk s.sessId then
    .ok () { (clearQueue s.sessId w) with
             executed := w.executed ++ getCallbacks s.sessId w }
  else
    .exn "CommitError" (clearQueue s.sessId w)

/-- `options.callbacks`: `true`, `false`, or a lifecycle-stage name. -/
inductive CbOpt where
  | tru
  | fls
  | str (s : String)
deriving DecidableEq

/-- `SaveParams` after defaulting. -/
structure SaveParams where
  callbacks : CbOpt
  validate : Bool
  overwrite : Bool
  session : Option Session
  recurring : Bool
  parentRef : Option String
  fieldName : Option String

/-- `DeleteParams` after defaulting. -/
structure DeleteParams where
  callbacks : CbOpt
  session : Option Session
  recurring : Bool

/-- Position of the first slash (`-1` when absent), for the
`Collection.delete` sub-collection guard. -/
def strIndexOfSlash (p : String) : Int :=
  match p.toList.findIdx? (fun c => c = '/') with
  | some i => (i : Int)
  | none => -1

/-- The `for (const field in data)` loop of `Converter.toFirestore` over an
object argument: every field's value goes through one dispatch of the
`switch (constructorName(value))` (`recur`); a `none` result is the bare
`break` of the `Collection` arm, which skips the assignment and drops the
field, otherwise `formatted[field] = value`. -/
def Converter.convFields (recur : JVal → Res (Option JVal)) :
    Fields → Fields → Res Fields
  | acc, [] => .ok acc
  | acc, (k, v) :: rest =>
    match recur v with
    | .fuelOut => .fuelOut
    | .exn e => .exn e
    | .ok none => Converter.convFields recur acc rest
    | .ok (some v₂) => Converter.convFields recur (setKey acc k v₂) rest

/-- The same loop over an array argument (`formatted` starts as `[]` and
`field` ranges over the indices `0, 1, …`): a dropped (`Collection`)
element skips the index assignment, so its slot stays a hole — read back
as `undefined` — whenever a later index is assigned, and the result array
ends at the last assigned index. -/
def Converter.convElems (recur : JVal → Res (Option JVal)) :
    Nat → List JVal → List JVal → Res (List JVal)
  | _, acc, [] => .ok acc
  | i, acc, x :: rest =>
    match recur x with
    | .fuelOut => .fuelOut
    | .exn e => .exn e
    | .ok none => Converter.convElems recur (i + 1) acc rest
    | .ok (some v₂) =>
      Converter.convElems recur (i + 1)
        (acc ++ List.replicate (i - acc.length) JVal.vUndef ++ [v₂]) rest

/-- One value conversion of `Converter.toFirestore`: the body of the
`switch (constructorName(value))`.  `none` models the bare `break` of the
`Collection` arm (the field is dropped).  A `Document` is replaced by a
store reference at `value.path + '/' + value.id` — the embedding's `vDoc`
carries exactly that joined path, since the `Document` constructor splits
a full path it receives into `(path, id)` and the converter re-joins them.
Arrays and plain objects recurse element- and field-wise; in the default
arm a sub-model instance recurses over its enumerable fields and so comes
back a plain object, while every other value is kept verbatim.  The
source dispatches on `constructorName(value)`; the embedding reads that
switch through the value constructors, which agree with the constructor
names everywhere (`vColl` ↔ `Collection`, `vDoc` ↔ `Document`, `vArr` ↔
`Array`, `vObj` ↔ `Object`; a model class does not share those reserved
names, so `vModel` and the scalars land in the default arm).  Fuel bounds
the recursion depth of the embedding only. -/
def Converter.convVal : Nat → JVal → Res (Option JVal)
  | 0, _ => .fuelOut
  | fuel + 1, v =>
    match v with
    | .vColl _ _ _ _ => .ok none
    | .vDoc _ path => .ok (some (.vRef path))
    | .vArr xs =>
      match Converter.convElems (Converter.convVal fuel) 0 [] xs with
      | .fuelOut => .fuelOut
      | .exn e => .exn e
      | .ok ys => .ok (some (.vArr ys))
    | .vObj fs =>
      match Converter.convFields (Converter.convVal fuel) [] fs with
      | .fuelOut => .fuelOut
      | .exn e => .exn e
      | .ok gs => .ok (some (.vObj gs))
    | .vModel cls oid fields cs r ds di a =>
      if isSubModelInstance (.vModel cls oid fields cs r ds di a) then
        match Converter.convFields (Converter.convVal fuel) [] fields with
        | .fuelOut => .fuelOut
        | .exn e => .exn e
        | .ok gs => .ok (some (.vObj gs))
      else .ok (some (.vModel cls oid fields cs r ds di a))
    | other => .ok (some other)

/-- `Converter.toFirestore` (`src/test/fixtures/firestore.ts`, second
document, lines 36-60) at an object argument, as called by `Model.save`
and by the raw path of `Query.update`: `formatted = {}` populated field by
field through the switch. -/
def Converter.toFirestore (fuel : Nat) (data : Fields) : Res Fields :=
  Converter.convFields (Converter.convVal fuel) [] data


/-- The guard of the beforeSave hook and of afterSave queueing in
`Model.save`: `params.callbacks === true || params.callbacks === 'afterSave'`. -/
def afterSaveEnabled (c : CbOpt) : Bool :=
  c = CbOpt.tru || c = CbOpt.str "afterSave"

/-- The guard of the beforeDelete hook in `Model.delete`. -/
def beforeDeleteEnabled (c : CbOpt) : Bool :=
  c = CbOpt.tru || c = CbOpt.str "beforeDelete"

/-- The guard of afterDelete queueing in `Model.delete`. -/
def afterDeleteEnabled (c : CbOpt) : Bool :=
  c = CbOpt.tru || c = CbOpt.str "afterDelete"

mutual
/-- `Collection.delete(path, options)` (static): delete every document of
the collection at `path`, then recursively every sub-collection of those
documents, committing only for an internally-owned non-recurring call. -/
def colDelete (fuel : Nat) (ctx : Ctx) (path : String) (session : Session)
    (recurring : Bool) (w : World) : WRes Unit :=
  match fuel with
  | 0 => .fuelOut
  | fuel + 1 =>
    if strIndexOfSlash path < 1 then
      .exn "OnlySubCollectionsCanBeDeleted" w
    else
      let docs := ctx.colDocs path
      let w₁ := { w with writes := w.writes ++ docs.map Write.deleteDoc }
      let subCols := docs.foldl (fun acc d => acc ++ ctx.listCols d) []
      match colDeleteList fuel ctx subCols session w₁ with
      | .fuelOut => .fuelOut
      | .exn e w₂ => .exn e w₂
      | .ok _ w₂ =>
        if session.internal ∧ ¬recurring then batchCommit ctx session w₂
        else .ok () w₂

/-- Scatter/gather wave of recursive sub-collection deletions,
sequentialised in list order. -/
def colDeleteList (fuel : Nat) (ctx : Ctx) (paths : List String)
    (session : Session) (w : World) : WRes Unit :=
  match paths with
  | [] => .ok () w
  | p :: rest =>
    match fuel with
    | 0 => .fuelOut
    | fuel + 1 =>
      match colDelete fuel ctx p session true w with
      | .fuelOut => .fuelOut
      | .exn e w' => .exn e w'
      | .ok _ w' => colDeleteList fuel ctx rest session w'
end

/-- `Model.delete`: beforeDelete hook, the not-yet-persisted bypass,
recursive sub-collection deletion, the document delete, commit-gated
afterDelete queueing, and commit/reset for an internally-owned session. -/
def deleteM (fuel : Nat) (ctx : Ctx) (m : JVal) (p : DeleteParams)
    (w : World) : WRes (Bool × JVal) :=
  match fuel with
  | 0 => .fuelOut
  | fuel + 1 =>
    match m with
    | .vModel cls oid fields changes fireRef docSnap docId auth =>
      if beforeDeleteEnabled p.callbacks ∧ cls.bDelRet = false then
        .ok (false, m) w
      else
        match (docSnap.orElse (fun _ => fireRef)) with
        | none => .ok (false, m) w
        | some ref =>
          let sw := match p.session with
            | some s => (s, w)
            | none => mkBatch true w
          let session := sw.1
          match colDeleteList fuel ctx (ctx.listCols ref) session sw.2 with
          | .fuelOut => .fuelOut
          | .exn e w₂ => .exn e w₂
          | .ok _ w₂ =>
            let w₃ := { w₂ with writes := w₂.writes ++ [Write.deleteDoc ref] }
            let w₄ :=
              if afterDeleteEnabled p.callbacks then
                storeCallback w₃ session.sessId ⟨oid, "afterDelete", []⟩
              else w₃
            if session.internal ∧ ¬p.recurring then
              match batchCommit ctx session w₄ with
              | .fuelOut => .fuelOut
              | .exn e w₅ => .exn e w₅
              | .ok _ w₅ =>
                .ok (true, .vModel cls oid [] [] none none none .vNull) w₅
            else
              .ok (true, .vModel cls oid fields changes fireRef docSnap docId auth)
                (storeCallback w₄ session.sessId ⟨oid, "resetProperties", []⟩)
    | _ => .exn "TypeError" w

/-- Write a value back at a flattened path inside the object graph (the
functional image of mutating the shared child instance in place). -/
def setInVal : JVal → List String → JVal → JVal
  | _, [], v => v
  | .vObj fs, k :: rest, v =>
    .vObj (setKey fs k (setInVal ((getKey fs k).getD .vUndef) rest v))
  | .vArr xs, k :: rest, v =>
    (match isCanonicalIndex k with
     | some n => .vArr (listSetPad xs n (setInVal ((xs.get? n).getD .vUndef) rest v))
     | none => .vArr xs)
  | cur, _ :: _, _ => cur

/-- Write a value back at a flattened path of a field map. -/
def setPathSegs (fs : Fields) (segs : List String) (v : JVal) : Fields :=
  (setInVal (.vObj fs) segs v).objFields

mutual
/-- `Model.save`, in source order: parameter defaulting (done by the
caller), the beforeSave hook, session acquisition, validation or the raw
change-set, recursive persistence of nested model instances found by
flattening the whole instance with their replacement by `Document`
references, the empty-payload bypass, the own-document write, the
sub-collection reconciliation, commit-gated afterSave queueing, the
internally-owned commit, and primary-key population. -/
def saveM (fuel : Nat) (ctx : Ctx) (m : JVal) (p : SaveParams) (w : World) :
    WRes (Bool × JVal) :=
  match fuel with
  | 0 => .fuelOut
  | fuel + 1 =>
    match m with
    | .vModel cls oid fields changes fireRef docSnap docId auth =>
      let refNow := docSnap.orElse (fun _ => fireRef)
      let exists_ := refNow.isSome
      if afterSaveEnabled p.callbacks ∧ cls.bSaveRet = false then
        .ok (false, m) w
      else
        let sw := match p.session with
          | some s => (s, w)
          | none => mkBatch true w
        let session := sw.1
        let w₀ := sw.2
        let dataR : Res Fields :=
          if p.validate then
            match validateM fuel ctx.v m with
            | .fuelOut => .fuelOut
            | .exn e => .exn e
            | .ok r => if ¬r.valid then .exn "ValidationError" else .ok r.data
          else .ok changes
        let w₁ := if p.validate then { w₀ with valCount := w₀.valCount + 1 } else w₀
        match dataR with
        | .fuelOut => .fuelOut
        | .exn e => .exn e w₁
        | .ok data =>
          match flattenObject fuel fields false "__SEP__" with
          | .fuelOut => .fuelOut
          | .exn e => .exn e w₁
          | .ok flat =>
            let recP : SaveParams := { p with recurring := true, session := some session }
            match saveRefEntries fuel ctx flat recP w₁ with
            | .fuelOut => .fuelOut
            | .exn e w₂ => .exn e w₂
            | .ok results w₂ =>
              let fields₁ := results.foldl
                (fun fs r => setPathSegs fs (jsSplit r.1 "__SEP__") r.2.1) fields
              let flatDocs : Fields := results.map
                (fun r => (r.1, JVal.vDoc (constructorName r.2.1) r.2.2))
              let dataR₂ : Res Fields :=
                if results.isEmpty then .ok data
                else
                  match expandObject flatDocs "__SEP__" with
                  | .fuelOut => .fuelOut
                  | .exn e => .exn e
                  | .ok expanded => .ok (assignAll data expanded)
              match dataR₂ with
              | .fuelOut => .fuelOut
              | .exn e => .exn e w₂
              | .ok data₂ =>
                match Converter.toFirestore fuel data₂ with
                | .fuelOut => .fuelOut
                | .exn e => .exn e w₂
                | .ok fireData =>
                  if fireData.isEmpty then
                    .ok (false, .vModel cls oid fields₁ changes fireRef docSnap docId auth) w₂
                  else
                  let ownWrite : (Option String) × World :=
                    match refNow with
                    | some ref =>
                      (none,
                       { w₂ with writes := w₂.writes ++
                          [if p.overwrite then Write.setDoc ref fireData
                           else Write.updateDoc ref fireData] })
                    | none =>
                      let colPath := match p.parentRef with
                        | some pr => pr ++ "/" ++ (p.fieldName.getD "undefined")
                        | none => cls.path
                      let dw : String × World := match docId with
                        | some d => (colPath ++ "/" ++ d, w₂)
                        | none =>
                          let iw := takeId w₂
                          (colPath ++ "/" ++ iw.1, iw.2)
                      (some dw.1,
                       { dw.2 with writes := dw.2.writes ++ [Write.setDoc dw.1 fireData] })
                  let fireRef₁ := match ownWrite.1 with
                    | some newRef => some newRef
                    | none => fireRef
                  let refAfter := docSnap.orElse (fun _ => fireRef₁)
                  match saveColsLoop fuel ctx recP refAfter fields₁ ownWrite.2 with
                  | .fuelOut => .fuelOut
                  | .exn e w₃ => .exn e w₃
                  | .ok fields₂ w₃ =>
                    let w₄ :=
                      if afterSaveEnabled p.callbacks then
                        storeCallback w₃ session.sessId
                          ⟨oid, "afterSave", [JVal.vBool (!exists_)]⟩
                      else w₃
                    let afterCommit : WRes Fields :=
                      if ¬p.recurring ∧ session.internal then
                        match batchCommit ctx session w₄ with
                        | .fuelOut => .fuelOut
                        | .exn e w₅ => .exn e w₅
                        | .ok _ w₅ => .ok [] w₅
                      else
                        .ok changes
                          (storeCallback w₄ session.sessId ⟨oid, "resetChanges", []⟩)
                    match afterCommit with
                    | .fuelOut => .fuelOut
                    | .exn e w₅ => .exn e w₅
                    | .ok newChanges w₅ =>
                      let m₃ := JVal.vModel cls oid fields₂ newChanges fireRef₁ docSnap docId auth
                      let m₄ :=
                        if ¬exists_ ∧ ctx.populatePrimaryKey then
                          JVal.vModel cls oid
                            (setKey fields₂ ctx.primaryKeyName
                              (JVal.vStr ((m₃.getId).getD "")))
                            newChanges fireRef₁ docSnap docId auth
                        else m₃
                      .ok (true, m₄) w₅
    | _ => .exn "TypeError" w

/-- The reference-persistence wave of `Model.save`: every model instance
found among the flattened instance values is either skipped (persisted and
unchanged) or recursively saved, and contributes a `(path, child, refPath)`
result used both to repair the object graph and to build the `Document`
replacements; a child that still has no store reference makes the
`Document` construction throw. -/
def saveRefEntries (fuel : Nat) (ctx : Ctx) (entries : Fields)
    (p : SaveParams) (w : World) : WRes (List (String × JVal × String)) :=
  match entries with
  | [] => .ok [] w
  | (path, v) :: rest =>
    match fuel with
    | 0 => .fuelOut
    | fuel + 1 =>
      if isModelInstance v then
        let childR : WRes (Bool × JVal) :=
          if v.getRef.isSome ∧ v.changes.isEmpty then .ok (true, v) w
          else saveM fuel ctx v p w
        match childR with
        | .fuelOut => .fuelOut
        | .exn e w' => .exn e w'
        | .ok bv w' =>
          match bv.2.getRef with
          | none => .exn "TypeError" w'
          | some rp =>
            match saveRefEntries fuel ctx rest p w' with
            | .fuelOut => .fuelOut
            | .exn e w'' => .exn e w''
            | .ok others w'' => .ok ((path, bv.2, rp) :: others) w''
      else saveRefEntries fuel ctx rest p w

/-- The sub-collection phase of `Model.save` over the instance's fields:
per Collection field, the pending-deletion loop then the changed-member
saves anchored under the parent's resolved reference. -/
def saveColsLoop (fuel : Nat) (ctx : Ctx) (recP : SaveParams)
    (parentRef : Option String) (fs : Fields) (w : World) : WRes Fields :=
  match fs with
  | [] => .ok [] w
  | (k, v) :: rest =>
    match fuel with
    | 0 => .fuelOut
    | fuel + 1 =>
      match v with
      | .vColl ccls cpath items deleted =>
        match deletedLoop fuel ctx recP deleted 0 w with
        | .fuelOut => .fuelOut
        | .exn e w₁ => .exn e w₁
        | .ok deleted' w₁ =>
          match saveMembers fuel ctx recP parentRef k items w₁ with
          | .fuelOut => .fuelOut
          | .exn e w₂ => .exn e w₂
          | .ok items' w₂ =>
            match saveColsLoop fuel ctx recP parentRef rest w₂ with
            | .fuelOut => .fuelOut
            | .exn e w₃ => .exn e w₃
            | .ok rest' w₃ => .ok ((k, JVal.vColl ccls cpath items' deleted') :: rest') w₃
      | _ =>
        match saveColsLoop fuel ctx recP parentRef rest w with
        | .fuelOut => .fuelOut
        | .exn e w₃ => .exn e w₃
        | .ok rest' w₃ => .ok ((k, v) :: rest') w₃

/-- The pending-deletion loop of `Model.save`: a `for…in` over the live
`deleted` array with `splice` inside.  The enumeration visits ascending
index keys that still exist at visit time, so splicing the current entry
shifts the array and the following element is never visited this round. -/
def deletedLoop (fuel : Nat) (ctx : Ctx) (recP : SaveParams)
    (arr : List JVal) (j : Nat) (w : World) : WRes (List JVal) :=
  if j < arr.length then
    match fuel with
    | 0 => .fuelOut
    | fuel + 1 =>
      let item := arr.getD j .vUndef
      if item.getRef.isNone then
        deletedLoop fuel ctx recP (arr.eraseIdx j) (j + 1) w
      else
        match deleteM fuel ctx item ⟨recP.callbacks, recP.session, recP.recurring⟩ w with
        | .fuelOut => .fuelOut
        | .exn e w' => .exn e w'
        | .ok _ w' => deletedLoop fuel ctx recP arr (j + 1) w'
  else .ok arr w

/-- The changed-member saves of a Collection field. -/
def saveMembers (fuel : Nat) (ctx : Ctx) (recP : SaveParams)
    (parentRef : Option String) (fieldName : String) (items : List JVal)
    (w : World) : WRes (List JVal) :=
  match items with
  | [] => .ok [] w
  | item :: rest =>
    match fuel with
    | 0 => .fuelOut
    | fuel + 1 =>
      if item.changes.isEmpty then
        match saveMembers fuel ctx recP parentRef fieldName rest w with
        | .fuelOut => .fuelOut
        | .exn e w' => .exn e w'
        | .ok rest' w' => .ok (item :: rest') w'
      else
        match saveM fuel ctx item
            { recP with parentRef := parentRef, fieldName := some fieldName } w with
        | .fuelOut => .fuelOut
        | .exn e w' => .exn e w'
        | .ok bv w' =>
          match saveMembers fuel ctx recP parentRef fieldName rest w' with
          | .fuelOut => .fuelOut
          | .exn e w'' => .exn e w''
          | .ok rest' w'' => .ok (bv.2 :: rest') w''
end

/-- `Firesnap.transaction`: run the executor with a fresh
transaction-session; on executor success the queued callbacks run (before
the store driver's final commit) and the queue is cleared; on executor
failure the queue is discarded unexecuted and the error propagates; a
commit failure after the executor propagates out of `runTransaction`
although the callbacks have already run. -/
def Firesnap.transaction (ctx : Ctx) (executor : Session → World → WRes Unit)
    (w : World) : WRes Unit :=
  let iw := takeId w
  let s : Session := ⟨true, iw.1, false⟩
  match executor s iw.2 with
  | .fuelOut => .fuelOut
  | .exn e w₂ => .exn e (clearQueue s.sessId w₂)
  | .ok _ w₂ =>
    let w₃ := { (clearQueue s.sessId w₂) with
                executed := w₂.executed ++ getCallbacks s.sessId w₂ }
    if ctx.commitOk s.sessId then .ok () w₃ else .exn "TxnCommitError" w₃

def JVal.docSnap : JVal → Option String
  | .vModel _ _ _ _ _ ds _ _ => ds
  | _ => none

/-- `Model.ref(id)`: a bare instance carrying only a document reference
(and the primary key when id population is enabled); defaults are not
applied and nothing is tracked. -/
def mkRef (ctx : Ctx) (mc : MClass) (id : String) : JVal :=
  .vModel mc ""
    (if ctx.populatePrimaryKey then [(ctx.primaryKeyName, .vStr id)] else [])
    [] (some (mc.path ++ "/" ++ id)) none none .vNull

def svalToJ : SVal → JVal
  | .s v => .vStr v
  | .n v => .vNum v
  | .b v => .vBool v
  | .other => JVal.vUndef

/-- Enumerable entries a value contributes when passed where a plain data
object is expected (`new model(data)` with a non-object is outside the
modelled domain and contributes nothing). -/
def JVal.dataEntries : JVal → Fields
  | .vObj fs => fs
  | .vModel _ _ fs _ _ _ _ _ => fs
  | _ => []

mutual
/-- The `Model` constructor for a plain-data instantiation
(`new model(data, null)`): apply schema and instance defaults for absent
keys, then assign every key through the change-tracking proxy (tracking is
active, so every assignment is recorded, after coercion). -/
def modelNew (fuel : Nat) (ctx : Ctx) (cls : MClass) (data : Fields) :
    Res JVal :=
  match fuel with
  | 0 => .fuelOut
  | fuel + 1 =>
    let data₁ := cls.defaults.foldl
      (fun d kv =>
        match getKey d kv.1 with
        | some JVal.vUndef => setKey d kv.1 (svalToJ kv.2)
        | some _ => d
        | none => setKey d kv.1 (svalToJ kv.2))
      data
    match handlerAssign fuel ctx cls data₁ [] [] with
    | .fuelOut => .fuelOut
    | .exn e => .exn e
    | .ok fc => .ok (.vModel cls "" fc.1 fc.2 none none none .vNull)

/-- Assign a list of keys through `ModelHandler.set`, accumulating fields
and recorded changes. -/
def handlerAssign (fuel : Nat) (ctx : Ctx) (cls : MClass) :
    Fields → Fields → Fields → Res (Fields × Fields)
  | [], fields, changes => .ok (fields, changes)
  | (k, v) :: rest, fields, changes =>
    match fuel with
    | 0 => .fuelOut
    | fuel + 1 =>
      match coerceSet fuel ctx cls k v with
      | .fuelOut => .fuelOut
      | .exn e => .exn e
      | .ok v' =>
        handlerAssign fuel ctx cls rest (setKey fields k v') (setKey changes k v')

/-- The coercion step of `ModelHandler.set`: raw strings, plain objects,
arrays and date-like inputs are converted according to the declared field
type before being stored and recorded. -/
def coerceSet (fuel : Nat) (ctx : Ctx) (cls : MClass) (k : String) (v : JVal) :
    Res JVal :=
  match fuel with
  | 0 => .fuelOut
  | fuel + 1 =>
    if !(["Array", "Number", "String", "Object"].contains (constructorName v)) then
      .ok v
    else
      match getKey cls.schema k with
      | none => .ok v
      | some rules =>
        match rules.type with
        | some "Reference" =>
          (match v with
           | .vStr id =>
             (match rules.model with
              | some mc => .ok (mkRef ctx mc id)
              | none => .exn "TypeError")
           | .vObj fs =>
             (match rules.model with
              | some mc => modelNew fuel ctx mc fs
              | none => .exn "TypeError")
           | _ => .ok v)
        | some "SubModel" =>
          (match v with
           | .vObj _ => instantiateSchemaM fuel ctx rules.model v
           | _ => .ok v)
        | some "Array" =>
          if rules.ofType = some "Reference" then
            (match v with
             | .vArr xs =>
               (match coerceRefItems fuel ctx rules.model xs with
                | .fuelOut => .fuelOut
                | .exn e => .exn e
                | .ok xs' => .ok (.vArr xs'))
             | _ => .ok v)
          else .ok v
        | some "Date" =>
          (match v with
           | .vStr s =>
             (match ctx.parseDate s with
              | some t => .ok (.vDate t)
              | none => .ok v)
           | .vNum n => .ok (.vDate n)
           | _ => .ok v)
        | some "Collection" =>
          (match v with
           | .vArr xs =>
             (match rules.model with
              | some mc =>
                (match collNewItems fuel ctx mc xs with
                 | .fuelOut => .fuelOut
                 | .exn e => .exn e
                 | .ok items => .ok (.vColl mc mc.path items []))
              | none => .exn "TypeError")
           | _ => .ok v)
        | _ => .ok v

/-- Element coercion of an array-of-references assignment. -/
def coerceRefItems (fuel : Nat) (ctx : Ctx) (mco : Option MClass) :
    List JVal → Res (List JVal)
  | [] => .ok []
  | x :: rest =>
    match fuel with
    | 0 => .fuelOut
    | fuel + 1 =>
      let xR : Res JVal :=
        match x with
        | .vStr id =>
          (match mco with
           | some mc => .ok (mkRef ctx mc id)
           | none => .exn "TypeError")
        | .vObj fs =>
          (match mco with
           | some mc => modelNew fuel ctx mc fs
           | none => .exn "TypeError")
        | other => .ok other
      match xR with
      | .fuelOut => .fuelOut
      | .exn e => .exn e
      | .ok x' =>
        match coerceRefItems fuel ctx mco rest with
        | .fuelOut => .fuelOut
        | .exn e => .exn e
        | .ok rest' => .ok (x' :: rest')

/-- The `Collection` constructor's initial population: every element is
instantiated as `new model(element)`. -/
def collNewItems (fuel : Nat) (ctx : Ctx) (mc : MClass) :
    List JVal → Res (List JVal)
  | [] => .ok []
  | x :: rest =>
    match fuel with
    | 0 => .fuelOut
    | fuel + 1 =>
      match modelNew fuel ctx mc x.dataEntries with
      | .fuelOut => .fuelOut
      | .exn e => .exn e
      | .ok inst =>
        match collNewItems fuel ctx mc rest with
        | .fuelOut => .fuelOut
        | .exn e => .exn e
        | .ok rest' => .ok (inst :: rest')

/-- `instantiateSchema`: build a sub-model instance recursively; nested
plain objects under SubModel-typed rules recurse, everything else is
assigned verbatim (sub-model classes are not proxied, so nothing is
tracked). -/
def instantiateSchemaM (fuel : Nat) (ctx : Ctx) (mco : Option MClass)
    (v : JVal) : Res JVal :=
  match fuel with
  | 0 => .fuelOut
  | fuel + 1 =>
    match mco with
    | none => .exn "TypeError"
    | some mc =>
      match instFields fuel ctx mc v.dataEntries with
      | .fuelOut => .fuelOut
      | .exn e => .exn e
      | .ok fields => .ok (.vModel mc "" fields [] none none none .vNull)

/-- Field loop of `instantiateSchema`. -/
def instFields (fuel : Nat) (ctx : Ctx) (mc : MClass) :
    Fields → Res Fields
  | [] => .ok []
  | (k, v) :: rest =>
    match fuel with
    | 0 => .fuelOut
    | fuel + 1 =>
      let vR : Res JVal :=
        if mc.schema.isEmpty then .ok v
        else
          match getKey mc.schema k with
          | some r =>
            if r.type = some "SubModel" then instantiateSchemaM fuel ctx r.model v
            else .ok v
          | none => .ok v
      match vR with
      | .fuelOut => .fuelOut
      | .exn e => .exn e
      | .ok v' =>
        match instFields fuel ctx mc rest with
        | .fuelOut => .fuelOut
        | .exn e => .exn e
        | .ok rest' => .ok ((k, v') :: rest')
end

/-- The `deleteProperty` trap of the `Collection` proxy (hit by `pop` and
`splice`): a previously persisted element moves to the pending-deletion
list before the splice. -/
def collDeleteTrap (items deleted : List JVal) (prop : String) :
    Res (List JVal × List JVal) :=
  match isCanonicalIndex prop with
  | none => .exn "TypeError"
  | some n =>
    match items.get? n with
    | none => .exn "TypeError"
    | some it =>
      .ok (items.eraseIdx n,
           if it.getRef.isSome then deleted ++ [it] else deleted)

/-- Plain `Reflect.defineProperty` on a numeric index of the backing
array. -/
def collPlainDefine (items : List JVal) (prop : String) (v : JVal) :
    List JVal :=
  match isCanonicalIndex prop with
  | some n => listSetPad items n v
  | none => items

/-- The `defineProperty` trap of the `Collection` proxy: non-numeric
properties and fresh model-instance elements pass through; other values
must be plain objects (instantiated into the collection's model) or model
instances; a displaced element that has a document id joins the
pending-deletion list. -/
def collDefineTrap (fuel : Nat) (ctx : Ctx) (mc : MClass)
    (items deleted : List JVal) (prop : String) (value : JVal) :
    Res (List JVal × List JVal) :=
  if jsParseIntIsNaN prop then .ok (items, deleted)
  else
    let cur : Option JVal :=
      match isCanonicalIndex prop with
      | some n => items.get? n
      | none => none
    if cur.isNone ∧ isModelInstance value then
      .ok (collPlainDefine items prop value, deleted)
    else
      let modelInstance := isModelInstance value
      if !modelInstance ∧
          (!jsTruthy value ∨ constructorName value ≠ "Object") then
        .exn "InvalidValueType"
      else
        let deleted₁ :=
          match cur with
          | some curv =>
            if isModelInstance curv ∧ curv.getId.isSome then deleted ++ [curv]
            else deleted
          | none => deleted
        if !modelInstance then
          match modelNew fuel ctx mc value.dataEntries with
          | .fuelOut => .fuelOut
          | .exn e => .exn e
          | .ok inst => .ok (collPlainDefine items prop inst, deleted₁)
        else .ok (collPlainDefine items prop value, deleted₁)

/-- `Array.prototype.push` through the proxy: define at index `length`. -/
def collPush (fuel : Nat) (ctx : Ctx) (mc : MClass)
    (items deleted : List JVal) (value : JVal) :
    Res (List JVal × List JVal) :=
  collDefineTrap fuel ctx mc items deleted (toString items.length) value

/-- The cursor-relevant slice of the query descriptor: target model (name
and identity key) and the two pagination cursors. -/
structure QueryS where
  modelName : String
  modelKey : String
  path : String
  cursorAfter : Option (JVal × Bool)
  cursorBefore : Option (JVal × Bool)

/-- `Query.checkCursorValue`: scalars and null pass; any other value must
be a model instance, carry an originating query snapshot, and have the
query model's constructor name. -/
def Query.checkCursorValue (q : QueryS) (value : JVal) : Option String :=
  match value with
  | .vNull => none
  | .vBool _ => none
  | .vNum _ => none
  | .vStr _ => none
  | v =>
    if !isModelInstance v then
      some "Invalid cursor. Expecting boolean, number, string, null or Model"
    else if v.docSnap.isNone then
      some "Invalid model instance. It should come from a query."
    else if constructorName v ≠ q.modelName then
      some "Invalid model type"
    else none

/-- `Query.after`: start strictly after the cursor value.  The builder
performs no store operation; an invalid cursor raises synchronously. -/
def Query.after (q : QueryS) (v : JVal) : Except String QueryS :=
  match Query.checkCursorValue q v with
  | some e => .error e
  | none => .ok { q with cursorAfter := some (v, false) }

/-- `Query.startAt`. -/
def Query.startAt (q : QueryS) (v : JVal) : Except String QueryS :=
  match Query.checkCursorValue q v with
  | some e => .error e
  | none => .ok { q with cursorAfter := some (v, true) }

/-- `Query.endAt`. -/
def Query.endAt (q : QueryS) (v : JVal) : Except String QueryS :=
  match Query.checkCursorValue q v with
  | some e => .error e
  | none => .ok { q with cursorBefore := some (v, true) }

/-- `Query.endBefore`. -/
def Query.endBefore (q : QueryS) (v : JVal) : Except String QueryS :=
  match Query.checkCursorValue q v with
  | some e => .error e
  | none => .ok { q with cursorBefore := some (v, false) }

/-- The materialisation decision of `Query.update`: model instances are
used when save callbacks are registered and not disabled, or — by the
disjunction in the source condition — when a field present (and truthy) in
the diff is a Reference, or when ANY schema field carries a truthy
`unique` constraint, whether or not it appears in the diff. -/
def Query.updateUseModel (callbacksOpt : CbOpt) (cls : MClass)
    (data : Fields) : Bool :=
  if callbacksOpt ≠ CbOpt.fls ∧
      (cls.callbacks.contains "beforeSave" ∨ cls.callbacks.contains "afterSave") then
    true
  else
    cls.schema.any (fun kv =>
      (jsTruthy ((getKey data kv.1).getD .vUndef) && kv.2.type = some "Reference") ||
      (match kv.2.uniqueC with
       | some c => c.truthy
       | none => false))

/-- The representative dummy instance of the raw update path
(`new this.model({}, firestore.doc(path/1))` followed by
`Object.assign(model, data)` and `setAuth`). -/
def updateDummy (fuel : Nat) (ctx : Ctx) (cls : MClass) (qpath : String)
    (auth : JVal) (data : Fields) : Res JVal :=
  let baseFields : Fields :=
    if ctx.populatePrimaryKey then [(ctx.primaryKeyName, .vStr "1")] else []
  match handlerAssign fuel ctx cls data baseFields [] with
  | .fuelOut => .fuelOut
  | .exn e => .exn e
  | .ok fc =>
    .ok (.vModel cls "" fc.1 fc.2 (some (qpath ++ "/1")) none none auth)

/-- `Object.assign(model, data)` through the change-tracking proxy on an
existing instance. -/
def modelAssign (fuel : Nat) (ctx : Ctx) (m : JVal) (data : Fields) :
    Res JVal :=
  match m with
  | .vModel cls oid fields changes fireRef docSnap docId auth =>
    match handlerAssign fuel ctx cls data fields changes with
    | .fuelOut => .fuelOut
    | .exn e => .exn e
    | .ok fc => .ok (.vModel cls oid fc.1 fc.2 fireRef docSnap docId auth)
  | _ => .exn "TypeError"

/-- The per-document loop of the model path of `Query.update`. -/
def updateModelsLoop (fuel : Nat) (ctx : Ctx) (recP : SaveParams)
    (data : Fields) (models : List JVal) (w : World) : WRes (List String) :=
  match models with
  | [] => .ok [] w
  | m :: rest =>
    match fuel with
    | 0 => .fuelOut
    | fuel + 1 =>
      match modelAssign fuel ctx m data with
      | .fuelOut => .fuelOut
      | .exn e => .exn e w
      | .ok m' =>
        match saveM fuel ctx m' recP w with
        | .fuelOut => .fuelOut
        | .exn e w' => .exn e w'
        | .ok _ w' =>
          match updateModelsLoop fuel ctx recP data rest w' with
          | .fuelOut => .fuelOut
          | .exn e w'' => .exn e w''
          | .ok ids w'' => .ok ((m.getId.getD "") :: ids) w''

/-- `Query.update(data, options)`: decide materialisation; on the raw path
run one representative validation (a single entity-level validation,
whatever the matched document count) and emit one update write per matched
document; on the model path assign and save every materialised instance.
The query execution itself is the store oracle (`rawIds` and `models` are
the two projections of the matched documents). -/
def Query.update (fuel : Nat) (ctx : Ctx) (cls : MClass) (qpath : String)
    (auth : JVal) (data : Fields) (callbacksOpt : CbOpt) (validate : Bool)
    (sessionOpt : Option Session) (rawIds : List String)
    (models : List JVal) (w : World) : WRes (Option (List String)) :=
  match fuel with
  | 0 => .fuelOut
  | fuel + 1 =>
    let useModel := Query.updateUseModel callbacksOpt cls data
    let dataR : Res Fields :=
      if useModel = false ∧ validate then
        match updateDummy fuel ctx cls qpath auth data with
        | .fuelOut => .fuelOut
        | .exn e => .exn e
        | .ok dummy =>
          match validateM fuel ctx.v dummy with
          | .fuelOut => .fuelOut
          | .exn e => .exn e
          | .ok r =>
            if !r.valid then .exn "ValidationError"
            else if r.data.isEmpty then .exn "NoDataToSaveAfterValidation"
            else Converter.toFirestore fuel r.data
      else .ok data
    let w₁ := if useModel = false ∧ validate then
        { w with valCount := w.valCount + 1 }
      else w
    match dataR with
    | .fuelOut => .fuelOut
    | .exn e => .exn e w₁
    | .ok data₁ =>
      let sw := match sessionOpt with
        | some s => (s, w₁)
        | none => mkBatch true w₁
      let session := sw.1
      let recP : SaveParams :=
        ⟨callbacksOpt, validate, false, some session, true, none, none⟩
      let afterDocs : WRes (List String) :=
        if useModel then
          updateModelsLoop fuel ctx recP data models sw.2
        else
          .ok rawIds
            { sw.2 with writes := sw.2.writes ++
              rawIds.map (fun id => Write.updateDoc (qpath ++ "/" ++ id) data₁) }
      match afterDocs with
      | .fuelOut => .fuelOut
      | .exn e w₂ => .exn e w₂
      | .ok docIds w₂ =>
        if session.internal then
          match batchCommit ctx session w₂ with
          | .fuelOut => .fuelOut
          | .exn e w₃ => .exn e w₃
          | .ok _ w₃ => .ok (some docIds) w₃
        else .ok none w₂

/-! ### Shared concrete fixtures -/

/-- A plain required-free String rule. -/
def rString : SRule :=
  .mk (some "String") none none none none none none none none none none none
    none none none none none

/-- A String rule with `write: 'admin'`. -/
def rAdminStr : SRule :=
  .mk (some "String") none none none none none none none none none none none
    none none none (some "admin") none

/-- A String rule with `unique: true`. -/
def rUniqueStr : SRule :=
  .mk (some "String") none none none none none none none none none none none
    none none none none (some (.bare (.bool true)))

/-- Validator context whose regex/uniqueness oracles all answer false. -/
def noVCtx : VCtx := ⟨fun _ => false, fun _ => false, fun _ _ _ _ => false⟩

def commentCls : MClass :=
  .mk "Comment" "Comment_1" "comments" true [("content", rString)] [] [] true true

def rCollComment : SRule :=
  .mk (some "Collection") none none (some commentCls) none none none none none
    none none none none none none none none

def postCls : MClass :=
  .mk "Post" "Post_1" "posts" true
    [("title", rString), ("comments", rCollComment)] [] [] true true

/-- Environment with empty store, succeeding commits. -/
def ctx0 : Ctx :=
  ⟨noVCtx, fun _ => [], fun _ => [], true, "id", fun _ => true, fun _ => none⟩

/-- Environment whose commits all fail. -/
def ctxBad : Ctx :=
  ⟨noVCtx, fun _ => [], fun _ => [], true, "id", fun _ => false, fun _ => none⟩

def w0 : World := ⟨[], [], [], ["g1", "g2", "g3"], 0⟩

/-- Defaulted `SaveOptions`. -/
def pDef : SaveParams := ⟨.tru, true, false, none, false, none, none⟩

def countDeletes (ws : List Write) : Nat :=
  (ws.filter (fun wr => match wr with
    | .deleteDoc _ => true
    | _ => false)).length

/-! ### C5 — pending-deletion processing -/

/-- A never-persisted pending removal (it has a pre-assigned id but no
store reference). -/
def c5m1 : JVal := .vModel commentCls "c1" [] [] none none (some "idc1") .vNull

/-- A persisted pending removal. -/
def c5m2 : JVal :=
  .vModel commentCls "c2" [] [] (some "posts/p1/comments/c2") none none .vNull

/-- The failing entity: one changed field, a container whose
pending-deletion list is `[never-persisted, persisted]`. -/
def c5post : JVal :=
  .vModel postCls "o2"
    [("title", .vStr "x"),
     ("comments", .vColl commentCls "comments" [] [c5m1, c5m2])]
    [("title", .vStr "x")]
    (some "posts/p1") none none .vNull

/-- C5: the claim demands exactly one delete write for the persisted
removal `c5m2` and the dropping of the never-persisted one.  The save
succeeds (returns true), drops the never-persisted entry — but emits ZERO
delete writes and leaves the persisted removal pending, because the
`for…in` enumeration skips the element shifted into the spliced slot. -/
theorem C5_code_bug_eval :
    (match saveM 40 ctx0 c5post pDef w0 with
     | .ok bv w =>
       (bv.1,
        countDeletes w.writes,
        (match bv.2 with
         | .vModel _ _ fields _ _ _ _ _ =>
           (match getKey fields "comments" with
            | some (.vColl _ _ _ dl) => dl
            | _ => [])
         | _ => []))
     | _ => (false, 99, []))
    = (true, 0, [c5m2]) := by rfl

/-! ### C2 — write-permission rule counterexample -/

/-- C2 as stated is false: with `options.authValue = null` (the default
when no auth is set), which is not exactly the boolean `true`, a
`write: 'admin'` field is accepted and included in the sanitized output. -/
theorem C2_counterexample :
    checkData 99 noVCtx [("f", rAdminStr)] [("f", .vStr "x")]
      ⟨none, false, .vNull⟩
      = .ok ⟨true, [], [("f", .vStr "x")]⟩ ∧
    JVal.vNull ≠ JVal.vBool true := by
  exact ⟨rfl, by simp⟩

/-! ### C4 — sanitized output counterexample -/

/-- A sub-model class with a one-field schema. -/
def infoCls : MClass :=
  .mk "Info" "Info_1" "infos" false [("name", rString)] [] [] true true

def rSubInfo : SRule :=
  .mk (some "SubModel") none none (some infoCls) none none none none none
    none none none none none none none none

/-- A sub-model instance carrying a field its schema does not declare. -/
def infoInst : JVal :=
  .vModel infoCls "o-info" [("name", .vStr "a"), ("junk", .vStr "b")] []
    none none none .vNull

/-- C4 as stated is false: a validated SubModel field is not included with
its input value unchanged — the sanitized output holds the sub-check's
sanitized data (a plain object with the undeclared field dropped) instead
of the input instance. -/
theorem C4_counterexample :
    checkData 99 noVCtx [("info", rSubInfo)] [("info", infoInst)]
      ⟨none, false, .vNull⟩
      = .ok ⟨true, [], [("info", .vObj [("name", .vStr "a")])]⟩ ∧
    JVal.vObj [("name", .vStr "a")] ≠ infoInst := by
  refine ⟨rfl, ?_⟩
  intro h
  exact JVal.noConfusion h

/-! ### C8 — flatten/expand round trip counterexample -/

/-- C8 as stated is false: an empty nested object (keys non-numeric and
dot-free throughout) is silently dropped by flattening, so the round trip
loses it. -/
theorem C8_counterexample :
    flattenObject 9 [("a", .vObj [])] true "." = .ok [] ∧
    expandObject [] "." = .ok [] ∧
    ([] : Fields) ≠ [("a", .vObj [])] := by
  exact ⟨rfl, rfl, by simp⟩

/-! ### C6 — bulk update materialisation counterexample -/

def userCls : MClass :=
  .mk "User" "User_1" "users" true
    [("username", rUniqueStr), ("title", rString)] [] [] true true

/-- C6 as stated is false: with no registered save hooks and a diff whose
only field (`title`) is neither a Reference nor unique-constrained, the
claim requires the cheap raw path, but the source condition's
`schema[field].unique` disjunct ignores the diff and forces
materialisation because the schema declares a unique `username`. -/
theorem C6_counterexample :
    Query.updateUseModel .tru userCls [("title", .vStr "x")] = true ∧
    userCls.callbacks = [] ∧
    getKey [("title", JVal.vStr "x")] "username" = none ∧
    (getKey userCls.schema "title" = some rString ∧
      rString.type ≠ some "Reference" ∧ rString.uniqueC = none) := by
  refine ⟨rfl, rfl, rfl, rfl, by simp [rString, SRule.type], by simp [rString, SRule.uniqueC]⟩

/-! ### C7 — cursor type check counterexample -/

/-- A second model class with the same display name as `postCls` but a
different registry identity. -/
def postClsB : MClass :=
  .mk "Post" "Post_9" "posts_b" true [("title", rString)] [] [] true true

def qPost : QueryS := ⟨postCls.name, postCls.classKey, postCls.path, none, none⟩

/-- A fetched instance of the other same-named class. -/
def wrongTypeInst : JVal :=
  .vModel postClsB "ob" [] [] none (some "posts_b/z") none .vNull

/-- C7 as stated is false on the wrong-type clause: the check compares
constructor names only, so a fetched instance of a different entity type
that shares the query model's display name is accepted as a cursor. -/
theorem C7_counterexample :
    Query.after qPost wrongTypeInst
      = .ok { qPost with cursorAfter := some (wrongTypeInst, false) } ∧
    isModelInstance wrongTypeInst = true ∧
    postClsB.classKey ≠ qPost.modelKey := by
  refine ⟨rfl, rfl, by simp [postClsB, qPost, postCls, MClass.classKey]⟩

/-! ### C9 — container element invariant counterexample -/

def likeCls : MClass :=
  .mk "Like" "Like_1" "likes" true [] [] [] true true

def likeInst : JVal := .vModel likeCls "ol" [] [] none none none .vNull

/-- C9 as stated is false on the element-type invariant: pushing a model
instance of a different entity type into a `Post` container is accepted
verbatim, so an element need not be an instance of the container's entity
type. -/
theorem C9_counterexample :
    collPush 9 ctx0 postCls [] [] likeInst = .ok ([likeInst], []) ∧
    constructorName likeInst ≠ postCls.name := by
  refine ⟨rfl, by simp [constructorName, likeInst, likeCls, postCls, MClass.name]⟩

/-! ### C1 — empty outgoing payload is a no-op -/

/-- When no flattened instance value is a model instance, the reference
wave issues no recursive saves and leaves the world untouched. -/
theorem saveRefEntries_skip (ctx : Ctx) (p : SaveParams) :
    ∀ (entries : Fields) (fuel : Nat) (w : World),
    entries.length ≤ fuel →
    (∀ e ∈ entries, isModelInstance e.2 = false) →
    saveRefEntries fuel ctx entries p w = .ok [] w := by
  intro entries
  induction entries with
  | nil =>
    intro fuel w _ _
    cases fuel <;> rfl
  | cons e rest ih =>
    intro fuel w hlen hnm
    obtain ⟨path, v⟩ := e
    match fuel with
    | 0 => simp at hlen
    | g + 1 =>
      have hv : isModelInstance v = false := hnm (path, v) (by simp)
      simp only [saveRefEntries, hv, Bool.false_eq_true, if_false]
      exact ih g w (by simpa using hlen) (fun e he => hnm e (by simp [he]))

/-- C1 (as stated): if, after validation (or the raw change-set when
validation is disabled), reference replacement and the store conversion,
the outgoing document payload `Converter.toFirestore(data)` is empty and,
transitively, the sub-collection members carry no changes and no pending
deletions, then `save` emits no store writes, queues nothing, and returns
false. -/
theorem C1_theorem (fuel : Nat) (ctx : Ctx) (cls : MClass) (oid : String)
    (fields changes : Fields) (fireRef docSnap docId : Option String)
    (auth : JVal) (p : SaveParams) (w : World) (flat : Fields)
    (hval : (p.validate = true →
        ∃ r, validateM fuel ctx.v
            (.vModel cls oid fields changes fireRef docSnap docId auth) = .ok r ∧
          r.valid = true ∧ Converter.toFirestore fuel r.data = .ok []) ∧
      (p.validate = false → Converter.toFirestore fuel changes = .ok []))
    (hflat : flattenObject fuel fields false "__SEP__" = .ok flat)
    (hnom : ∀ e ∈ flat, isModelInstance e.2 = false)
    (hlen : flat.length ≤ fuel)
    (hsub : ∀ k ccls cpath items deleted,
      (k, JVal.vColl ccls cpath items deleted) ∈ fields →
      deleted = [] ∧ ∀ it ∈ items, it.changes = []) :
    ∃ m' w',
      saveM (fuel + 1) ctx (.vModel cls oid fields changes fireRef docSnap docId auth) p w
        = .ok (false, m') w' ∧
      w'.writes = w.writes ∧ w'.queue = w.queue ∧ w'.executed = w.executed := by
  by_cases habort : afterSaveEnabled p.callbacks ∧ cls.bSaveRet = false
  · exact ⟨JVal.vModel cls oid fields changes fireRef docSnap docId auth, w,
      by simp only [saveM, if_pos habort], rfl, rfl, rfl⟩
  · obtain ⟨cb, vd, ov, sess, rec, pr, fn⟩ := p
    obtain ⟨ws, qs, ex, ni, vc⟩ := w
    simp only at hval habort ⊢
    cases sess with
    | some s =>
      cases vd with
      | true =>
        obtain ⟨r, hr, hrv, hrd⟩ := hval.1 rfl
        simp only [saveM, if_neg habort, hr, hrv, hrd, not_true, if_false, hflat,
          saveRefEntries_skip ctx _ flat fuel _ hlen hnom, List.foldl_nil,
          List.map_nil, List.isEmpty_nil, if_true,
          List.isEmpty_eq_true]
        exact ⟨_, _, rfl, rfl, rfl, rfl⟩
      | false =>
        have hch := hval.2 rfl
        simp only [saveM, if_neg habort, hch, hflat, Bool.false_eq_true, if_false,
          saveRefEntries_skip ctx _ flat fuel _ hlen hnom, List.foldl_nil,
          List.map_nil, List.isEmpty_nil, if_true,
          List.isEmpty_eq_true]
        exact ⟨_, _, rfl, rfl, rfl, rfl⟩
    | none =>
      cases ni with
      | nil =>
        cases vd with
        | true =>
          obtain ⟨r, hr, hrv, hrd⟩ := hval.1 rfl
          simp only [saveM, if_neg habort, hr, hrv, hrd, not_true, if_false, hflat, mkBatch, takeId,
            saveRefEntries_skip ctx _ flat fuel _ hlen hnom, List.foldl_nil,
            List.map_nil, List.isEmpty_nil, if_true,
            List.isEmpty_eq_true]
          exact ⟨_, _, rfl, rfl, rfl, rfl⟩
        | false =>
          have hch := hval.2 rfl
          simp only [saveM, if_neg habort, hch, hflat, mkBatch, takeId,
            Bool.false_eq_true, if_false,
            saveRefEntries_skip ctx _ flat fuel _ hlen hnom, List.foldl_nil,
            List.map_nil, List.isEmpty_nil, if_true,
            List.isEmpty_eq_true]
          exact ⟨_, _, rfl, rfl, rfl, rfl⟩
      | cons i rest =>
        cases vd with
        | true =>
          obtain ⟨r, hr, hrv, hrd⟩ := hval.1 rfl
          simp only [saveM, if_neg habort, hr, hrv, hrd, not_true, if_false, hflat, mkBatch, takeId,
            saveRefEntries_skip ctx _ flat fuel _ hlen hnom, List.foldl_nil,
            List.map_nil, List.isEmpty_nil, if_true,
            List.isEmpty_eq_true]
          exact ⟨_, _, rfl, rfl, rfl, rfl⟩
        | false =>
          have hch := hval.2 rfl
          simp only [saveM, if_neg habort, hch, hflat, mkBatch, takeId,
            Bool.false_eq_true, if_false,
            saveRefEntries_skip ctx _ flat fuel _ hlen hnom, List.foldl_nil,
            List.map_nil, List.isEmpty_nil, if_true,
            List.isEmpty_eq_true]
          exact ⟨_, _, rfl, rfl, rfl, rfl⟩

/-- A loaded entity with no pending changes. -/
def mClean : JVal :=
  .vModel postCls "o1" [("title", .vStr "t")] [] (some "posts/p1") none none .vNull

theorem C1_witness :
    ∃ m' w', saveM 31 ctx0 mClean pDef w0 = .ok (false, m') w' ∧
      w'.writes = w0.writes ∧ w'.queue = w0.queue ∧ w'.executed = w0.executed :=
  C1_theorem 30 ctx0 postCls "o1" [("title", .vStr "t")] []
    (some "posts/p1") none none .vNull pDef w0 [("title", .vStr "t")]
    ⟨fun _ => ⟨⟨true, [], []⟩, rfl, rfl, rfl⟩, fun h => nomatch h⟩
    rfl
    (by intro e he; rw [List.mem_singleton] at he; subst he; rfl)
    (by norm_num)
    (by intro k ccls cpath items deleted hmem; simp at hmem)

/-! ### C7 — pagination cursor checks -/

/-- A literal cursor value: boolean, number, string or null. -/
def cursorLiteral (v : JVal) : Bool :=
  match v with
  | .vNull => true
  | .vBool _ => true
  | .vNum _ => true
  | .vStr _ => true
  | _ => false

/-- All four cursor builders delegate their rejection to
`checkCursorValue`. -/
theorem cursorBuildersError (q : QueryS) (v : JVal) (e : String)
    (h : Query.checkCursorValue q v = some e) :
    Query.after q v = .error e ∧ Query.startAt q v = .error e ∧
    Query.endAt q v = .error e ∧ Query.endBefore q v = .error e := by
  simp [Query.after, Query.startAt, Query.endAt, Query.endBefore, h]

/-- All four cursor builders accept when `checkCursorValue` passes. -/
theorem cursorBuildersOk (q : QueryS) (v : JVal)
    (h : Query.checkCursorValue q v = none) :
    Query.after q v = .ok { q with cursorAfter := some (v, false) } ∧
    Query.startAt q v = .ok { q with cursorAfter := some (v, true) } ∧
    Query.endAt q v = .ok { q with cursorBefore := some (v, true) } ∧
    Query.endBefore q v = .ok { q with cursorBefore := some (v, false) } := by
  simp [Query.after, Query.startAt, Query.endAt, Query.endBefore, h]

theorem checkCursor_literal (q : QueryS) (v : JVal)
    (h : cursorLiteral v = true) : Query.checkCursorValue q v = none := by
  cases v <;> simp_all [cursorLiteral, Query.checkCursorValue]

theorem checkCursor_noSnap (q : QueryS) (v : JVal)
    (hm : isModelInstance v = true) (hs : v.docSnap = none) :
    Query.checkCursorValue q v
      = some "Invalid model instance. It should come from a query." := by
  cases v <;> simp_all [isModelInstance, JVal.docSnap, Query.checkCursorValue]

theorem checkCursor_wrongName (q : QueryS) (v : JVal)
    (hm : isModelInstance v = true) (hs : v.docSnap.isSome = true)
    (hn : constructorName v ≠ q.modelName) :
    Query.checkCursorValue q v = some "Invalid model type" := by
  cases v <;>
    simp_all [isModelInstance, JVal.docSnap, Query.checkCursorValue,
      constructorName, Option.isSome_iff_exists] <;>
  obtain ⟨a, ha⟩ := hs <;> simp [ha]

theorem checkCursor_nonLiteral (q : QueryS) (v : JVal)
    (hl : cursorLiteral v = false) (hm : isModelInstance v = false) :
    Query.checkCursorValue q v
      = some "Invalid cursor. Expecting boolean, number, string, null or Model" := by
  cases v <;> simp_all [cursorLiteral, isModelInstance, Query.checkCursorValue]

theorem checkCursor_ok (q : QueryS) (v : JVal)
    (hm : isModelInstance v = true) (hs : v.docSnap.isSome = true)
    (hn : constructorName v = q.modelName) :
    Query.checkCursorValue q v = none := by
  cases v <;>
    simp_all [isModelInstance, JVal.docSnap, Query.checkCursorValue,
      constructorName, Option.isSome_iff_exists] <;>
  obtain ⟨a, ha⟩ := hs <;> simp [ha, hn]

/-- C7 (amended): the pagination cursor builders raise synchronously (they
perform no store operation at all) exactly when the value is neither a
literal scalar/null nor a fetched instance whose constructor NAME matches
the query's model name; an instance without an originating snapshot is
always rejected, and literal scalars and null are always accepted.  (The
type test compares display names, not class identities.) -/
theorem C7_theorem :
    (∀ (q : QueryS) (v : JVal), cursorLiteral v = true →
      Query.after q v = .ok { q with cursorAfter := some (v, false) } ∧
      Query.startAt q v = .ok { q with cursorAfter := some (v, true) } ∧
      Query.endAt q v = .ok { q with cursorBefore := some (v, true) } ∧
      Query.endBefore q v = .ok { q with cursorBefore := some (v, false) }) ∧
    (∀ (q : QueryS) (v : JVal), isModelInstance v = true → v.docSnap = none →
      Query.after q v = .error "Invalid model instance. It should come from a query." ∧
      Query.startAt q v = .error "Invalid model instance. It should come from a query." ∧
      Query.endAt q v = .error "Invalid model instance. It should come from a query." ∧
      Query.endBefore q v = .error "Invalid model instance. It should come from a query.") ∧
    (∀ (q : QueryS) (v : JVal), isModelInstance v = true → v.docSnap.isSome = true →
      constructorName v ≠ q.modelName →
      Query.after q v = .error "Invalid model type") ∧
    (∀ (q : QueryS) (v : JVal), cursorLiteral v = false → isModelInstance v = false →
      Query.after q v
        = .error "Invalid cursor. Expecting boolean, number, string, null or Model") ∧
    (∀ (q : QueryS) (v : JVal), isModelInstance v = true → v.docSnap.isSome = true →
      constructorName v = q.modelName →
      Query.after q v = .ok { q with cursorAfter := some (v, false) }) := by
  refine ⟨?_, ?_, ?_, ?_, ?_⟩
  · intro q v h
    exact cursorBuildersOk q v (checkCursor_literal q v h)
  · intro q v hm hs
    exact cursorBuildersError q v _ (checkCursor_noSnap q v hm hs)
  · intro q v hm hs hn
    exact (cursorBuildersError q v _ (checkCursor_wrongName q v hm hs hn)).1
  · intro q v hl hm
    exact (cursorBuildersError q v _ (checkCursor_nonLiteral q v hl hm)).1
  · intro q v hm hs hn
    exact (cursorBuildersOk q v (checkCursor_ok q v hm hs hn)).1

theorem C7_witness :
    Query.after qPost (.vNum 5)
      = .ok { qPost with cursorAfter := some (.vNum 5, false) } ∧
    Query.after qPost (.vModel postCls "o9" [] [] none none none .vNull)
      = .error "Invalid model instance. It should come from a query." :=
  ⟨(C7_theorem.1 qPost (.vNum 5) rfl).1,
   (C7_theorem.2.1 qPost (.vModel postCls "o9" [] [] none none none .vNull)
      rfl rfl).1⟩

/-! ### C9 — container element invariants -/

theorem listSetPad_mem {xs : List JVal} {n : Nat} {v x : JVal}
    (hn : n ≤ xs.length) (hx : x ∈ listSetPad xs n v) : x ∈ xs ∨ x = v := by
  induction xs generalizing n with
  | nil =>
    have hn0 : n = 0 := Nat.le_zero.mp hn
    subst hn0
    simp only [listSetPad, List.mem_singleton] at hx
    exact Or.inr hx
  | cons y ys ih =>
    cases n with
    | zero =>
      simp only [listSetPad, List.mem_cons] at hx
      rcases hx with h | h
      · exact Or.inr h
      · exact Or.inl (List.mem_cons_of_mem y h)
    | succ n =>
      simp only [listSetPad, List.mem_cons] at hx
      rcases hx with h | h
      · exact Or.inl (by simp [h])
      · rcases ih (by simpa using hn) h with h' | h'
        · exact Or.inl (List.mem_cons_of_mem y h')
        · exact Or.inr h'

theorem collPlainDefine_mem {items : List JVal} {prop : String} {v x : JVal}
    (hb : ∀ n, isCanonicalIndex prop = some n → n ≤ items.length)
    (hx : x ∈ collPlainDefine items prop v) : x ∈ items ∨ x = v := by
  unfold collPlainDefine at hx
  cases hidx : isCanonicalIndex prop with
  | none => rw [hidx] at hx; exact Or.inl hx
  | some n =>
    rw [hidx] at hx
    exact listSetPad_mem (hb n hidx) hx

theorem modelNew_shape (fuel : Nat) (ctx : Ctx) (mc : MClass) (data : Fields)
    (inst : JVal) (h : modelNew fuel ctx mc data = .ok inst) :
    ∃ f c, inst = .vModel mc "" f c none none none .vNull := by
  match fuel with
  | 0 => exact absurd h (by simp [modelNew])
  | g + 1 =>
    simp only [modelNew] at h
    split at h
    · exact absurd h (by simp)
    · exact absurd h (by simp)
    · rename_i fc _
      exact ⟨fc.1, fc.2, by injection h with h'; rw [← h']⟩

theorem collDefineTrap_fst {fuel : Nat} {ctx : Ctx} {mc : MClass}
    {items deleted : List JVal} {prop : String} {value : JVal}
    {out : List JVal × List JVal}
    (h : collDefineTrap fuel ctx mc items deleted prop value = .ok out) :
    out.1 = items ∨
    (isModelInstance value = true ∧ out.1 = collPlainDefine items prop value) ∨
    (∃ inst, modelNew fuel ctx mc value.dataEntries = .ok inst ∧
      out.1 = collPlainDefine items prop inst) := by
  simp only [collDefineTrap] at h
  split at h
  · exact Or.inl (by injection h with h'; rw [← h'])
  · cases hidx : isCanonicalIndex prop <;> rw [hidx] at h
    · split at h
      · rename_i hc
        exact Or.inr (Or.inl ⟨hc.2, by injection h with h'; rw [← h']⟩)
      · split at h
        · exact absurd h (by simp)
        · split at h
          · split at h
            · exact absurd h (by simp)
            · exact absurd h (by simp)
            · rename_i inst hmn
              exact Or.inr (Or.inr ⟨inst, hmn, by injection h with h'; rw [← h']⟩)
          · rename_i hni
            refine Or.inr (Or.inl ⟨by simpa using hni, ?_⟩)
            injection h with h'; rw [← h']
    · split at h
      · rename_i hc
        exact Or.inr (Or.inl ⟨hc.2, by injection h with h'; rw [← h']⟩)
      · split at h
        · exact absurd h (by simp)
        · split at h
          · split at h
            · exact absurd h (by simp)
            · exact absurd h (by simp)
            · rename_i inst hmn
              exact Or.inr (Or.inr ⟨inst, hmn, by injection h with h'; rw [← h']⟩)
          · rename_i hni
            refine Or.inr (Or.inl ⟨by simpa using hni, ?_⟩)
            injection h with h'; rw [← h']

/-- C9 (amended): for the `defineProperty` trap of a `Collection` of a
primary model class — (a) whenever the trap succeeds and the written index
does not exceed the current length, every element of the resulting item
list is still a model instance (of SOME primary model class, not
necessarily the container's own: a foreign model instance is accepted
as-is); (b) a plain-object value is instantiated into the CONTAINER's
model class before being stored; (c) a displaced element that is a model
instance carrying a document reference or id is appended to the
pending-deletion list; (d) a value that is neither a model instance nor a
plain object makes the trap throw `Invalid value type`. -/
theorem C9_theorem :
    (∀ (fuel : Nat) (ctx : Ctx) (mc : MClass) (items deleted : List JVal)
       (prop : String) (value : JVal) (out : List JVal × List JVal),
      mc.primary = true →
      (∀ x ∈ items, isModelInstance x = true) →
      (∀ n, isCanonicalIndex prop = some n → n ≤ items.length) →
      collDefineTrap fuel ctx mc items deleted prop value = .ok out →
      ∀ x ∈ out.1, isModelInstance x = true) ∧
    (∀ (fuel : Nat) (ctx : Ctx) (mc : MClass) (items deleted : List JVal)
       (prop : String) (fs : Fields) (out : List JVal × List JVal),
      jsParseIntIsNaN prop = false →
      collDefineTrap fuel ctx mc items deleted prop (.vObj fs) = .ok out →
      ∃ inst, constructorName inst = mc.name ∧
        isModelInstance inst = mc.primary ∧
        out.1 = collPlainDefine items prop inst) ∧
    (∀ (fuel : Nat) (ctx : Ctx) (mc : MClass) (items deleted : List JVal)
       (prop : String) (value : JVal) (n : Nat) (curv : JVal)
       (out : List JVal × List JVal),
      jsParseIntIsNaN prop = false →
      isCanonicalIndex prop = some n →
      items.get? n = some curv →
      isModelInstance curv = true → curv.getId.isSome = true →
      collDefineTrap fuel ctx mc items deleted prop value = .ok out →
      out.2 = deleted ++ [curv]) ∧
    (∀ (fuel : Nat) (ctx : Ctx) (mc : MClass) (items deleted : List JVal)
       (prop : String) (value : JVal),
      jsParseIntIsNaN prop = false →
      isModelInstance value = false →
      (jsTruthy value = false ∨ constructorName value ≠ "Object") →
      collDefineTrap fuel ctx mc items deleted prop value
        = .exn "InvalidValueType") := by
  refine ⟨?_, ?_, ?_, ?_⟩
  · intro fuel ctx mc items deleted prop value out hprim hinst hb h x hx
    rcases collDefineTrap_fst h with h1 | ⟨hm, h1⟩ | ⟨inst, hmn, h1⟩
    · rw [h1] at hx; exact hinst x hx
    · rw [h1] at hx
      rcases collPlainDefine_mem hb hx with hmem | hv
      · exact hinst x hmem
      · rw [hv]; exact hm
    · rw [h1] at hx
      rcases collPlainDefine_mem hb hx with hmem | hv
      · exact hinst x hmem
      · obtain ⟨f, c, hshape⟩ := modelNew_shape _ _ _ _ _ hmn
        rw [hv, hshape]
        simpa [isModelInstance] using hprim
  · intro fuel ctx mc items deleted prop fs out hp h
    simp only [collDefineTrap, hp, Bool.false_eq_true, if_false] at h
    cases hidx : isCanonicalIndex prop <;> rw [hidx] at h
    · rw [if_neg (by simp [isModelInstance])] at h
      rw [if_neg (by simp [isModelInstance, jsTruthy, constructorName])] at h
      rw [if_pos (by simp [isModelInstance])] at h
      split at h
      · exact absurd h (by simp)
      · exact absurd h (by simp)
      · rename_i inst hmn
        obtain ⟨f, c, hshape⟩ := modelNew_shape _ _ _ _ _ hmn
        refine ⟨inst, ?_, ?_, ?_⟩
        · rw [hshape]; rfl
        · rw [hshape]; rfl
        · injection h with h'; rw [← h']
    · rw [if_neg (by simp [isModelInstance])] at h
      rw [if_neg (by simp [isModelInstance, jsTruthy, constructorName])] at h
      rw [if_pos (by simp [isModelInstance])] at h
      split at h
      · exact absurd h (by simp)
      · exact absurd h (by simp)
      · rename_i inst hmn
        obtain ⟨f, c, hshape⟩ := modelNew_shape _ _ _ _ _ hmn
        refine ⟨inst, ?_, ?_, ?_⟩
        · rw [hshape]; rfl
        · rw [hshape]; rfl
        · injection h with h'; rw [← h']
  · intro fuel ctx mc items deleted prop value n curv out hp hidx hget hcm hcid h
    simp only [collDefineTrap, hp, Bool.false_eq_true, if_false, hidx, hget,
      hcm, hcid, and_self, if_true, Option.isNone_some, false_and] at h
    split at h
    · exact absurd h (by simp)
    · split at h
      · split at h
        · exact absurd h (by simp)
        · exact absurd h (by simp)
        · injection h with h'; rw [← h']
      · injection h with h'; rw [← h']
  · intro fuel ctx mc items deleted prop value hp hm hbad
    simp only [collDefineTrap, hp, Bool.false_eq_true, if_false]
    rw [if_neg (by simp [hm]), if_pos]
    refine ⟨by simp [hm], ?_⟩
    rcases hbad with hb | hb
    · exact Or.inl (by simp [hb])
    · exact Or.inr hb

/-- C9 witness: writing the model instance `likeInst` at index `0` of an
empty `Post` collection keeps every element a model instance. -/
theorem C9_witness :
    isModelInstance likeInst = true :=
  C9_theorem.1 9 ctx0 postCls [] [] "0" likeInst ([likeInst], []) rfl
    (by intro x hx; simp at hx) (by intro n hn; simp [isCanonicalIndex] at hn; omega)
    rfl likeInst (by simp)

/-! ### C6 — query-update path decision -/

/-- C6 (amended): `Query.update` materialises models exactly when callbacks
are not disabled and the model declares a `beforeSave` or `afterSave` hook,
OR some schema field either holds a truthy value in the update data while
typed `Reference`, or carries a truthy `unique` constraint — the `unique`
test fires regardless of whether that field appears in the update data.
Otherwise the raw path runs: the data is validated ONCE against a dummy
instance, and each matched document receives one direct `update` write of
the converted cleaned data; with an external session no commit happens and
the call resolves to nothing. -/
theorem C6_theorem :
    (∀ (c : CbOpt) (cls : MClass) (data : Fields),
      Query.updateUseModel c cls data = true ↔
        ((c ≠ CbOpt.fls ∧
            (cls.callbacks.contains "beforeSave" = true ∨
             cls.callbacks.contains "afterSave" = true)) ∨
         ∃ kv ∈ cls.schema,
           (jsTruthy ((getKey data kv.1).getD .vUndef) = true ∧
             kv.2.type = some "Reference") ∨
           (∃ cst, kv.2.uniqueC = some cst ∧ cst.truthy = true))) ∧
    (∀ (fuel : Nat) (ctx : Ctx) (cls : MClass) (qpath : String) (auth : JVal)
       (data : Fields) (c : CbOpt) (s : Session) (rawIds : List String)
       (models : List JVal) (w : World) (dummy : JVal) (r : VRes)
       (conv : Fields),
      Query.updateUseModel c cls data = false →
      s.internal = false →
      updateDummy fuel ctx cls qpath auth data = .ok dummy →
      validateM fuel ctx.v dummy = .ok r →
      r.valid = true →
      r.data.isEmpty = false →
      Converter.toFirestore fuel r.data = .ok conv →
      Query.update (fuel + 1) ctx cls qpath auth data c true (some s) rawIds
          models w
        = .ok none { w with
            valCount := w.valCount + 1,
            writes := w.writes ++ rawIds.map
              (fun id => Write.updateDoc (qpath ++ "/" ++ id) conv) }) := by
  constructor
  · intro c cls data
    unfold Query.updateUseModel
    split
    · rename_i hcond
      simp only [true_iff]
      exact Or.inl hcond
    · rename_i hcond
      simp only [List.any_eq_true, Bool.or_eq_true, Bool.and_eq_true,
        decide_eq_true_eq]
      constructor
      · rintro ⟨kv, hmem, hkv⟩
        refine Or.inr ⟨kv, hmem, ?_⟩
        rcases hkv with ⟨ht, hty⟩ | hu
        · exact Or.inl ⟨ht, hty⟩
        · cases hc : kv.2.uniqueC with
          | none => rw [hc] at hu; exact absurd hu (by simp)
          | some cst => rw [hc] at hu; exact Or.inr ⟨cst, rfl, hu⟩
      · rintro (h | ⟨kv, hmem, hkv⟩)
        · exact absurd h hcond
        · refine ⟨kv, hmem, ?_⟩
          rcases hkv with ⟨ht, hty⟩ | ⟨cst, hc, hct⟩
          · exact Or.inl ⟨ht, hty⟩
          · rw [hc]; exact Or.inr hct
  · intro fuel ctx cls qpath auth data c s rawIds models w dummy r conv huse
      hint hd hv hvalid hne hconv
    simp only [Query.update, huse, hd, hv, hvalid, hne, hconv, hint,
      Bool.not_true, Bool.false_eq_true, if_false, if_true, and_self,
      and_true, true_and, eq_self_iff_true]

/-- C6 witness: a `Post` update with no hooks, no `Reference` value and no
`unique` field takes the raw path: one validation, one `update` write per
matched document id, no commit for the external session. -/
theorem C6_witness :
    Query.update 31 ctx0 postCls "posts" .vNull [("title", .vStr "x")] .tru
      true (some ⟨false, "s1", false⟩) ["d1", "d2"] [] w0
      = .ok none { w0 with
          valCount := w0.valCount + 1,
          writes := w0.writes ++ ["d1", "d2"].map
            (fun id => Write.updateDoc ("posts" ++ "/" ++ id)
              [("title", JVal.vStr "x")]) } :=
  C6_theorem.2 30 ctx0 postCls "posts" .vNull [("title", .vStr "x")] .tru
    ⟨false, "s1", false⟩ ["d1", "d2"] [] w0
    (.vModel postCls "" [("id", .vStr "1"), ("title", .vStr "x")]
      [("title", .vStr "x")] (some ("posts" ++ "/1")) none none .vNull)
    ⟨true, [], [("title", .vStr "x")]⟩ [("title", JVal.vStr "x")]
    rfl rfl rfl rfl rfl rfl rfl

/-! ### C2 — admin write-permission rule -/

theorem setKey_ne_nil {α : Type} (m : List (String × α)) (k : String) (v : α) :
    setKey m k v ≠ [] := by
  match m with
  | [] => simp [setKey]
  | (k', v') :: rest =>
    simp only [setKey]
    split <;> simp

theorem assignAll_ne_nil {α : Type} {target : List (String × α)}
    (src : List (String × α)) (h : target ≠ []) : assignAll target src ≠ [] := by
  induction src generalizing target with
  | nil => exact h
  | cons a rest ih => exact ih (setKey_ne_nil target a.1 a.2)

theorem assignAll_src_ne_nil {α : Type} (target : List (String × α))
    {src : List (String × α)} (h : src ≠ []) : assignAll target src ≠ [] := by
  match src with
  | [] => exact absurd rfl h
  | a :: rest => exact assignAll_ne_nil rest (setKey_ne_nil target a.1 a.2)

theorem getKey_setKey_ne {α : Type} (m : List (String × α)) {g f : String}
    (v : α) (h : g ≠ f) : getKey (setKey m g v) f = getKey m f := by
  induction m with
  | nil => simp [setKey, getKey, h]
  | cons a rest ih =>
    simp only [setKey]
    split
    · rename_i hk
      have ha : ¬ a.1 = f := fun hf => h (hk.symm.trans hf)
      simp only [getKey, ha, if_false]
      rw [if_neg h]
    · simp [getKey, ih]

theorem getKey_isSome_ne_nil {α : Type} {m : List (String × α)} {k : String}
    (h : (getKey m k).isSome = true) : m ≠ [] := by
  intro hm
  rw [hm] at h
  simp [getKey] at h

theorem checkData_shape {fuel : Nat} {ctx : VCtx}
    {schema : List (String × SRule)} {data : Fields} {opts : VOpts} {r : VRes}
    (h : checkData fuel ctx schema data opts = .ok r) :
    r.valid = r.errors.isEmpty := by
  match fuel with
  | 0 => exact absurd h (by simp [checkData])
  | fuel + 1 =>
    simp only [checkData] at h
    split at h
    · exact absurd h (by simp)
    · exact absurd h (by simp)
    · injection h with h'
      rw [← h']

theorem checkData_invalid {fuel : Nat} {ctx : VCtx}
    {schema : List (String × SRule)} {data : Fields} {opts : VOpts} {r : VRes}
    (h : checkData fuel ctx schema data opts = .ok r) (hv : r.valid = false) :
    r.errors ≠ [] := by
  have hs := checkData_shape h
  rw [hv] at hs
  intro hn
  rw [hn] at hs
  simp at hs

theorem foldl_inv_valid {β : Type} (g : VRes → β → VRes)
    (hg : ∀ acc b, g acc b = acc ∨
      ((g acc b).valid = false ∧ (g acc b).errors ≠ [])) :
    ∀ (l : List β) (acc : VRes), (acc.valid = false → acc.errors ≠ []) →
      (l.foldl g acc).valid = false → (l.foldl g acc).errors ≠ [] := by
  intro l
  induction l with
  | nil => intro acc hbase; exact hbase
  | cons b rest ih =>
    intro acc hbase
    simp only [List.foldl_cons]
    refine ih (g acc b) ?_
    rcases hg acc b with he | ⟨_, hne⟩
    · rw [he]; exact hbase
    · intro _; exact hne

theorem validateM_invalid {fuel : Nat} {ctx : VCtx} {m : JVal} {r : VRes}
    (h : validateM fuel ctx m = .ok r) : r.valid = false → r.errors ≠ [] := by
  match fuel with
  | 0 => exact absurd h (by simp [validateM])
  | fuel + 1 =>
    simp only [validateM] at h
    split at h
    · rename_i cls oid flds changes fireRef docSnap docId auth
      split at h
      · exact absurd h (by simp)
      · exact absurd h (by simp)
      · rename_i result hcd
        injection h with h'
        subst h'
        refine foldl_inv_valid _ ?_ cls.schema result
          (fun hv => checkData_invalid hcd hv)
        intro acc b
        dsimp only
        split
        · exact Or.inl rfl
        · split
          · split
            · exact Or.inl rfl
            · split
              · split
                · exact Or.inr ⟨rfl, setKey_ne_nil _ _ _⟩
                · exact Or.inl rfl
              · split
                · exact Or.inr ⟨rfl, setKey_ne_nil _ _ _⟩
                · exact Or.inl rfl
          · exact Or.inl rfl
    · exact absurd h (by simp)

theorem prefixDot_ne_nil {f : String} {errs : EMap} (h : errs ≠ []) :
    prefixDot f errs ≠ [] := by
  simpa [prefixDot] using h

theorem prefixIdx_ne_nil {f : String} {i : Nat} {errs : EMap} (h : errs ≠ []) :
    prefixIdx f i errs ≠ [] := by
  simpa [prefixIdx] using h

theorem collItems_some_ne_nil {ctx : VCtx} {f : String} {mc : MClass} :
    ∀ {items : List JVal} {i fuel : Nat} {adds : EMap},
      collItems fuel ctx f mc items i = .ok (some adds) → adds ≠ [] := by
  intro items
  induction items with
  | nil => intro i fuel adds h; simp [collItems] at h
  | cons item rest ih =>
    intro i fuel adds h
    match fuel with
    | 0 => exact absurd h (by simp [collItems])
    | fuel + 1 =>
      simp only [collItems] at h
      split at h
      · injection h with h'
        injection h' with h''
        rw [← h'']
        simp
      · split at h
        · exact absurd h (by simp)
        · exact absurd h (by simp)
        · rename_i r hv
          split at h
          · rename_i hinv
            injection h with h'
            injection h' with h''
            rw [← h'']
            exact prefixIdx_ne_nil
              (validateM_invalid hv (by simpa using hinv))
          · exact ih h

theorem arrItems_some_ne_nil {ctx : VCtx} {f : String} {rules : SRule} :
    ∀ {items : List JVal} {i fuel : Nat} {adds : EMap},
      arrItems fuel ctx f rules items i = .ok (some adds) → adds ≠ [] := by
  intro items
  induction items with
  | nil => intro i fuel adds h; simp [arrItems] at h
  | cons item rest ih =>
    intro i fuel adds h
    match fuel with
    | 0 => exact absurd h (by simp [arrItems])
    | fuel + 1 =>
      simp only [arrItems] at h
      split at h
      · split at h
        · exact absurd h (by simp)
        · split at h
          · injection h with h'
            injection h' with h''
            rw [← h'']
            simp
          · split at h
            · exact absurd h (by simp)
            · exact absurd h (by simp)
            · rename_i r hv
              split at h
              · rename_i hinv
                injection h with h'
                injection h' with h''
                rw [← h'']
                exact prefixIdx_ne_nil
                  (validateM_invalid hv (by simpa using hinv))
              · exact ih h
      · split at h
        · injection h with h'
          injection h' with h''
          rw [← h'']
          simp
        · exact ih h

theorem checkCompound_errOut_ne_nil {fuel : Nat} {ctx : VCtx} {opts : VOpts}
    {f : String} {v : JVal} {rules : SRule} {τ : String} {adds : EMap}
    (h : checkCompound fuel ctx opts f v rules τ = .ok (.errOut adds)) :
    adds ≠ [] := by
  match fuel with
  | 0 => exact absurd h (by simp [checkCompound])
  | fuel + 1 =>
    simp only [checkCompound] at h
    split at h
    · -- Reference
      split at h
      · exact absurd h (by simp)
      · split at h
        · injection h with h'
          injection h' with h''
          rw [← h'']
          simp
        · split at h
          · exact absurd h (by simp)
          · exact absurd h (by simp)
          · rename_i r hv
            split at h
            · rename_i hinv
              injection h with h'
              injection h' with h''
              rw [← h'']
              exact prefixDot_ne_nil (validateM_invalid hv (by simpa using hinv))
            · exact absurd h (by simp)
    · split at h
      · -- Collection
        split at h
        · exact absurd h (by simp)
        · split at h
          · exact absurd h (by simp)
          · exact absurd h (by simp)
          · rename_i adds' hci
            injection h with h'
            injection h' with h''
            rw [← h'']
            exact collItems_some_ne_nil hci
          · exact absurd h (by simp)
      · split at h
        · -- SubModel
          split at h
          · exact absurd h (by simp)
          · split at h
            · exact absurd h (by simp)
            · split at h
              · exact absurd h (by simp)
              · exact absurd h (by simp)
              · rename_i r hcd
                split at h
                · rename_i hinv
                  injection h with h'
                  injection h' with h''
                  rw [← h'']
                  exact prefixDot_ne_nil
                    (checkData_invalid hcd (by simpa using hinv))
                · exact absurd h (by simp)
        · split at h
          · -- Object
            split at h
            · exact absurd h (by simp)
            · split at h
              · exact absurd h (by simp)
              · exact absurd h (by simp)
              · split at h
                · exact absurd h (by simp)
                · exact absurd h (by simp)
                · split at h
                  · exact absurd h (by simp)
                  · exact absurd h (by simp)
                  · rename_i r hcd
                    split at h
                    · rename_i hinv
                      injection h with h'
                      injection h' with h''
                      rw [← h'']
                      exact prefixDot_ne_nil
                        (checkData_invalid hcd (by simpa using hinv))
                    · split at h
                      · exact absurd h (by simp)
                      · exact absurd h (by simp)
                      · exact absurd h (by simp)
          · split at h
            · -- Array
              split at h
              · exact absurd h (by simp)
              · exact absurd h (by simp)
              · rename_i adds' hai
                injection h with h'
                injection h' with h''
                rw [← h'']
                exact arrItems_some_ne_nil hai
              · exact absurd h (by simp)
            · exact absurd h (by simp)

theorem checkScalarRules_admin {ctx : VCtx} {opts : VOpts} {f : String}
    {val dataF : JVal} {rules : SRule} {out : FOut}
    (hadmin : rules.writeRule = some "admin")
    (hrej : adminRejects opts.authValue = true)
    (h : checkScalarRules ctx opts f val dataF rules = .ok out) :
    ∃ adds, out = .err adds ∧ adds ≠ [] := by
  simp only [checkScalarRules, checkAdminRule, hadmin, hrej] at h
  split at h
  · rename_i msg hmsg
    exact ⟨[(f, msg)], by injection h with h'; rw [← h'], by simp⟩
  · split at h
    · split at h
      · rename_i fn hfn hbad
        refine ⟨_, by injection h with h'; rw [← h'], by simp⟩
      · simp only [Bool.and_self, decide_True, if_true] at h
        exact ⟨[(f, "Admin permission required")],
          by injection h with h'; rw [← h'], by simp⟩
    · simp only [Bool.and_self, decide_True, if_true] at h
      exact ⟨[(f, "Admin permission required")],
        by injection h with h'; rw [← h'], by simp⟩

theorem checkOne_admin {ctx : VCtx} {opts : VOpts} {f : String} {rules : SRule}
    {v : JVal} {fuel : Nat} {out : FOut}
    (hadmin : rules.writeRule = some "admin")
    (hrej : adminRejects opts.authValue = true)
    (hnull : ¬(v = .vNull ∧ rules.nullOk = some true))
    (htr : transformNames.contains (constructorName v) = false)
    (h : checkOne fuel ctx opts f v rules = .ok out) :
    ∃ adds, out = .err adds ∧ adds ≠ [] := by
  match fuel with
  | 0 => exact absurd h (by simp [checkOne])
  | fuel + 1 =>
    simp only [checkOne] at h
    split at h
    · -- v = vNull
      split at h
      · rename_i hok
        exact absurd ⟨rfl, hok⟩ hnull
      · exact ⟨[(f, "Null value not allowed for this field")],
          by injection h with h'; rw [← h'], by simp⟩
    · exact ⟨[(f, "Value is undefined")],
        by injection h with h'; rw [← h'], by simp⟩
    · -- other values
      split at h
      · exact absurd h (by simp)
      · rw [htr] at h
        simp only [Bool.false_eq_true, if_false] at h
        split at h
        · exact ⟨_, by injection h with h'; rw [← h'], by simp⟩
        · split at h
          · exact absurd h (by simp)
          · exact absurd h (by simp)
          · rename_i adds hcc
            exact ⟨adds, by injection h with h'; rw [← h'],
              checkCompound_errOut_ne_nil hcc⟩
          · split at h
            · split at h
              · exact ⟨[(f, "Invalid enum value")],
                  by injection h with h'; rw [← h'], by simp⟩
              · exact checkScalarRules_admin hadmin hrej h
            · exact checkScalarRules_admin hadmin hrej h

theorem checkFields_admin_go {ctx : VCtx} {opts : VOpts}
    {schema : List (String × SRule)} {f : String} {rules : SRule}
    (hsch : getKey schema f = some rules)
    (hadmin : rules.writeRule = some "admin")
    (hrej : adminRejects opts.authValue = true) :
    ∀ (data : Fields) (fuel : Nat) (errors : EMap) (cleaned : Fields)
      (out : EMap × Fields),
      (∀ v', (f, v') ∈ data →
        ¬(v' = .vNull ∧ rules.nullOk = some true) ∧
        transformNames.contains (constructorName v') = false) →
      checkFields fuel ctx schema opts data errors cleaned = .ok out →
      getKey cleaned f = none →
      getKey out.2 f = none ∧ (errors ≠ [] → out.1 ≠ []) ∧
        ((∃ v', (f, v') ∈ data) → out.1 ≠ []) := by
  intro data
  induction data with
  | nil =>
    intro fuel errors cleaned out hall h hcl
    simp only [checkFields] at h
    injection h with h'
    rw [← h']
    exact ⟨hcl, fun he => he, fun ⟨v', hv'⟩ => absurd hv' (by simp)⟩
  | cons a rest ih =>
    obtain ⟨g, v⟩ := a
    intro fuel errors cleaned out hall h hcl
    cases fuel with
    | zero => exact absurd h (by simp [checkFields])
    | succ fuel =>
      simp only [checkFields] at h
      cases hg : getKey schema g with
      | none =>
        simp only [hg] at h
        have hgf : g ≠ f := fun he => by rw [he, hsch] at hg; cases hg
        obtain ⟨h1, h2, h3⟩ := ih fuel errors cleaned out
          (fun v' hv' => hall v' (List.mem_cons_of_mem _ hv')) h hcl
        refine ⟨h1, h2, fun ⟨v', hv'⟩ => ?_⟩
        rcases List.mem_cons.mp hv' with he | he
        · injection he with he1 _
          exact absurd he1.symm hgf
        · exact h3 ⟨v', he⟩
      | some rules' =>
        simp only [hg] at h
        split at h
        · rename_i hskip
          have hene : errors ≠ [] := getKey_isSome_ne_nil hskip
          obtain ⟨h1, h2, h3⟩ := ih fuel errors cleaned out
            (fun v' hv' => hall v' (List.mem_cons_of_mem _ hv')) h hcl
          exact ⟨h1, fun _ => h2 hene, fun _ => h2 hene⟩
        · split at h
          · exact absurd h (by simp)
          · exact absurd h (by simp)
          · rename_i adds hco
            obtain ⟨h1, h2, h3⟩ := ih fuel (assignAll errors adds) cleaned out
              (fun v' hv' => hall v' (List.mem_cons_of_mem _ hv')) h hcl
            by_cases hgf : g = f
            · subst hgf
              have hre : rules = rules' := by
                rw [hsch] at hg
                exact Option.some.inj hg
              obtain ⟨hnull, htr⟩ := hall v (List.mem_cons_self _ _)
              obtain ⟨adds', heq, hne⟩ :=
                checkOne_admin (hre ▸ hadmin) hrej (by rw [← hre]; exact hnull)
                  htr hco
              have hadne : adds ≠ [] := by
                injection heq with he
                rw [he]
                exact hne
              have hane : assignAll errors adds ≠ [] :=
                assignAll_src_ne_nil errors hadne
              exact ⟨h1, fun _ => h2 hane, fun _ => h2 hane⟩
            · refine ⟨h1, fun he => h2 (assignAll_ne_nil _ he),
                fun ⟨v', hv'⟩ => ?_⟩
              rcases List.mem_cons.mp hv' with he | he
              · injection he with he1 _
                exact absurd he1.symm hgf
              · exact h3 ⟨v', he⟩
          · rename_i cleanVal hco
            by_cases hgf : g = f
            · subst hgf
              have hre : rules = rules' := by
                rw [hsch] at hg
                exact Option.some.inj hg
              obtain ⟨hnull, htr⟩ := hall v (List.mem_cons_self _ _)
              obtain ⟨adds', heq, _⟩ :=
                checkOne_admin (hre ▸ hadmin) hrej (by rw [← hre]; exact hnull)
                  htr hco
              exact absurd heq (by simp)
            · obtain ⟨h1, h2, h3⟩ := ih fuel errors
                (setKey cleaned g cleanVal) out
                (fun v' hv' => hall v' (List.mem_cons_of_mem _ hv')) h
                (by rw [getKey_setKey_ne _ _ hgf]; exact hcl)
              refine ⟨h1, h2, fun ⟨v', hv'⟩ => ?_⟩
              rcases List.mem_cons.mp hv' with he | he
              · injection he with he1 _
                exact absurd he1.symm hgf
              · exact h3 ⟨v', he⟩

/-- C2 (corrected): a field whose rule carries `write: 'admin'` is rejected
by `Validator.check` — an error is recorded and the field is excluded from
the sanitized output — whenever the caller's auth value is PRESENT (neither
null nor undefined) and not exactly the boolean `true`; a null or undefined
auth value passes the admin rule.  The rejection also requires the value to
pass neither of the two checks that bypass the rule loop: a `null` value
under `nullable: true` and a Firestore `FieldValue` transform sentinel. -/
theorem C2_theorem :
    ∀ (fuel : Nat) (ctx : VCtx) (schema : List (String × SRule))
      (data : Fields) (opts : VOpts) (f : String) (v : JVal) (rules : SRule)
      (r : VRes),
      getKey schema f = some rules →
      rules.writeRule = some "admin" →
      adminRejects opts.authValue = true →
      (f, v) ∈ data →
      (∀ v', (f, v') ∈ data →
        ¬(v' = .vNull ∧ rules.nullOk = some true) ∧
        transformNames.contains (constructorName v') = false) →
      checkData fuel ctx schema data opts = .ok r →
      r.valid = false ∧ r.errors ≠ [] ∧ getKey r.data f = none := by
  intro fuel ctx schema data opts f v rules r hsch hadmin hrej hmem hall hcd
  cases fuel with
  | zero => exact absurd hcd (by simp [checkData])
  | succ fuel =>
    simp only [checkData] at hcd
    split at hcd
    · exact absurd hcd (by simp)
    · exact absurd hcd (by simp)
    · rename_i errors cleaned hcf
      obtain ⟨h1, h2, h3⟩ := checkFields_admin_go hsch hadmin hrej data fuel
        (requiredErrors schema data opts) [] (errors, cleaned) hall hcf
        (by simp [getKey])
      injection hcd with h'
      have hne := h3 ⟨v, hmem⟩
      rw [← h']
      refine ⟨?_, hne, h1⟩
      cases errors with
      | nil => exact absurd rfl hne
      | cons e es => rfl

/-- C2 witness: with auth value `"uid1"` (present, not `true`) a `String`
value on an admin-guarded field is rejected and stripped. -/
theorem C2_witness :
    (⟨false, [("role", "Admin permission required")], []⟩ : VRes).valid
        = false ∧
    (⟨false, [("role", "Admin permission required")], []⟩ : VRes).errors
        ≠ [] ∧
    getKey (⟨false, [("role", "Admin permission required")], []⟩
        : VRes).data "role" = none :=
  C2_theorem 5 noVCtx [("role", rAdminStr)] [("role", .vStr "x")]
    ⟨none, false, .vStr "uid1"⟩ "role" (.vStr "x") rAdminStr
    ⟨false, [("role", "Admin permission required")], []⟩
    rfl rfl rfl (by simp)
    (by intro v' hv'; simp at hv'; subst hv'; exact ⟨by simp, rfl⟩) rfl

/-! ### C4 — sanitized-output guarantees -/

theorem getKey_setKey_self {α : Type} (m : List (String × α)) (k : String)
    (v : α) : getKey (setKey m k v) k = some v := by
  induction m with
  | nil => simp [setKey, getKey]
  | cons a rest ih =>
    simp only [setKey]
    split
    · simp [getKey]
    · rename_i hk
      simp [getKey, hk, ih]

theorem getKey_assignAll_none {α : Type} {src : List (String × α)}
    {k : String} (hsrc : ∀ a ∈ src, a.1 ≠ k) :
    ∀ {target : List (String × α)}, getKey target k = none →
      getKey (assignAll target src) k = none := by
  induction src with
  | nil => intro target ht; exact ht
  | cons a rest ih =>
    intro target ht
    refine ih (fun b hb => hsrc b (List.mem_cons_of_mem _ hb)) ?_
    rw [getKey_setKey_ne _ _ (hsrc a (List.mem_cons_self _ _))]
    exact ht

theorem dot_mem_prefixDot {f : String} {errs : EMap} :
    ∀ km ∈ prefixDot f errs, '.' ∈ km.1.data := by
  intro km hkm
  simp only [prefixDot, List.mem_map] at hkm
  obtain ⟨a, _, ha⟩ := hkm
  rw [← ha]
  simp [String.data_append]

theorem bracket_mem_prefixIdx {f : String} {i : Nat} {errs : EMap} :
    ∀ km ∈ prefixIdx f i errs, '[' ∈ km.1.data := by
  intro km hkm
  simp only [prefixIdx, List.mem_map] at hkm
  obtain ⟨a, _, ha⟩ := hkm
  rw [← ha]
  simp [String.data_append]

theorem checkScalarRules_err_key {ctx : VCtx} {opts : VOpts} {f : String}
    {val dataF : JVal} {rules : SRule} {adds : EMap}
    (h : checkScalarRules ctx opts f val dataF rules = .ok (.err adds)) :
    ∃ m, adds = [(f, m)] := by
  simp only [checkScalarRules] at h
  split at h
  · exact ⟨_, by injection h with h'; injection h' with h''; rw [← h'']⟩
  · split at h
    · split at h
      · exact ⟨_, by injection h with h'; injection h' with h''; rw [← h'']⟩
      · simp only [checkAdminRule] at h
        split at h
        · exact ⟨_, by injection h with h'; injection h' with h''; rw [← h'']⟩
        · exact absurd h (by simp)
    · simp only [checkAdminRule] at h
      split at h
      · exact ⟨_, by injection h with h'; injection h' with h''; rw [← h'']⟩
      · exact absurd h (by simp)

theorem checkScalarRules_pass {ctx : VCtx} {opts : VOpts} {f : String}
    {val dataF : JVal} {rules : SRule} {w : JVal}
    (h : checkScalarRules ctx opts f val dataF rules = .ok (.pass w)) :
    w = dataF := by
  simp only [checkScalarRules] at h
  split at h
  · exact absurd h (by simp)
  · split at h
    · split at h
      · exact absurd h (by simp)
      · simp only [checkAdminRule] at h
        split at h
        · exact absurd h (by simp)
        · injection h with h'
          injection h' with h''
          exact h''.symm
    · simp only [checkAdminRule] at h
      split at h
      · exact absurd h (by simp)
      · injection h with h'
        injection h' with h''
        exact h''.symm

theorem collItems_keys {ctx : VCtx} {f : String} {mc : MClass} :
    ∀ {items : List JVal} {i fuel : Nat} {adds : EMap},
      collItems fuel ctx f mc items i = .ok (some adds) →
      ∀ km ∈ adds, '[' ∈ km.1.data := by
  intro items
  induction items with
  | nil => intro i fuel adds h; simp [collItems] at h
  | cons item rest ih =>
    intro i fuel adds h
    match fuel with
    | 0 => exact absurd h (by simp [collItems])
    | fuel + 1 =>
      simp only [collItems] at h
      split at h
      · intro km hkm
        injection h with h'
        injection h' with h''
        rw [← h''] at hkm
        simp only [List.mem_singleton] at hkm
        rw [hkm]
        simp [String.data_append]
      · split at h
        · exact absurd h (by simp)
        · exact absurd h (by simp)
        · split at h
          · injection h with h'
            injection h' with h''
            rw [← h'']
            exact bracket_mem_prefixIdx
          · exact ih h

theorem arrItems_keys {ctx : VCtx} {f : String} {rules : SRule} :
    ∀ {items : List JVal} {i fuel : Nat} {adds : EMap},
      arrItems fuel ctx f rules items i = .ok (some adds) →
      ∀ km ∈ adds, '[' ∈ km.1.data := by
  intro items
  induction items with
  | nil => intro i fuel adds h; simp [arrItems] at h
  | cons item rest ih =>
    intro i fuel adds h
    match fuel with
    | 0 => exact absurd h (by simp [arrItems])
    | fuel + 1 =>
      simp only [arrItems] at h
      split at h
      · split at h
        · exact absurd h (by simp)
        · split at h
          · intro km hkm
            injection h with h'
            injection h' with h''
            rw [← h''] at hkm
            simp only [List.mem_singleton] at hkm
            rw [hkm]
            simp [String.data_append]
          · split at h
            · exact absurd h (by simp)
            · exact absurd h (by simp)
            · split at h
              · injection h with h'
                injection h' with h''
                rw [← h'']
                exact bracket_mem_prefixIdx
              · exact ih h
      · split at h
        · intro km hkm
          injection h with h'
          injection h' with h''
          rw [← h''] at hkm
          simp only [List.mem_singleton] at hkm
          rw [hkm]
          simp [String.data_append]
        · exact ih h

theorem checkCompound_errOut_keys {fuel : Nat} {ctx : VCtx} {opts : VOpts}
    {f : String} {v : JVal} {rules : SRule} {τ : String} {adds : EMap}
    (h : checkCompound fuel ctx opts f v rules τ = .ok (.errOut adds)) :
    ∀ km ∈ adds, km.1 = f ∨ '.' ∈ km.1.data ∨ '[' ∈ km.1.data := by
  match fuel with
  | 0 => exact absurd h (by simp [checkCompound])
  | fuel + 1 =>
    simp only [checkCompound] at h
    split at h
    · split at h
      · exact absurd h (by simp)
      · split at h
        · intro km hkm
          injection h with h'
          injection h' with h''
          rw [← h''] at hkm
          simp only [List.mem_singleton] at hkm
          rw [hkm]
          exact Or.inl rfl
        · split at h
          · exact absurd h (by simp)
          · exact absurd h (by simp)
          · split at h
            · injection h with h'
              injection h' with h''
              rw [← h'']
              exact fun km hkm => Or.inr (Or.inl (dot_mem_prefixDot km hkm))
            · exact absurd h (by simp)
    · split at h
      · split at h
        · exact absurd h (by simp)
        · split at h
          · exact absurd h (by simp)
          · exact absurd h (by simp)
          · rename_i adds' hci
            injection h with h'
            injection h' with h''
            rw [← h'']
            exact fun km hkm => Or.inr (Or.inr (collItems_keys hci km hkm))
          · exact absurd h (by simp)
      · split at h
        · split at h
          · exact absurd h (by simp)
          · split at h
            · exact absurd h (by simp)
            · split at h
              · exact absurd h (by simp)
              · exact absurd h (by simp)
              · split at h
                · injection h with h'
                  injection h' with h''
                  rw [← h'']
                  exact fun km hkm => Or.inr (Or.inl (dot_mem_prefixDot km hkm))
                · exact absurd h (by simp)
        · split at h
          · split at h
            · exact absurd h (by simp)
            · split at h
              · exact absurd h (by simp)
              · exact absurd h (by simp)
              · split at h
                · exact absurd h (by simp)
                · exact absurd h (by simp)
                · split at h
                  · exact absurd h (by simp)
                  · exact absurd h (by simp)
                  · split at h
                    · injection h with h'
                      injection h' with h''
                      rw [← h'']
                      exact fun km hkm =>
                        Or.inr (Or.inl (dot_mem_prefixDot km hkm))
                    · split at h
                      · exact absurd h (by simp)
                      · exact absurd h (by simp)
                      · exact absurd h (by simp)
          · split at h
            · split at h
              · exact absurd h (by simp)
              · exact absurd h (by simp)
              · rename_i adds' hai
                injection h with h'
                injection h' with h''
                rw [← h'']
                exact fun km hkm => Or.inr (Or.inr (arrItems_keys hai km hkm))
              · exact absurd h (by simp)
            · exact absurd h (by simp)

theorem checkCompound_go_shape {fuel : Nat} {ctx : VCtx} {opts : VOpts}
    {f : String} {v : JVal} {rules : SRule} {τ : String} {val dataF : JVal}
    (h : checkCompound fuel ctx opts f v rules τ = .ok (.go val dataF)) :
    dataF = v ∨ (τ = "SubModel" ∧ ∃ sub, dataF = .vObj sub) := by
  match fuel with
  | 0 => exact absurd h (by simp [checkCompound])
  | fuel + 1 =>
    simp only [checkCompound] at h
    split at h
    · split at h
      · exact absurd h (by simp)
      · split at h
        · exact absurd h (by simp)
        · split at h
          · exact absurd h (by simp)
          · exact absurd h (by simp)
          · split at h
            · exact absurd h (by simp)
            · injection h with h'
              injection h' with h1 h2
              exact Or.inl h2.symm
    · split at h
      · split at h
        · exact absurd h (by simp)
        · split at h
          · exact absurd h (by simp)
          · exact absurd h (by simp)
          · exact absurd h (by simp)
          · injection h with h'
            injection h' with h1 h2
            exact Or.inl h2.symm
      · split at h
        · rename_i hsub
          split at h
          · exact absurd h (by simp)
          · split at h
            · injection h with h'
              injection h' with h1 h2
              exact Or.inl h2.symm
            · split at h
              · exact absurd h (by simp)
              · exact absurd h (by simp)
              · split at h
                · exact absurd h (by simp)
                · injection h with h'
                  injection h' with h1 h2
                  exact Or.inr ⟨hsub, _, h2.symm⟩
        · split at h
          · split at h
            · injection h with h'
              injection h' with h1 h2
              exact Or.inl h2.symm
            · split at h
              · exact absurd h (by simp)
              · exact absurd h (by simp)
              · split at h
                · exact absurd h (by simp)
                · exact absurd h (by simp)
                · split at h
                  · exact absurd h (by simp)
                  · exact absurd h (by simp)
                  · split at h
                    · exact absurd h (by simp)
                    · split at h
                      · exact absurd h (by simp)
                      · exact absurd h (by simp)
                      · injection h with h'
                        injection h' with h1 h2
                        exact Or.inl h2.symm
          · split at h
            · split at h
              · exact absurd h (by simp)
              · exact absurd h (by simp)
              · exact absurd h (by simp)
              · injection h with h'
                injection h' with h1 h2
                exact Or.inl h2.symm
            · injection h with h'
              injection h' with h1 h2
              exact Or.inl h2.symm

theorem checkOne_err_keys {fuel : Nat} {ctx : VCtx} {opts : VOpts}
    {f : String} {v : JVal} {rules : SRule} {adds : EMap}
    (h : checkOne fuel ctx opts f v rules = .ok (.err adds)) :
    ∀ km ∈ adds, km.1 = f ∨ '.' ∈ km.1.data ∨ '[' ∈ km.1.data := by
  match fuel with
  | 0 => exact absurd h (by simp [checkOne])
  | fuel + 1 =>
    simp only [checkOne] at h
    split at h
    · split at h
      · exact absurd h (by simp)
      · intro km hkm
        injection h with h'
        injection h' with h''
        rw [← h''] at hkm
        simp only [List.mem_singleton] at hkm
        rw [hkm]
        exact Or.inl rfl
    · intro km hkm
      injection h with h'
      injection h' with h''
      rw [← h''] at hkm
      simp only [List.mem_singleton] at hkm
      rw [hkm]
      exact Or.inl rfl
    · split at h
      · exact absurd h (by simp)
      · split at h
        · exact absurd h (by simp)
        · split at h
          · intro km hkm
            injection h with h'
            injection h' with h''
            rw [← h''] at hkm
            simp only [List.mem_singleton] at hkm
            rw [hkm]
            exact Or.inl rfl
          · split at h
            · exact absurd h (by simp)
            · exact absurd h (by simp)
            · rename_i adds' hcc
              injection h with h'
              injection h' with h''
              rw [← h'']
              exact checkCompound_errOut_keys hcc
            · split at h
              · split at h
                · intro km hkm
                  injection h with h'
                  injection h' with h''
                  rw [← h''] at hkm
                  simp only [List.mem_singleton] at hkm
                  rw [hkm]
                  exact Or.inl rfl
                · obtain ⟨m, hm⟩ := checkScalarRules_err_key h
                  intro km hkm
                  rw [hm] at hkm
                  simp only [List.mem_singleton] at hkm
                  rw [hkm]
                  exact Or.inl rfl
              · obtain ⟨m, hm⟩ := checkScalarRules_err_key h
                intro km hkm
                rw [hm] at hkm
                simp only [List.mem_singleton] at hkm
                rw [hkm]
                exact Or.inl rfl

theorem checkOne_pass_shape {fuel : Nat} {ctx : VCtx} {opts : VOpts}
    {f : String} {v : JVal} {rules : SRule} {w : JVal}
    (h : checkOne fuel ctx opts f v rules = .ok (.pass w)) :
    w = v ∨ ((match rules.type with
      | some t => t
      | none => constructorName v) = "SubModel" ∧ ∃ sub, w = .vObj sub) := by
  match fuel with
  | 0 => exact absurd h (by simp [checkOne])
  | fuel + 1 =>
    simp only [checkOne] at h
    split at h
    · split at h
      · injection h with h'
        injection h' with h''
        exact Or.inl h''.symm
      · exact absurd h (by simp)
    · exact absurd h (by simp)
    · split at h
      · exact absurd h (by simp)
      · split at h
        · injection h with h'
          injection h' with h''
          exact Or.inl h''.symm
        · split at h
          · exact absurd h (by simp)
          · split at h
            · exact absurd h (by simp)
            · exact absurd h (by simp)
            · exact absurd h (by simp)
            · rename_i val dataF hcc
              have hshape := checkCompound_go_shape hcc
              split at h
              · split at h
                · exact absurd h (by simp)
                · have hw := checkScalarRules_pass h
                  rw [hw]
                  exact hshape
              · have hw := checkScalarRules_pass h
                rw [hw]
                exact hshape

theorem getKey_some_mem {α : Type} {l : List (String × α)} {k : String}
    {v : α} (h : getKey l k = some v) : (k, v) ∈ l := by
  induction l with
  | nil => simp [getKey] at h
  | cons a rest ih =>
    obtain ⟨k', v'⟩ := a
    simp only [getKey] at h
    split at h
    · rename_i hk
      injection h with h'
      rw [← hk, ← h']
      exact List.mem_cons_self _ _
    · exact List.mem_cons_of_mem _ (ih h)

theorem checkFields_main {ctx : VCtx} {opts : VOpts}
    {schema : List (String × SRule)}
    (hs : ∀ kv ∈ schema, '.' ∉ kv.1.data ∧ '[' ∉ kv.1.data) :
    ∀ (data : Fields) (fuel : Nat) (errors : EMap) (cleaned : Fields)
      (out : EMap × Fields),
      (data.map Prod.fst).Nodup →
      (∀ kv ∈ data, getKey cleaned kv.1 = none) →
      (∀ k, getKey cleaned k ≠ none → getKey schema k ≠ none) →
      (∀ k, getKey cleaned k ≠ none → getKey errors k = none) →
      checkFields fuel ctx schema opts data errors cleaned = .ok out →
      (∀ k, getKey out.2 k ≠ none → getKey schema k ≠ none) ∧
      (∀ k, getKey out.2 k ≠ none → getKey out.1 k = none) ∧
      (∀ k w, getKey out.2 k = some w → getKey cleaned k = some w ∨
        ∃ v rules, (k, v) ∈ data ∧ getKey schema k = some rules ∧
          (w = v ∨ ((match rules.type with
            | some t => t
            | none => constructorName v) = "SubModel" ∧
            ∃ sub, w = .vObj sub))) := by
  intro data
  induction data with
  | nil =>
    intro fuel errors cleaned out hnd hfresh hcs hdisj h
    simp only [checkFields] at h
    injection h with h'
    rw [← h']
    exact ⟨hcs, hdisj, fun k w hk => Or.inl hk⟩
  | cons a rest ih =>
    obtain ⟨g, v⟩ := a
    intro fuel errors cleaned out hnd hfresh hcs hdisj h
    have hndt : (rest.map Prod.fst).Nodup := by
      simpa using hnd.of_cons
    cases fuel with
    | zero => exact absurd h (by simp [checkFields])
    | succ fuel =>
      simp only [checkFields] at h
      cases hg : getKey schema g with
      | none =>
        simp only [hg] at h
        obtain ⟨p1, p2, p3⟩ := ih fuel errors cleaned out hndt
          (fun kv hkv => hfresh kv (List.mem_cons_of_mem _ hkv)) hcs hdisj h
        refine ⟨p1, p2, fun k w hk => ?_⟩
        rcases p3 k w hk with hl | ⟨v', rules', hmem, hsch', hsh⟩
        · exact Or.inl hl
        · exact Or.inr ⟨v', rules', List.mem_cons_of_mem _ hmem, hsch', hsh⟩
      | some rules' =>
        simp only [hg] at h
        split at h
        · obtain ⟨p1, p2, p3⟩ := ih fuel errors cleaned out hndt
            (fun kv hkv => hfresh kv (List.mem_cons_of_mem _ hkv)) hcs hdisj h
          refine ⟨p1, p2, fun k w hk => ?_⟩
          rcases p3 k w hk with hl | ⟨v', rules', hmem, hsch', hsh⟩
          · exact Or.inl hl
          · exact Or.inr ⟨v', rules', List.mem_cons_of_mem _ hmem, hsch', hsh⟩
        · rename_i hnsk
          split at h
          · exact absurd h (by simp)
          · exact absurd h (by simp)
          · rename_i adds hco
            have hdisj' : ∀ k, getKey cleaned k ≠ none →
                getKey (assignAll errors adds) k = none := by
              intro k hk
              refine getKey_assignAll_none ?_ (hdisj k hk)
              intro a ha hak
              obtain ⟨rk, hrk⟩ := Option.ne_none_iff_exists'.mp (hcs k hk)
              obtain ⟨hnd', hnb⟩ := hs (k, rk) (getKey_some_mem hrk)
              rcases checkOne_err_keys hco a ha with hag | hd | hb
              · have hkg : k = g := hak.symm.trans hag
                rw [hkg] at hk
                exact hk (hfresh (g, v) (List.mem_cons_self _ _))
              · rw [hak] at hd
                exact hnd' hd
              · rw [hak] at hb
                exact hnb hb
            obtain ⟨p1, p2, p3⟩ := ih fuel (assignAll errors adds) cleaned out
              hndt (fun kv hkv => hfresh kv (List.mem_cons_of_mem _ hkv))
              hcs hdisj' h
            refine ⟨p1, p2, fun k w hk => ?_⟩
            rcases p3 k w hk with hl | ⟨v', rules'', hmem, hsch', hsh⟩
            · exact Or.inl hl
            · exact Or.inr ⟨v', rules'', List.mem_cons_of_mem _ hmem, hsch', hsh⟩
          · rename_i cleanVal hco
            have hgrest : ∀ kv ∈ rest, kv.1 ≠ g := by
              intro kv hkv he
              have hnc : (g :: rest.map Prod.fst).Nodup := by simpa using hnd
              exact (List.nodup_cons.mp hnc).1
                (he ▸ List.mem_map_of_mem Prod.fst hkv)
            have hfresh' : ∀ kv ∈ rest,
                getKey (setKey cleaned g cleanVal) kv.1 = none := by
              intro kv hkv
              rw [getKey_setKey_ne _ _ (fun he => hgrest kv hkv he.symm)]
              exact hfresh kv (List.mem_cons_of_mem _ hkv)
            have hcs' : ∀ k, getKey (setKey cleaned g cleanVal) k ≠ none →
                getKey schema k ≠ none := by
              intro k hk
              by_cases hkg : g = k
              · rw [← hkg, hg]
                simp
              · rw [getKey_setKey_ne _ _ hkg] at hk
                exact hcs k hk
            have hdisj' : ∀ k, getKey (setKey cleaned g cleanVal) k ≠ none →
                getKey errors k = none := by
              intro k hk
              by_cases hkg : g = k
              · rw [← hkg]
                exact Option.not_isSome_iff_eq_none.mp hnsk
              · rw [getKey_setKey_ne _ _ hkg] at hk
                exact hdisj k hk
            obtain ⟨p1, p2, p3⟩ := ih fuel errors (setKey cleaned g cleanVal)
              out hndt hfresh' hcs' hdisj' h
            refine ⟨p1, p2, fun k w hk => ?_⟩
            rcases p3 k w hk with hl | ⟨v', rules'', hmem, hsch', hsh⟩
            · by_cases hkg : g = k
              · subst hkg
                rw [getKey_setKey_self] at hl
                injection hl with hl'
                refine Or.inr ⟨v, rules', List.mem_cons_self _ _, hg, ?_⟩
                rw [← hl']
                exact checkOne_pass_shape hco
              · rw [getKey_setKey_ne _ _ hkg] at hl
                exact Or.inl hl
            · exact Or.inr ⟨v', rules'', List.mem_cons_of_mem _ hmem, hsch', hsh⟩

/-- C4 (corrected): for schemas whose field names contain no `.` or `[`
(the separators the error-prefixing scheme reserves) and data maps without
duplicate keys, the sanitized output of `Validator.check` contains no field
absent from the schema and no field carrying a recorded error, and `valid`
is true exactly when the error map is empty.  Validated fields are however
NOT always included verbatim: a `SubModel` field is replaced by the plain
object holding its own sanitized sub-data; every other field keeps its
input value. -/
theorem C4_theorem :
    ∀ (fuel : Nat) (ctx : VCtx) (schema : List (String × SRule))
      (data : Fields) (opts : VOpts) (r : VRes),
      (∀ kv ∈ schema, '.' ∉ kv.1.data ∧ '[' ∉ kv.1.data) →
      (data.map Prod.fst).Nodup →
      checkData fuel ctx schema data opts = .ok r →
      (∀ k, getKey r.data k ≠ none → getKey schema k ≠ none) ∧
      (∀ k, getKey r.data k ≠ none → getKey r.errors k = none) ∧
      (∀ k w, getKey r.data k = some w →
        ∃ v rules, (k, v) ∈ data ∧ getKey schema k = some rules ∧
          (w = v ∨ ((match rules.type with
            | some t => t
            | none => constructorName v) = "SubModel" ∧
            ∃ sub, w = .vObj sub))) ∧
      (r.valid = true ↔ r.errors = []) := by
  intro fuel ctx schema data opts r hs hnd hcd
  cases fuel with
  | zero => exact absurd hcd (by simp [checkData])
  | succ fuel =>
    simp only [checkData] at hcd
    split at hcd
    · exact absurd hcd (by simp)
    · exact absurd hcd (by simp)
    · rename_i errors cleaned hcf
      obtain ⟨p1, p2, p3⟩ := checkFields_main hs data fuel
        (requiredErrors schema data opts) [] (errors, cleaned) hnd
        (fun _ _ => rfl) (fun _ hk => absurd rfl hk) (fun _ hk => absurd rfl hk)
        hcf
      injection hcd with h'
      rw [← h']
      refine ⟨p1, p2, fun k w hk => ?_, ?_⟩
      · rcases p3 k w hk with hl | ⟨v, rules, hmem, hsch, hsh⟩
        · exact absurd hl (by simp [getKey])
        · exact ⟨v, rules, hmem, hsch, hsh⟩
      · cases errors with
        | nil => simp
        | cons e es => simp

/-- C4 witness: a single well-typed `String` field passes through: present
in the sanitized output, disjoint from the (empty) error map, kept
verbatim, with `valid` set. -/
theorem C4_witness :
    (∀ k, getKey (⟨true, [], [("name", JVal.vStr "a")]⟩ : VRes).data k ≠ none →
      getKey [("name", rString)] k ≠ none) ∧
    (∀ k, getKey (⟨true, [], [("name", JVal.vStr "a")]⟩ : VRes).data k ≠ none →
      getKey (⟨true, [], [("name", JVal.vStr "a")]⟩ : VRes).errors k = none) ∧
    (∀ k w, getKey (⟨true, [], [("name", JVal.vStr "a")]⟩ : VRes).data k
        = some w →
      ∃ v rules, (k, v) ∈ [("name", JVal.vStr "a")] ∧
        getKey [("name", rString)] k = some rules ∧
        (w = v ∨ ((match rules.type with
          | some t => t
          | none => constructorName v) = "SubModel" ∧
          ∃ sub, w = JVal.vObj sub))) ∧
    ((⟨true, [], [("name", JVal.vStr "a")]⟩ : VRes).valid = true ↔
      (⟨true, [], [("name", JVal.vStr "a")]⟩ : VRes).errors = []) :=
  C4_theorem 5 noVCtx [("name", rString)] [("name", .vStr "a")]
    ⟨none, false, .vNull⟩ ⟨true, [], [("name", JVal.vStr "a")]⟩
    (by intro kv hkv; simp at hkv; subst hkv; exact ⟨by decide, by decide⟩)
    (by simp) rfl

/-! ### C3/C10 — hook scheduling around commits -/

theorem saveColsLoop_nocoll (ctx : Ctx) :
    ∀ (fs : Fields) (fuel : Nat),
      (∀ k c cp its dl, (k, JVal.vColl c cp its dl) ∉ fs) →
      fs.length ≤ fuel →
      ∀ (recP : SaveParams) (pref : Option String) (w : World),
        saveColsLoop fuel ctx recP pref fs w = .ok fs w := by
  intro fs
  induction fs with
  | nil =>
    intro fuel _ _ recP pref w
    cases fuel <;> rfl
  | cons a rest ih =>
    obtain ⟨k, v⟩ := a
    intro fuel hnc hlen recP pref w
    match fuel with
    | 0 => simp at hlen
    | f + 1 =>
      have hlen' : rest.length ≤ f := by simpa using hlen
      simp only [saveColsLoop]
      split
      · rename_i c cp its dl
        exact absurd (List.mem_cons_self _ _) (hnc k c cp its dl)
      · rw [ih f (fun k' c cp its dl hm =>
          hnc k' c cp its dl (List.mem_cons_of_mem _ hm)) hlen' recP pref w]

/-- The flat external-session save scenario: a persisted entity whose raw
change-set converts to a non-empty store payload, with no nested model
instances and no sub-collection fields, saved without validation into a
caller-provided non-internal session.  One own-document write of the
converted payload is emitted; the afterSave callback (with the creation
flag, here `false`) is queued — never executed — exactly when its guard
allows, followed by the deferred `resetChanges` callback; the executed
log is untouched. -/
theorem saveM_flat_external (fuel : Nat) (ctx : Ctx) (cls : MClass)
    (oid : String) (fields changes : Fields) (ref : String)
    (docId : Option String) (auth : JVal) (p : SaveParams) (s : Session)
    (w : World) (flat : Fields) (conv : Fields)
    (hps : p.session = some s) (hsi : s.internal = false)
    (hab : ¬(afterSaveEnabled p.callbacks = true ∧ cls.bSaveRet = false))
    (hval : p.validate = false)
    (hconv : Converter.toFirestore fuel changes = .ok conv)
    (hce : conv.isEmpty = false)
    (hflat : flattenObject fuel fields false "__SEP__" = .ok flat)
    (hnom : ∀ e ∈ flat, isModelInstance e.2 = false)
    (hlen : flat.length ≤ fuel)
    (hnc : ∀ k c cp its dl, (k, JVal.vColl c cp its dl) ∉ fields)
    (hfl : fields.length ≤ fuel) :
    saveM (fuel + 1) ctx
        (.vModel cls oid fields changes (some ref) none docId auth) p w
      = .ok (true, .vModel cls oid fields changes (some ref) none docId auth)
        { w with
          writes := w.writes ++
            [if p.overwrite then Write.setDoc ref conv
             else Write.updateDoc ref conv],
          queue := w.queue ++
            (if afterSaveEnabled p.callbacks then
              [(s.sessId, ⟨oid, "afterSave", [JVal.vBool false]⟩)]
             else []) ++
            [(s.sessId, ⟨oid, "resetChanges", []⟩)] } := by
  obtain ⟨cb, vd, ov, sess, rec, pr, fn⟩ := p
  simp only at hps hab hval ⊢
  subst hps
  subst hval
  by_cases hen : afterSaveEnabled cb = true
  · have hbs : cls.bSaveRet = true := by
      rcases Bool.eq_false_or_eq_true cls.bSaveRet with hb | hb
      · exact hb
      · exact absurd ⟨hen, hb⟩ hab
    simp only [saveM, if_neg hab, Bool.false_eq_true, if_false, hflat,
      saveRefEntries_skip ctx _ flat fuel _ hlen hnom, List.foldl_nil,
      List.map_nil, List.isEmpty_nil, if_true, hconv, hce,
      Option.orElse, Option.isSome_some, Bool.not_true,
      saveColsLoop_nocoll ctx fields fuel hnc hfl, hen, hsi,
      storeCallback, and_false, not_true, false_and, if_false,
      List.append_assoc, List.singleton_append, hbs, Bool.true_eq_false,
      if_true]
  · simp only [saveM, if_neg hab, Bool.false_eq_true, if_false, hflat,
      saveRefEntries_skip ctx _ flat fuel _ hlen hnom, List.foldl_nil,
      List.map_nil, List.isEmpty_nil, if_true, hconv, hce,
      Option.orElse, Option.isSome_some, Bool.not_true,
      saveColsLoop_nocoll ctx fields fuel hnc hfl, hen, hsi,
      storeCallback, and_false, not_true, false_and, if_false,
      List.append_nil, List.append_assoc, List.singleton_append]

/-- C10: `options.callbacks: 'afterSave'` satisfies the shared guard
`callbacks === true || callbacks === 'afterSave'`, so the beforeSave hook
still runs first and its `false` return aborts the save — identical world,
no writes; `options.callbacks: 'beforeSave'` fails that same guard, so the
beforeSave hook is not consulted (the save proceeds even when it would
return `false`) and no afterSave callback is queued — only the deferred
`resetChanges` entry joins the queue. -/
theorem C10_theorem :
    (∀ (fuel : Nat) (ctx : Ctx) (cls : MClass) (oid : String)
       (fields changes : Fields) (fireRef docSnap docId : Option String)
       (auth : JVal) (p : SaveParams) (w : World),
      afterSaveEnabled p.callbacks = true → cls.bSaveRet = false →
      saveM (fuel + 1) ctx
          (.vModel cls oid fields changes fireRef docSnap docId auth) p w
        = .ok (false, .vModel cls oid fields changes fireRef docSnap docId auth)
            w) ∧
    (afterSaveEnabled (CbOpt.str "afterSave") = true ∧
      afterSaveEnabled (CbOpt.str "beforeSave") = false) ∧
    (∀ (fuel : Nat) (ctx : Ctx) (cls : MClass) (oid : String)
       (fields changes : Fields) (ref : String) (docId : Option String)
       (auth : JVal) (s : Session) (w : World) (flat : Fields) (conv : Fields)
       (ov : Bool) (pr fn : Option String),
      s.internal = false →
      cls.bSaveRet = false →
      Converter.toFirestore fuel changes = .ok conv →
      conv.isEmpty = false →
      flattenObject fuel fields false "__SEP__" = .ok flat →
      (∀ e ∈ flat, isModelInstance e.2 = false) →
      flat.length ≤ fuel →
      (∀ k c cp its dl, (k, JVal.vColl c cp its dl) ∉ fields) →
      fields.length ≤ fuel →
      saveM (fuel + 1) ctx
          (.vModel cls oid fields changes (some ref) none docId auth)
          ⟨.str "beforeSave", false, ov, some s, false, pr, fn⟩ w
        = .ok (true, .vModel cls oid fields changes (some ref) none docId auth)
          { w with
            writes := w.writes ++
              [if ov then Write.setDoc ref conv
               else Write.updateDoc ref conv],
            queue := w.queue ++ [(s.sessId, ⟨oid, "resetChanges", []⟩)] }) := by
  refine ⟨?_, ⟨rfl, rfl⟩, ?_⟩
  · intro fuel ctx cls oid fields changes fireRef docSnap docId auth p w h1 h2
    simp only [saveM, h1, h2, eq_self_iff_true, and_self, if_true]
  · intro fuel ctx cls oid fields changes ref docId auth s w flat conv ov pr fn
      hsi hbs hconv hce hflat hnom hlen hnc hfl
    have h := saveM_flat_external fuel ctx cls oid fields changes ref docId
      auth ⟨.str "beforeSave", false, ov, some s, false, pr, fn⟩ s w flat conv
      rfl hsi (by simp [afterSaveEnabled]) rfl hconv hce hflat hnom hlen hnc hfl
    rw [h]
    simp [afterSaveEnabled]

/-- C10 witness: with default callbacks (`true`) and a beforeSave hook
returning `false`, the save aborts untouched. -/
theorem C10_witness :
    saveM 1 ctx0
        (.vModel ⟨"Noop", "Noop_1", "noops", true, [], [], [], false, true⟩
          "o1" [] [] none none none .vNull) pDef w0
      = .ok (false,
          .vModel ⟨"Noop", "Noop_1", "noops", true, [], [], [], false, true⟩
            "o1" [] [] none none none .vNull) w0 :=
  C10_theorem.1 0 ctx0 ⟨"Noop", "Noop_1", "noops", true, [], [], [], false, true⟩
    "o1" [] [] none none none .vNull pDef w0 rfl rfl

/-- C3 (corrected): for a save into a caller-provided (non-internal) batch
session, the enabled afterSave hook is queued under the session id with the
creation flag as argument and nothing is executed; the interposed batch
commit then runs every callback queued under that session exactly once on
success (and clears them, so a later commit cannot rerun them), while a
failed batch commit discards them unexecuted and rethrows.  For a
TRANSACTION session the queued callbacks run after the executor but BEFORE
the driver's final commit: a commit failure still propagates, but the
callbacks have already executed rather than being discarded. -/
theorem C3_theorem :
    (∀ (fuel : Nat) (ctx : Ctx) (cls : MClass) (oid : String)
       (fields changes : Fields) (ref : String) (docId : Option String)
       (auth : JVal) (p : SaveParams) (s : Session) (w : World) (flat : Fields)
       (conv : Fields),
      p.session = some s → s.internal = false →
      afterSaveEnabled p.callbacks = true → cls.bSaveRet = true →
      p.validate = false →
      Converter.toFirestore fuel changes = .ok conv →
      conv.isEmpty = false →
      flattenObject fuel fields false "__SEP__" = .ok flat →
      (∀ e ∈ flat, isModelInstance e.2 = false) → flat.length ≤ fuel →
      (∀ k c cp its dl, (k, JVal.vColl c cp its dl) ∉ fields) →
      fields.length ≤ fuel →
      saveM (fuel + 1) ctx
          (.vModel cls oid fields changes (some ref) none docId auth) p w
        = .ok (true, .vModel cls oid fields changes (some ref) none docId auth)
          { w with
            writes := w.writes ++
              [if p.overwrite then Write.setDoc ref conv
               else Write.updateDoc ref conv],
            queue := w.queue ++
              [(s.sessId, ⟨oid, "afterSave", [JVal.vBool false]⟩),
               (s.sessId, ⟨oid, "resetChanges", []⟩)] }) ∧
    (∀ (ctx : Ctx) (s : Session) (w : World),
      ctx.commitOk s.sessId = true →
      batchCommit ctx s w = .ok ()
        { w with queue := w.queue.filter (fun e => e.1 ≠ s.sessId),
                 executed := w.executed ++ getCallbacks s.sessId w }) ∧
    (∀ (s : Session) (w : World),
      getCallbacks s.sessId (clearQueue s.sessId w) = []) ∧
    (∀ (ctx : Ctx) (s : Session) (w : World),
      ctx.commitOk s.sessId = false →
      batchCommit ctx s w = .exn "CommitError"
        { w with queue := w.queue.filter (fun e => e.1 ≠ s.sessId) }) ∧
    (∀ (ctx : Ctx) (executor : Session → World → WRes Unit) (w w₂ : World),
      executor ⟨true, (takeId w).1, false⟩ (takeId w).2 = .ok () w₂ →
      ctx.commitOk (takeId w).1 = false →
      Firesnap.transaction ctx executor w = .exn "TxnCommitError"
        { w₂ with queue := w₂.queue.filter (fun e => e.1 ≠ (takeId w).1),
                  executed := w₂.executed ++ getCallbacks (takeId w).1 w₂ }) := by
  refine ⟨?_, ?_, ?_, ?_, ?_⟩
  · intro fuel ctx cls oid fields changes ref docId auth p s w flat conv
      hps hsi hen hbs hval hconv hce hflat hnom hlen hnc hfl
    have h := saveM_flat_external fuel ctx cls oid fields changes ref docId
      auth p s w flat conv hps hsi
      (by intro hc; rw [hbs] at hc; exact absurd hc.2 (by simp))
      hval hconv hce hflat hnom hlen hnc hfl
    rw [h]
    simp [hen]
  · intro ctx s w h
    simp [batchCommit, clearQueue, h]
  · intro s w
    simp only [getCallbacks, clearQueue, List.filter_filter]
    rw [List.filter_eq_nil.mpr]
    · rfl
    · intro e _
      simp
  · intro ctx s w h
    simp [batchCommit, clearQueue, h]
  · intro ctx executor w w₂ hex hcm
    simp only [Firesnap.transaction, hex, hcm, Bool.false_eq_true, if_false,
      clearQueue]

/-- A persisted entity with one pending field change. -/
def mTxn : JVal :=
  .vModel postCls "oT" [("title", .vStr "t")] [("title", .vStr "t")]
    (some "posts/p9") none none .vNull

/-- A transaction executor that performs one entity save in the
transaction's session. -/
def txnExec (s : Session) (w : World) : WRes Unit :=
  match saveM 31 ctxBad mTxn ⟨.tru, false, false, some s, false, none, none⟩ w with
  | .fuelOut => .fuelOut
  | .exn e w' => .exn e w'
  | .ok _ w' => .ok () w'

/-- C3 counterexample: a transaction whose store commit fails still ends
with the saved entity's afterSave (and resetChanges) callbacks in the
executed log — they ran before the driver's final commit and are not
discarded on its failure, contradicting the batch-like reading. -/
theorem C3_counterexample :
    Firesnap.transaction ctxBad txnExec w0
      = .exn "TxnCommitError"
        ⟨[Write.updateDoc "posts/p9" [("title", .vStr "t")]], [],
         [⟨"oT", "afterSave", [.vBool false]⟩, ⟨"oT", "resetChanges", []⟩],
         ["g2", "g3"], 0⟩ := rfl

/-- C3 witness: a successful batch commit executes the session's queued
callbacks and clears them. -/
theorem C3_witness :
    batchCommit ctx0 ⟨false, "s1", false⟩ w0
      = .ok () { w0 with
          queue := w0.queue.filter (fun e => e.1 ≠ "s1"),
          executed := w0.executed ++ getCallbacks "s1" w0 } :=
  C3_theorem.2.1 ctx0 ⟨false, "s1", false⟩ w0 rfl

/-! ### C8 — flatten/expand round trip -/

/-- A key usable in the flatten/expand round trip: no `.` (the separator)
and not numeric (which would make `expandObject` build an array). -/
def GoodKey (k : String) : Prop :=
  '.' ∉ k.data ∧ jsIsNumericStr k = false

theorem splitFuel_irrel :
    ∀ (cs : List Char) (fuel₁ fuel₂ : Nat) (acc : List Char),
      cs.length < fuel₁ → cs.length < fuel₂ →
      splitFuel fuel₁ ['.'] cs acc = splitFuel fuel₂ ['.'] cs acc := by
  intro cs
  induction cs with
  | nil =>
    intro f₁ f₂ acc h₁ h₂
    match f₁, f₂ with
    | g₁ + 1, g₂ + 1 => rfl
  | cons c rest ih =>
    intro f₁ f₂ acc h₁ h₂
    match f₁, f₂ with
    | g₁ + 1, g₂ + 1 =>
      simp only [splitFuel]
      split
      · rw [show List.drop (['.'] : List Char).length (c :: rest) = rest from rfl]
        rw [ih g₁ g₂ [] (by simp at h₁; omega) (by simp at h₂; omega)]
      · exact ih g₁ g₂ (acc ++ [c]) (by simp at h₁; omega) (by simp at h₂; omega)

theorem splitFuel_nodot :
    ∀ (cs : List Char) (fuel : Nat) (acc : List Char),
      cs.length < fuel → '.' ∉ cs →
      splitFuel fuel ['.'] cs acc = [acc ++ cs] := by
  intro cs
  induction cs with
  | nil =>
    intro fuel acc h _
    match fuel with
    | g + 1 => simp [splitFuel]
  | cons c rest ih =>
    intro fuel acc h hd
    match fuel with
    | g + 1 =>
      have hc : ¬('.' = c) := fun he => hd (by rw [he]; exact List.mem_cons_self _ _)
      have hrest : '.' ∉ rest := fun hm => hd (List.mem_cons_of_mem _ hm)
      simp only [splitFuel]
      rw [if_neg (by simp [List.isPrefixOf, hc])]
      rw [ih g (acc ++ [c]) (by simpa using h) hrest]
      simp

theorem splitFuel_dot :
    ∀ (sChars : List Char) (fuel : Nat) (acc tail : List Char),
      '.' ∉ sChars → sChars.length + (tail.length + 1) < fuel →
      splitFuel fuel ['.'] (sChars ++ '.' :: tail) acc
        = (acc ++ sChars) :: splitFuel (tail.length + 1) ['.'] tail [] := by
  intro sChars
  induction sChars with
  | nil =>
    intro fuel acc tail _ h
    match fuel with
    | g + 1 =>
      rw [List.nil_append]
      conv_lhs => rw [splitFuel]
      rw [if_pos (by simp [List.isPrefixOf])]
      rw [show List.drop (['.'] : List Char).length ('.' :: tail) = tail from rfl]
      rw [splitFuel_irrel tail g (tail.length + 1) []
        (by simp at h; omega) (Nat.lt_succ_self _)]
      simp
  | cons c sc ih =>
    intro fuel acc tail hd h
    match fuel with
    | g + 1 =>
      have hc : ¬('.' = c) := fun he => hd (by rw [he]; exact List.mem_cons_self _ _)
      have hsc : '.' ∉ sc := fun hm => hd (List.mem_cons_of_mem _ hm)
      rw [List.cons_append]
      conv_lhs => rw [splitFuel]
      rw [if_neg (by simp [List.isPrefixOf, hc])]
      rw [ih g (acc ++ [c]) tail hsc (by simp at h; omega)]
      simp [List.append_assoc]

theorem jsJoin_cons_data :
    ∀ (rr : List String) (s t : String),
      (jsJoin "." (s :: t :: rr)).data
        = s.data ++ '.' :: (jsJoin "." (t :: rr)).data := by
  intro rr
  induction rr with
  | nil =>
    intro s t
    show ((s ++ "." ++ t)).data = s.data ++ '.' :: t.data
    simp [String.data_append]
  | cons u ru ih =>
    intro s t
    have h1 : jsJoin "." (s :: t :: u :: ru) = jsJoin "." ((s ++ "." ++ t) :: u :: ru) := by
      simp only [jsJoin, List.foldl_cons]
    rw [h1, ih (s ++ "." ++ t) u, ih t u]
    simp [String.data_append]

theorem splitJoin :
    ∀ (segs : List String), segs ≠ [] → (∀ s ∈ segs, '.' ∉ s.data) →
      jsSplit (jsJoin "." segs) "." = segs := by
  intro segs
  induction segs with
  | nil => intro h _; exact absurd rfl h
  | cons s rest ih =>
    intro _ hgood
    cases rest with
    | nil =>
      show jsSplit (jsJoin "." [s]) "." = [s]
      have hj : jsJoin "." [s] = s := rfl
      rw [hj]
      unfold jsSplit
      rw [if_neg (by decide)]
      rw [show ("." : String).toList = ['.'] from rfl]
      rw [splitFuel_nodot s.toList (s.length + 1) []
        (Nat.lt_succ_self _) (hgood s (List.mem_cons_self _ _))]
      rfl
    | cons t rr =>
      have hd : (jsJoin "." (s :: t :: rr)).data
          = s.data ++ '.' :: (jsJoin "." (t :: rr)).data := jsJoin_cons_data rr s t
      unfold jsSplit
      rw [if_neg (by decide)]
      rw [show ("." : String).toList = ['.'] from rfl]
      have hlen : (jsJoin "." (s :: t :: rr)).length
          = s.data.length + ((jsJoin "." (t :: rr)).data.length + 1) := by
        show (jsJoin "." (s :: t :: rr)).data.length = _
        rw [hd]
        simp
      have hsplit : splitFuel ((jsJoin "." (s :: t :: rr)).length + 1) ['.']
          (jsJoin "." (s :: t :: rr)).toList []
          = ([] ++ s.data) :: splitFuel ((jsJoin "." (t :: rr)).data.length + 1)
              ['.'] (jsJoin "." (t :: rr)).data [] := by
        have htl : (jsJoin "." (s :: t :: rr)).toList
            = s.data ++ '.' :: (jsJoin "." (t :: rr)).data := hd
        rw [htl, splitFuel_dot s.data _ [] (jsJoin "." (t :: rr)).data
          (hgood s (List.mem_cons_self _ _)) (by rw [hlen]; omega)]
      rw [hsplit]
      simp only [List.nil_append, List.map_cons]
      have hih := ih (by simp) (fun x hx => hgood x (List.mem_cons_of_mem _ hx))
      unfold jsSplit at hih
      rw [if_neg (by decide)] at hih
      rw [show ("." : String).toList = ['.'] from rfl] at hih
      have hlen2 : (jsJoin "." (t :: rr)).length
          = (jsJoin "." (t :: rr)).data.length := rfl
      rw [hlen2] at hih
      rw [show (jsJoin "." (t :: rr)).toList
        = (jsJoin "." (t :: rr)).data from rfl] at hih
      rw [hih]

theorem jsJoin_inj {p q : List String} (hp : p ≠ []) (hq : q ≠ [])
    (hgp : ∀ s ∈ p, '.' ∉ s.data) (hgq : ∀ s ∈ q, '.' ∉ s.data)
    (h : jsJoin "." p = jsJoin "." q) : p = q := by
  have h1 := splitJoin p hp hgp
  rw [h, splitJoin q hq hgq] at h1
  exact h1.symm

mutual
/-- Values that survive the flatten/expand round trip: any non-null,
non-undefined leaf (arrays included, since flattening excludes them), or a
non-empty plain object of such values. -/
inductive PlainVal : JVal → Prop where
  | leaf : ∀ v, v ≠ .vNull → v ≠ .vUndef → (∀ fs, v ≠ .vObj fs) → PlainVal v
  | obj : ∀ fs, PlainFields fs → fs ≠ [] → PlainVal (.vObj fs)

/-- Field maps usable in the round trip: round-trippable values under good
keys, no duplicates. -/
inductive PlainFields : Fields → Prop where
  | nil : PlainFields []
  | cons : ∀ k v rest, GoodKey k → PlainVal v → PlainFields rest →
      getKey rest k = none → PlainFields ((k, v) :: rest)
end

/-- The nested write `expandObject` effectively performs for one flat
entry: descend/extend plain objects along the split path and place the
value at the end. -/
def putPath : List String → JVal → JVal → JVal
  | [], _, v => v
  | s :: rest, .vObj fs, v =>
    .vObj (setKey fs s (putPath rest ((getKey fs s).getD (.vObj [])) v))
  | s :: rest, _, v => .vObj [(s, putPath rest (.vObj []) v)]

/-- Descent through existing objects along a path, ending at the object
content of the final node — or at a missing slot, whose content is the
empty object about to be created. -/
inductive AnchorEnd : JVal → List String → Fields → Prop where
  | refl : ∀ fs, AnchorEnd (.vObj fs) [] fs
  | step : ∀ fs k sub rest obj, getKey fs k = some sub →
      AnchorEnd sub rest obj → AnchorEnd (.vObj fs) (k :: rest) obj
  | miss : ∀ fs k rest, getKey fs k = none →
      AnchorEnd (.vObj fs) (k :: rest) []

/-- A path along which `expandStep` walks objects and ends at an absent
slot, creating plain objects (never arrays) past the first absence. -/
inductive FreshPath : JVal → List String → Prop where
  | last : ∀ fs k, getKey fs k = none → FreshPath (.vObj fs) [k]
  | step : ∀ fs k sub rest, getKey fs k = some sub →
      FreshPath sub rest → FreshPath (.vObj fs) (k :: rest)
  | create : ∀ fs k rest, getKey fs k = none → rest ≠ [] →
      (∀ s ∈ rest, jsIsNumericStr s = false) →
      FreshPath (.vObj fs) (k :: rest)

/-- The entry fold of `expandObject`, generalised over its start value. -/
def expandMany (sep : String) (start : Res JVal) (entries : Fields) :
    Res JVal :=
  entries.foldl
    (fun (acc : Res JVal) (kv : String × JVal) =>
      match acc with
      | .fuelOut => .fuelOut
      | .exn e => .exn e
      | .ok cur => expandStep cur (jsSplit kv.1 sep) kv.2)
    start

theorem expandMany_append (sep : String) (a : Res JVal) (x y : Fields) :
    expandMany sep a (x ++ y) = expandMany sep (expandMany sep a x) y := by
  simp [expandMany, List.foldl_append]

theorem expandObject_eq (obj : Fields) (sep : String) :
    expandObject obj sep
      = match expandMany sep (.ok (.vObj [])) obj with
        | .fuelOut => .fuelOut
        | .exn e => .exn e
        | .ok (.vObj fs) => .ok fs
        | .ok _ => .exn "Unreachable" := rfl

theorem setKey_append {α : Type} {m : List (String × α)} {k : String}
    (v : α) (h : getKey m k = none) : setKey m k v = m ++ [(k, v)] := by
  induction m with
  | nil => rfl
  | cons a rest ih =>
    simp only [getKey] at h
    simp only [setKey]
    split at h
    · exact absurd h (by simp)
    · rename_i hk
      rw [if_neg hk, ih h]
      rfl

theorem setKey_setKey {α : Type} (m : List (String × α)) (k : String)
    (a b : α) : setKey (setKey m k a) k b = setKey m k b := by
  induction m with
  | nil => simp [setKey]
  | cons e rest ih =>
    simp only [setKey]
    split
    · simp [setKey]
    · rename_i hk
      simp only [setKey, if_neg hk, ih]

theorem getKey_none_forall {α : Type} {l : List (String × α)} {k : String}
    (h : getKey l k = none) : ∀ e ∈ l, e.1 ≠ k := by
  induction l with
  | nil => intro e he; simp at he
  | cons a rest ih =>
    simp only [getKey] at h
    split at h
    · exact absurd h (by simp)
    · rename_i hk
      intro e he
      rcases List.mem_cons.mp he with he | he
      · rw [he]; exact hk
      · exact ih h e he

theorem getKey_append_none {α : Type} {m : List (String × α)} {k k' : String}
    (v : α) (h : getKey m k = none) (hk : k' ≠ k) :
    getKey (m ++ [(k', v)]) k = none := by
  induction m with
  | nil => simp [getKey, hk]
  | cons a rest ih =>
    simp only [getKey] at h
    simp only [List.cons_append, getKey]
    split at h
    · exact absurd h (by simp)
    · rename_i ha
      rw [if_neg ha]
      exact ih h

theorem anchor_empty : ∀ (path : List String), AnchorEnd (.vObj []) path [] := by
  intro path
  cases path with
  | nil => exact .refl []
  | cons s rest => exact .miss [] s rest rfl

theorem anchor_extend {cur : JVal} {path : List String} {obj : Fields}
    {k : String} (h : AnchorEnd cur path obj) (hk : getKey obj k = none) :
    AnchorEnd cur (path ++ [k]) [] := by
  induction h with
  | refl fs => exact .miss fs k [] hk
  | step fs k' sub rest obj hget _ ih => exact .step fs k' sub _ [] hget (ih hk)
  | miss fs k' rest hget => exact .miss fs k' (rest ++ [k]) hget

theorem anchor_put {newObj : Fields} :
    ∀ (path : List String) (cur : JVal) (obj : Fields),
      AnchorEnd cur path obj →
      AnchorEnd (putPath path cur (.vObj newObj)) path newObj := by
  intro path
  induction path with
  | nil =>
    intro cur obj h
    cases h with
    | refl fs => exact .refl newObj
  | cons s rest ih =>
    intro cur obj h
    cases h with
    | step fs _ sub _ _ hget hsub =>
      simp only [putPath, hget, Option.getD_some]
      exact .step _ s _ rest newObj (getKey_setKey_self fs s _) (ih sub obj hsub)
    | miss fs _ _ hget =>
      simp only [putPath, hget, Option.getD_none]
      exact .step _ s _ rest newObj (getKey_setKey_self fs s _)
        (ih (.vObj []) [] (anchor_empty rest))

theorem putPath_idem :
    ∀ (path : List String) (cur x y : JVal),
      putPath path (putPath path cur x) y = putPath path cur y := by
  intro path
  induction path with
  | nil => intro cur x y; rfl
  | cons s rest ih =>
    intro cur x y
    cases cur with
    | vObj fs =>
      simp only [putPath, getKey_setKey_self, Option.getD_some, setKey_setKey,
        ih]
    | vNull => simp [putPath, getKey, setKey, ih]
    | vUndef => simp [putPath, getKey, setKey, ih]
    | vStr a => simp [putPath, getKey, setKey, ih]
    | vNum a => simp [putPath, getKey, setKey, ih]
    | vBool a => simp [putPath, getKey, setKey, ih]
    | vDate a => simp [putPath, getKey, setKey, ih]
    | vTransform a => simp [putPath, getKey, setKey, ih]
    | vDoc a b => simp [putPath, getKey, setKey, ih]
    | vRef a => simp [putPath, getKey, setKey, ih]
    | vArr a => simp [putPath, getKey, setKey, ih]
    | vModel a b c d e f g h => simp [putPath, getKey, setKey, ih]
    | vColl a b c d => simp [putPath, getKey, setKey, ih]

theorem putPath_ext :
    ∀ (path : List String) (cur : JVal) (obj : Fields) (k : String) (x : JVal),
      AnchorEnd cur path obj → getKey obj k = none →
      putPath (path ++ [k]) cur x = putPath path cur (.vObj (obj ++ [(k, x)])) := by
  intro path
  induction path with
  | nil =>
    intro cur obj k x h hk
    cases h with
    | refl =>
      show JVal.vObj (setKey obj k (putPath [] ((getKey obj k).getD (.vObj [])) x))
        = .vObj (obj ++ [(k, x)])
      rw [show putPath [] ((getKey obj k).getD (.vObj [])) x = x from rfl]
      rw [setKey_append x hk]
  | cons s rest ih =>
    intro cur obj k x h hk
    cases h with
    | step fs _ sub _ _ hget hsub =>
      simp only [List.cons_append, List.append_eq, putPath, hget,
        Option.getD_some]
      rw [ih sub obj k x hsub hk]
    | miss fs _ _ hget =>
      simp only [List.cons_append, List.append_eq, putPath, hget,
        Option.getD_none]
      rw [ih (.vObj []) [] k x (anchor_empty rest) rfl]

theorem freshPath_vobj_nil :
    ∀ (segs : List String), segs ≠ [] →
      (∀ s ∈ segs, jsIsNumericStr s = false) →
      FreshPath (.vObj []) segs := by
  intro segs hne hnn
  cases segs with
  | nil => exact absurd rfl hne
  | cons s rest =>
    cases rest with
    | nil => exact .last [] s rfl
    | cons r rs =>
      exact .create [] s (r :: rs) rfl (by simp)
        (fun t ht => hnn t (List.mem_cons_of_mem _ ht))

theorem freshPath_of_anchor :
    ∀ (path : List String) (cur : JVal) (obj : Fields) (k : String),
      AnchorEnd cur path obj → getKey obj k = none →
      (∀ s ∈ path, jsIsNumericStr s = false) → jsIsNumericStr k = false →
      FreshPath cur (path ++ [k]) := by
  intro path
  induction path with
  | nil =>
    intro cur obj k h hk _ _
    cases h with
    | refl => exact .last obj k hk
  | cons s rest ih =>
    intro cur obj k h hk hnn hkn
    cases h with
    | step fs _ sub _ _ hget hsub =>
      exact .step fs s sub _ hget
        (ih sub obj k hsub hk (fun t ht => hnn t (List.mem_cons_of_mem _ ht)) hkn)
    | miss fs _ _ hget =>
      refine .create fs s (rest ++ [k]) hget (by simp) ?_
      intro t ht
      rcases List.mem_append.mp ht with h1 | h1
      · exact hnn t (List.mem_cons_of_mem _ h1)
      · rw [List.mem_singleton.mp h1]
        exact hkn

theorem expandStep_putPath :
    ∀ (segs : List String) (cur v : JVal),
      FreshPath cur segs →
      expandStep cur segs v = .ok (putPath segs cur v) := by
  intro segs
  induction segs with
  | nil => intro cur v h; cases h
  | cons s rest ih =>
    intro cur v h
    cases h with
    | last fs _ hget =>
      simp only [expandStep, expandRead, hget, putPath, expandWrite]
    | step fs _ sub _ hget hsub =>
      cases rest with
      | nil => cases hsub
      | cons r rs =>
        have hsubObj : ∃ gs, sub = .vObj gs := by
          cases hsub with
          | last gs _ _ => exact ⟨gs, rfl⟩
          | step gs _ _ _ _ _ => exact ⟨gs, rfl⟩
          | create gs _ _ _ _ _ => exact ⟨gs, rfl⟩
        obtain ⟨gs, hgs⟩ := hsubObj
        simp only [expandStep, expandRead, hget]
        rw [show jsTruthy sub = true from by rw [hgs]; rfl]
        simp only [if_true]
        rw [ih sub v hsub]
        simp only [putPath, hget, Option.getD_some]
        rw [hgs]
        rfl
    | create fs _ _ hget hne hnn =>
      cases rest with
      | nil => exact absurd rfl hne
      | cons r rs =>
        simp only [expandStep, expandRead, hget]
        rw [show jsIsNumericStr r = false from hnn r (List.mem_cons_self _ _)]
        simp only [Bool.false_eq_true, if_false]
        rw [ih (.vObj []) v (freshPath_vobj_nil (r :: rs) (by simp) hnn)]
        simp only [putPath, hget, Option.getD_none]
        rfl

theorem assignAll_fresh {α : Type} :
    ∀ (src m : List (String × α)),
      (∀ e ∈ src, getKey m e.1 = none) →
      (src.map Prod.fst).Nodup →
      assignAll m src = m ++ src := by
  intro src
  induction src with
  | nil => intro m _ _; simp [assignAll]
  | cons e rest ih =>
    intro m hf hnd
    show assignAll (setKey m e.1 e.2) rest = m ++ e :: rest
    rw [setKey_append e.2 (hf e (List.mem_cons_self _ _))]
    have hke : e.1 ∉ rest.map Prod.fst := by
      have h' : (e.1 :: rest.map Prod.fst).Nodup := by simpa using hnd
      exact (List.nodup_cons.mp h').1
    rw [ih (m ++ [(e.1, e.2)])
      (fun a ha => getKey_append_none e.2 (hf a (List.mem_cons_of_mem _ ha))
        (fun he => hke (he ▸ List.mem_map_of_mem Prod.fst ha)))
      (by have h' : (e.1 :: rest.map Prod.fst).Nodup := by simpa using hnd
          exact (List.nodup_cons.mp h').2)]
    simp

theorem good_append {path : List String} {k : String} {q : List String}
    (hgp : ∀ s ∈ path, GoodKey s) (hgq : ∀ s ∈ k :: q, GoodKey s) :
    ∀ s ∈ path ++ k :: q, '.' ∉ s.data := by
  intro s hs
  rcases List.mem_append.mp hs with h | h
  · exact (hgp s h).1
  · exact (hgq s h).1

theorem join_head_ne {path : List String} {k k' : String} {q q' : List String}
    (hgp : ∀ s ∈ path, GoodKey s) (hgkq : ∀ s ∈ k :: q, GoodKey s)
    (hgkq' : ∀ s ∈ k' :: q', GoodKey s) (hne : k ≠ k') :
    jsJoin "." (path ++ k :: q) ≠ jsJoin "." (path ++ k' :: q') := by
  intro heq
  have hinj := jsJoin_inj (p := path ++ k :: q) (q := path ++ k' :: q')
    (by simp) (by simp) (good_append hgp hgkq) (good_append hgp hgkq') heq
  have h2 := List.append_cancel_left hinj
  injection h2 with h3 _
  exact hne h3

/-- The memo argument of `flattenGo` holds no key that any entry of the
remaining fields could produce. -/
def flatDisj (fs : Fields) (path : List String) (memo : Fields) : Prop :=
  ∀ km ∈ memo, ∀ k ∈ fs.map Prod.fst, ∀ q : List String,
    (∀ s ∈ k :: q, GoodKey s) → km.1 ≠ jsJoin "." (path ++ k :: q)

theorem expandMany_single (sep : String) (cur : JVal) (key : String)
    (v : JVal) :
    expandMany sep (.ok cur) [(key, v)] = expandStep cur (jsSplit key sep) v :=
  rfl

theorem flatten_expand_mega : ∀ fuel : Nat,
    (∀ (fs : Fields) (path : List String) (memo out : Fields),
      PlainFields fs → (∀ s ∈ path, GoodKey s) →
      flattenGo fuel true "." fs path memo = .ok out →
      flatDisj fs path memo →
      ∃ ents, out = memo ++ ents ∧
        (∀ memo₂, flatDisj fs path memo₂ →
          flattenGo fuel true "." fs path memo₂ = .ok (memo₂ ++ ents)) ∧
        (∀ e ∈ ents, ∃ k q, k ∈ fs.map Prod.fst ∧
          (∀ s ∈ k :: q, GoodKey s) ∧ e.1 = jsJoin "." (path ++ k :: q)) ∧
        (ents.map Prod.fst).Nodup ∧
        (∀ (cur : JVal) (obj : Fields),
          AnchorEnd cur path obj →
          (∀ kv ∈ fs, getKey obj kv.1 = none) →
          (putPath path cur (.vObj obj) = cur ∨ fs ≠ []) →
          expandMany "." (.ok cur) ents
            = .ok (putPath path cur (.vObj (obj ++ fs))))) ∧
    (∀ (v : JVal) (k : String) (path : List String) (out : Fields),
      PlainVal v → GoodKey k → (∀ s ∈ path, GoodKey s) →
      flattenBranch fuel true "." v (path ++ [k]) = .ok out →
      (∀ e ∈ out, ∃ q, (∀ s ∈ k :: q, GoodKey s) ∧
        e.1 = jsJoin "." (path ++ k :: q)) ∧
      (out.map Prod.fst).Nodup ∧
      (∀ (cur : JVal) (obj : Fields),
        AnchorEnd cur path obj → getKey obj k = none →
        expandMany "." (.ok cur) out
          = .ok (putPath path cur (.vObj (obj ++ [(k, v)]))))) := by
  intro fuel
  induction fuel with
  | zero =>
    constructor
    · intro fs path memo out hpf hgp h hdisj
      cases fs with
      | nil =>
        simp only [flattenGo] at h
        injection h with h'
        refine ⟨[], by rw [← h']; simp, ?_, by simp, by simp, ?_⟩
        · intro memo₂ _
          simp [flattenGo]
        · intro cur obj hanc hfresh hre
          rcases hre with hre | hre
          · simp only [expandMany, List.foldl_nil]
            rw [List.append_nil, hre]
          · exact absurd rfl hre
      | cons a rest => exact absurd h (by simp [flattenGo])
    · intro v k path out _ _ _ h
      exact absurd h (by simp [flattenBranch])
  | succ fuel ih =>
    obtain ⟨ihGO, ihBR⟩ := ih
    constructor
    · intro fs path memo out hpf hgp h hdisj
      cases fs with
      | nil =>
        simp only [flattenGo] at h
        injection h with h'
        refine ⟨[], by rw [← h']; simp, ?_, by simp, by simp, ?_⟩
        · intro memo₂ _
          simp [flattenGo]
        · intro cur obj hanc hfresh hre
          rcases hre with hre | hre
          · simp only [expandMany, List.foldl_nil]
            rw [List.append_nil, hre]
          · exact absurd rfl hre
      | cons a rest =>
        obtain ⟨k, v⟩ := a
        cases hpf with
        | cons _ _ _ hgk hpv hprest hfreshk =>
          simp only [flattenGo] at h
          cases hbr : flattenBranch fuel true "." v (path ++ [k]) with
          | fuelOut => simp only [hbr] at h; exact absurd h (by simp)
          | exn e => simp only [hbr] at h; exact absurd h (by simp)
          | ok e₁ =>
            simp only [hbr] at h
            obtain ⟨hchar₁, hnd₁, hgraft₁⟩ := ihBR v k path e₁ hpv hgk hgp hbr
            have hkrest : ∀ k', k' ∈ rest.map Prod.fst → k' ≠ k := by
              intro k' hk' he
              rcases List.mem_map.mp hk' with ⟨kv, hkv, hkv1⟩
              exact getKey_none_forall hfreshk kv hkv (hkv1.trans he)
            have freshOf : ∀ (memo' : Fields), flatDisj ((k, v) :: rest) path memo' →
                ∀ e ∈ e₁, getKey memo' e.1 = none := by
              intro memo' hd e he
              obtain ⟨q, hq, hkey⟩ := hchar₁ e he
              by_contra hc
              obtain ⟨w, hw⟩ := Option.ne_none_iff_exists'.mp hc
              exact hd (e.1, w) (getKey_some_mem hw) k (by simp) q hq hkey
            have disjOf : ∀ (memo' : Fields), flatDisj ((k, v) :: rest) path memo' →
                flatDisj rest path (memo' ++ e₁) := by
              intro memo' hd km hkm k' hk' q hgq
              rcases List.mem_append.mp hkm with hm | hm
              · exact hd km hm k' (by simp [hk']) q hgq
              · obtain ⟨q₁, hq₁, hkey₁⟩ := hchar₁ km hm
                rw [hkey₁]
                exact join_head_ne hgp hq₁ hgq (fun he => hkrest k' hk' he.symm)
            rw [assignAll_fresh e₁ memo (freshOf memo hdisj) hnd₁] at h
            obtain ⟨ents₂, hout, hreplay₂, hchar₂, hnd₂, hgraft₂⟩ :=
              ihGO rest path (memo ++ e₁) out hprest hgp h (disjOf memo hdisj)
            refine ⟨e₁ ++ ents₂, ?_, ?_, ?_, ?_, ?_⟩
            · rw [hout, List.append_assoc]
            · intro memo₂ hdisj'
              simp only [flattenGo, hbr]
              rw [assignAll_fresh e₁ memo₂ (freshOf memo₂ hdisj') hnd₁]
              rw [hreplay₂ (memo₂ ++ e₁) (disjOf memo₂ hdisj'), List.append_assoc]
            · intro e he
              rcases List.mem_append.mp he with hm | hm
              · obtain ⟨q, hq, hkey⟩ := hchar₁ e hm
                exact ⟨k, q, by simp, hq, hkey⟩
              · obtain ⟨k', q, hk', hq, hkey⟩ := hchar₂ e hm
                refine ⟨k', q, ?_, hq, hkey⟩
                simp only [List.map_cons]
                exact List.mem_cons_of_mem _ hk' 
            · rw [List.map_append]
              rw [List.nodup_append]
              refine ⟨hnd₁, hnd₂, ?_⟩
              intro x hx hy
              rcases List.mem_map.mp hx with ⟨e, he, hex⟩
              rcases List.mem_map.mp hy with ⟨e', he', hey⟩
              obtain ⟨q, hq, hkey⟩ := hchar₁ e he
              obtain ⟨k', q', hk', hq', hkey'⟩ := hchar₂ e' he'
              have : x = jsJoin "." (path ++ k :: q) := by rw [← hex, hkey]
              have h2 : x = jsJoin "." (path ++ k' :: q') := by rw [← hey, hkey']
              exact join_head_ne hgp hq hq' (fun he => hkrest k' hk' he.symm)
                (this ▸ h2)
            · intro cur obj hanc hfresh hre
              rw [expandMany_append]
              rw [hgraft₁ cur obj hanc (hfresh (k, v) (List.mem_cons_self _ _))]
              rw [hgraft₂ (putPath path cur (.vObj (obj ++ [(k, v)])))
                (obj ++ [(k, v)]) (anchor_put path cur obj hanc)
                (fun kv hkv => getKey_append_none v
                  (hfresh kv (List.mem_cons_of_mem _ hkv))
                  (fun he => getKey_none_forall hfreshk kv hkv he.symm))
                (Or.inl (putPath_idem path cur _ _))]
              rw [putPath_idem, List.append_assoc]
              rfl
    · intro v k path out hpv hgk hgp h
      simp only [flattenBranch] at h
      cases hpv with
      | leaf v hnn hnu hno =>
        split at h
        · exact absurd h (by simp)
        · exact absurd h (by simp)
        · rename_i gs
          exact absurd rfl (hno gs)
        · simp only [if_true] at h
          injection h with h'
          refine ⟨?_, ?_, ?_⟩
          · intro e he
            rw [← h'] at he
            simp only [List.mem_singleton] at he
            rw [he]
            exact ⟨[], fun s hs => by
              simp only [List.mem_singleton] at hs; rw [hs]; exact hgk, rfl⟩
          · rw [← h']; simp
          · intro cur obj hanc hk
            rw [← h', expandMany_single]
            rw [splitJoin (path ++ [k]) (by simp)
              (good_append hgp (fun s hs => by
                simp only [List.mem_singleton] at hs; rw [hs]; exact hgk))]
            rw [expandStep_putPath (path ++ [k]) cur _
              (freshPath_of_anchor path cur obj k hanc hk
                (fun s hs => (hgp s hs).2) hgk.2)]
            rw [putPath_ext path cur obj k _ hanc hk]
        · injection h with h'
          refine ⟨?_, ?_, ?_⟩
          · intro e he
            rw [← h'] at he
            simp only [List.mem_singleton] at he
            rw [he]
            exact ⟨[], fun s hs => by
              simp only [List.mem_singleton] at hs; rw [hs]; exact hgk, rfl⟩
          · rw [← h']; simp
          · intro cur obj hanc hk
            rw [← h', expandMany_single]
            rw [splitJoin (path ++ [k]) (by simp)
              (good_append hgp (fun s hs => by
                simp only [List.mem_singleton] at hs; rw [hs]; exact hgk))]
            rw [expandStep_putPath (path ++ [k]) cur _
              (freshPath_of_anchor path cur obj k hanc hk
                (fun s hs => (hgp s hs).2) hgk.2)]
            rw [putPath_ext path cur obj k _ hanc hk]
      | obj gs hpgs hgne =>
        have hgoodpk : ∀ s ∈ path ++ [k], GoodKey s := by
          intro s hs
          rcases List.mem_append.mp hs with h1 | h1
          · exact hgp s h1
          · rw [List.mem_singleton.mp h1]; exact hgk
        obtain ⟨ents, hout, _, hchar, hnd, hgraft⟩ :=
          ihGO gs (path ++ [k]) [] out hpgs hgoodpk h
            (by intro km hkm; simp at hkm)
        rw [List.nil_append] at hout
        subst hout
        refine ⟨?_, hnd, ?_⟩
        · intro e he
          obtain ⟨k', q', hk', hq', hkey⟩ := hchar e he
          refine ⟨k' :: q', ?_, ?_⟩
          · intro s hs
            rcases List.mem_cons.mp hs with h1 | h1
            · rw [h1]; exact hgk
            · exact hq' s h1
          · rw [hkey, List.append_assoc]
            rfl
        · intro cur obj hanc hk
          rw [hgraft cur [] (anchor_extend hanc hk) (fun kv _ => rfl)
            (Or.inr hgne)]
          rw [List.nil_append]
          rw [putPath_ext path cur obj k (.vObj gs) hanc hk]

/-- C8 (corrected): the flatten/expand round trip
`expandObject (flattenObject x true) = x` holds for every nested plain
object whose keys are non-numeric, dot-free and duplicate-free at every
level, and whose values contain no null/undefined and no EMPTY nested
object; arrays and other non-object leaves are preserved verbatim.  The
extra value-side conditions are necessary: an empty nested object is
silently dropped by flattening and a null value makes it throw. -/
theorem C8_theorem :
    ∀ (fuel : Nat) (src flat : Fields),
      PlainFields src →
      flattenObject fuel src true "." = .ok flat →
      expandObject flat "." = .ok src := by
  intro fuel src flat hpf h
  simp only [flattenObject] at h
  obtain ⟨ents, hout, _, _, _, hgraft⟩ :=
    (flatten_expand_mega fuel).1 src [] [] flat hpf
      (by intro s hs; simp at hs) h (by intro km hkm; simp at hkm)
  rw [List.nil_append] at hout
  subst hout
  have hg := hgraft (.vObj []) [] (.refl []) (fun kv _ => rfl) (Or.inl rfl)
  rw [expandObject_eq, hg]
  rfl

/-- C8 witness: a two-level object with multi-character keys survives the
round trip. -/
theorem C8_witness :
    expandObject [("ab.cd", .vNum 1), ("e", .vStr "x")] "."
      = .ok [("ab", .vObj [("cd", .vNum 1)]), ("e", .vStr "x")] :=
  C8_theorem 9 [("ab", .vObj [("cd", .vNum 1)]), ("e", .vStr "x")]
    [("ab.cd", .vNum 1), ("e", .vStr "x")]
    (PlainFields.cons "ab" _ _ ⟨by decide, rfl⟩
      (PlainVal.obj _
        (PlainFields.cons "cd" _ _ ⟨by decide, rfl⟩
          (PlainVal.leaf _ (by simp) (by simp) (fun fs => by simp))
          PlainFields.nil rfl)
        (by simp))
      (PlainFields.cons "e" _ _ ⟨by decide, rfl⟩
        (PlainVal.leaf _ (by simp) (by simp) (fun fs => by simp))
        PlainFields.nil rfl)
      rfl)
    rfl
